import Mathlib

/-!
# A shallow embedding of the doubledb document database (src/index.ts)

The embedding models the single ordered key/value keyspace of the underlying
`level` store, the document/index/counter key encodings, and the public
operations `insert`, `replace`, `patch`, `remove`, `upsert`, `read`, `find`,
`filter`, `query`, `count` and `batchInsert`, translated from
`src/unnamed/part_000` (the repository's `src/index.ts`).

Modelling conventions:
* JS strings are Lean `String`s; the store's lexicographic byte order is
  modelled by codepoint-lexicographic order on `String.data` (they agree on
  the scalar values exercised here).
* JS numbers are restricted to the integer fragment (`Int`), which covers
  every numeric value appearing in the verified claims; `Number(s)` is
  modelled by an integer parser `jsNumber?` returning `none` for NaN.
* Values stored in the keyspace are either plain strings (`StoreVal.raw`,
  used for index entries and counters) or serialized documents
  (`StoreVal.doc`); the JSON serializer is the out-of-scope round-tripping
  collaborator of §6 of the spec, so `JSON.parse (JSON.stringify d) = d` is
  built in.  `jsonStr` renders a document the way `JSON.stringify` would,
  for the places where the code treats the raw stored string as a string.
* Sequential execution: the `await`-interleavings all linearize to program
  order, which is what the claims about completed operations refer to.
-/

/-- A JS value as stored in documents: string, number (integer fragment),
boolean, array or nested object.  Objects are insertion-ordered association
lists, mirroring `Object.entries` enumeration order. -/
inductive Value where
  | str (s : String)
  | num (n : Int)
  | bool (b : Bool)
  | arr (elems : List Value)
  | obj (fields : List (String × Value))

/-- A document: the field list of a top-level JS object. -/
abbrev Doc := List (String × Value)

/-- A value in the level keyspace: either a plain string (ids under index
keys, decimal numerals under counter keys) or a stored document (the JSON
string the code writes under a document id). -/
inductive StoreVal where
  | raw (s : String)
  | doc (d : Doc)

/-- The level store: an association list from keys to values.  `put` keeps
keys unique, so iteration order is recovered by sorting (`scanKeys`). -/
abbrev Store := List (String × StoreVal)

/-! ## Store primitives -/

/-- Point lookup, `db.get` (with `LEVEL_NOT_FOUND` as `none`). -/
def sget : Store → String → Option StoreVal
  | [], _ => none
  | (k', v) :: rest, k => if k' = k then some v else sget rest k

/-- Remove the binding of `k`, `db.del` (idempotent). -/
def sdel : Store → String → Store
  | [], _ => []
  | (k', v) :: rest, k => if k' = k then sdel rest k else (k', v) :: sdel rest k

/-- `db.put`: bind `k` to `v`, replacing any existing binding. -/
def sput (s : Store) (k : String) (v : StoreVal) : Store :=
  (k, v) :: sdel s k

/-- The list of keys bound in the store. -/
def skeys (s : Store) : List String := s.map (·.1)

/-! ## String utilities: lexicographic order, prefixes, numerals -/

/-- The sentinel `'\u{10FFFF}'` (`LastUnicodeCharacter` in the source). -/
def maxChar : Char := Char.ofNat 1114111

/-- `LastUnicodeCharacter` as a string. -/
def lastUni : String := String.mk [maxChar]

/-- Strict lexicographic byte/codepoint order on character lists, the order
in which the level store iterates keys. -/
def ltB : List Char → List Char → Bool
  | [], [] => false
  | [], _ :: _ => true
  | _ :: _, [] => false
  | a :: as, b :: bs => if a < b then true else if b < a then false else ltB as bs

/-- Non-strict lexicographic order. -/
def leB (a b : List Char) : Bool := !ltB b a

/-- String comparison used for store bounds. -/
def strLt (a b : String) : Bool := ltB a.data b.data

/-- Non-strict string comparison used for store bounds. -/
def strLe (a b : String) : Bool := leB a.data b.data

/-- `startsWith`, modelled on the underlying character lists. -/
def strStarts (p s : String) : Bool := p.data.isPrefixOf s.data

/-- Digit characters of `n`, most significant first.  The structural fuel
makes the definition kernel-reducible; any `fuel > n` gives the digits of
`n`. -/
def natDigitsF : Nat → Nat → List Char
  | 0, _ => []
  | fuel + 1, n =>
    if n < 10 then [Char.ofNat (48 + n)]
    else natDigitsF fuel (n / 10) ++ [Char.ofNat (48 + n % 10)]

/-- Decimal digits of a natural number. -/
def natToDec (n : Nat) : String := String.mk (natDigitsF (n + 1) n)

/-- Decimal rendering of a JS integer, `Number.prototype.toString`. -/
def intToDec (n : Int) : String :=
  if n < 0 then String.mk ('-' :: (natToDec (-n).toNat).data) else natToDec n.toNat

/-- Numeric value of a digit character. -/
def digitVal (c : Char) : Nat := c.toNat - 48

/-- Value of a digit list, most significant first. -/
def digitsVal (l : List Char) : Nat := l.foldl (fun acc c => acc * 10 + digitVal c) 0

/-- `Number(s)` on the integer fragment: `none` models NaN.  The empty
string parses as `0`, as in JS. -/
def jsNumber? (s : String) : Option Int :=
  if s.data = [] then some 0
  else if s.data.head? = some '-' then
    if s.data.tail ≠ [] ∧ s.data.tail.all Char.isDigit then
      some (-(digitsVal s.data.tail : Int))
    else none
  else if s.data.all Char.isDigit then some (digitsVal s.data : Int) else none

/-! ## JS value stringification and serialization -/

mutual

/-- JS template-literal coercion of a value, as used in index and counter
keys (`${value}`): strings verbatim, numbers in decimal, booleans as
`true`/`false`, arrays joined by commas, objects as `[object Object]`. -/
def valueToString : Value → String
  | .str s => s
  | .num n => intToDec n
  | .bool b => if b then "true" else "false"
  | .arr xs => arrToString xs
  | .obj _ => "[object Object]"

/-- `Array.prototype.toString`: elements joined by `,`. -/
def arrToString : List Value → String
  | [] => ""
  | [x] => valueToString x
  | x :: y :: xs => valueToString x ++ "," ++ arrToString (y :: xs)

end

mutual

/-- `JSON.stringify` for the modelled value fragment.  String escaping is
omitted: no verified claim observes the serialized text of a string field,
only that a serialized document is not a decimal numeral. -/
def jsonStr : Value → String
  | .str s => "\"" ++ s ++ "\""
  | .num n => intToDec n
  | .bool b => if b then "true" else "false"
  | .arr xs => "[" ++ jsonArr xs ++ "]"
  | .obj fs => "\x7b" ++ jsonFields fs ++ "\x7d"

/-- Serialized array elements. -/
def jsonArr : List Value → String
  | [] => ""
  | [x] => jsonStr x
  | x :: y :: xs => jsonStr x ++ "," ++ jsonArr (y :: xs)

/-- Serialized object fields. -/
def jsonFields : List (String × Value) → String
  | [] => ""
  | [(k, v)] => "\"" ++ k ++ "\":" ++ jsonStr v
  | (k, v) :: f :: fs => "\"" ++ k ++ "\":" ++ jsonStr v ++ "," ++ jsonFields (f :: fs)

end

/-- The serialized form of a stored value: index entries and counters are
stored as the strings themselves, documents as their JSON text.  This is
what `db.get` hands back to the code. -/
def storeValStr : StoreVal → String
  | .raw s => s
  | .doc d => jsonStr (.obj d)

/-! ## Safety: scalar text that avoids the key-encoding separators -/

/-- A character that cannot corrupt the `=`/`|`-delimited key encoding nor
collide with the `maxChar` sentinel. -/
def safeChar (c : Char) : Bool := c ≠ '|' && c ≠ '=' && c ≠ maxChar

/-- A string of safe characters. -/
def safeStr (s : String) : Bool := s.data.all safeChar

mutual

/-- A value whose every embedded string is safe. -/
def safeVal : Value → Bool
  | .str s => safeStr s
  | .num _ => true
  | .bool _ => true
  | .arr xs => safeList xs
  | .obj fs => safeFields fs

/-- Safety for array elements. -/
def safeList : List Value → Bool
  | [] => true
  | x :: xs => safeVal x && safeList xs

/-- Safety for object fields: keys and values. -/
def safeFields : List (String × Value) → Bool
  | [] => true
  | (k, v) :: rest => safeStr k && safeVal v && safeFields rest

end

/-- A safe document. -/
def safeDoc (d : Doc) : Bool := safeFields d

/-! ## Index entry derivation (`addToIndexes` / `removeIndexesForDocument`) -/

mutual

/-- The `(pathPart, valueString)` pairs a document contributes to the index,
in the order `addToIndexes` visits them.  `pathPart` is
`prefix ++ "." ++ fieldPath`; the index key is
`"indexes" ++ pathPart ++ "=" ++ valueString ++ "|" ++ id` and the counter
key is `"counts" ++ pathPart ++ "=" ++ valueString`. -/
def entryPairsDoc (pre : String) : List (String × Value) → List (String × String)
  | [] => []
  | (k, v) :: rest => entryPairsField pre k v ++ entryPairsDoc pre rest

/-- Pairs contributed by a single field. -/
def entryPairsField (pre k : String) : Value → List (String × String)
  | .obj fields => entryPairsDoc (pre ++ "." ++ k) fields ++ aliasPairs pre k fields
  | .arr xs => arrPairs pre k xs
  | .str t => [(pre ++ "." ++ k, t)]
  | .num n => [(pre ++ "." ++ k, intToDec n)]
  | .bool b => [(pre ++ "." ++ k, if b then "true" else "false")]

/-- The flattened `parent.child` aliases synthesized for the non-nested
fields of a nested object. -/
def aliasPairs (pre k : String) : List (String × Value) → List (String × String)
  | [] => []
  | (nk, nv) :: rest =>
    (match nv with
      | .obj _ => []
      | x => [(pre ++ "." ++ (k ++ "." ++ nk), valueToString x)]) ++ aliasPairs pre k rest

/-- One pair per array element, under the array's own field name. -/
def arrPairs (pre k : String) : List Value → List (String × String)
  | [] => []
  | x :: xs => (pre ++ "." ++ k, valueToString x) :: arrPairs pre k xs

end

/-- The index key for an entry pair and id. -/
def ixKeyS (pv : String × String) (id : String) : String :=
  "indexes" ++ pv.1 ++ "=" ++ pv.2 ++ "|" ++ id

/-- The counter key for an entry pair. -/
def ctrKeyS (pv : String × String) : String :=
  "counts" ++ pv.1 ++ "=" ++ pv.2

/-- The index keys derivable from a document for a given id. -/
def ixKeys (id : String) (d : Doc) : List String :=
  (entryPairsDoc "" d).map (fun pv => ixKeyS pv id)

/-- The key of the `__total__` documents counter. -/
def totalCtrKey : String := ctrKeyS (".__total__", "documents")

/-! ## Documents: lookup and JS object spread -/

/-- `d[k]` for a JS object: first binding wins (JS keys are unique). -/
def lookupDoc (d : Doc) (k : String) : Option Value :=
  (d.find? (fun kv => kv.1 = k)).map (·.2)

/-- JS object spread `{...a, ...b}`: `a`'s keys in order with `b`'s values
winning, then `b`'s remaining keys in order. -/
def jsMerge : Doc → Doc → Doc
  | [], b => b
  | (k, v) :: rest, b =>
    (k, (lookupDoc b k).getD v) :: jsMerge rest (b.filter (fun kv => kv.1 ≠ k))

/-! ## Counters (`incrementCount` / `decrementCount`) -/

/-- `Number(await db.get(key))` with absent/NaN read as `0`
(`getCountForKeyValue`). -/
def readCtr (s : Store) (ck : String) : Int :=
  match sget s ck with
  | some v =>
    match jsNumber? (storeValStr v) with
    | some n => n
    | none => 0
  | none => 0

/-- `incrementCount`: read-modify-write of the counter (the optimistic
retry loop of the source linearizes to a single pass sequentially). -/
def incrCtr (s : Store) (pv : String × String) : Store :=
  sput s (ctrKeyS pv) (.raw (intToDec (readCtr s (ctrKeyS pv) + 1)))

/-- `decrementCount`: decrement, deleting the key at zero or below; an
absent or non-numeric value is deleted (`NaN - 1 > 0` is false). -/
def decrCtr (s : Store) (pv : String × String) : Store :=
  match sget s (ctrKeyS pv) with
  | none => sdel s (ctrKeyS pv)
  | some v =>
    match jsNumber? (storeValStr v) with
    | some n => if n - 1 > 0 then sput s (ctrKeyS pv) (.raw (intToDec (n - 1))) else sdel s (ctrKeyS pv)
    | none => sdel s (ctrKeyS pv)

/-! ## Index maintenance -/

/-- `addToIndexes`: one index-entry put plus one counter increment per
derived pair, in visit order (the `Promise.all` of the source linearizes
to program order sequentially). -/
def addToIndexes (s : Store) (id : String) (d : Doc) : Store :=
  (entryPairsDoc "" d).foldl (fun st pv => incrCtr (sput st (ixKeyS pv id) (.raw id)) pv) s

/-- `removeIndexesForDocument`: one index-entry delete plus one counter
decrement per derived pair. -/
def removeIndexesForDocument (s : Store) (id : String) (d : Doc) : Store :=
  (entryPairsDoc "" d).foldl (fun st pv => decrCtr (sdel st (ixKeyS pv id)) pv) s

/-! ## Public mutations -/

/-- The error taxonomy of §7. -/
inductive DbErr where
  | invalidArg
  | conflict
  | notFound
  | unsupported
  | opFailed
  | parseFailed
deriving DecidableEq

/-- `JSON.parse` of a stored value, as a document: stored documents
round-trip; a decimal numeral parses to a bare number, whose
`Object.entries` is empty; any other raw string (an id written under an
index key) is not JSON and throws. -/
def parseStored : StoreVal → Option Doc
  | .doc d => some d
  | .raw r => if (jsNumber? r).isSome then some [] else none

/-- The id field of a document, when it is a truthy string (`Document.id`
is typed `string`; the empty string is falsy). -/
def getIdField (d : Doc) : Option String :=
  match lookupDoc d "id" with
  | some (.str t) => if t = "" then none else some t
  | _ => none

/-- Shared tail of `insert`: store `{id, ...document}`, index it, bump the
total counter. -/
def insertGo (s : Store) (d : Doc) (id : String) : (Except DbErr Doc) × Store :=
  let p := jsMerge [("id", .str id)] d
  let s1 := sput s id (.doc p)
  let s2 := addToIndexes s1 id p
  let s3 := incrCtr s2 (".__total__", "documents")
  (.ok p, s3)

/-- `insert(document)`: conflict when a truthy `document.id` is already
bound; otherwise store under `document.id` or the generated id `genId`. -/
def insertOp (s : Store) (d : Doc) (genId : String) : (Except DbErr Doc) × Store :=
  match getIdField d with
  | some did =>
    if (sget s did).isSome then (.error .conflict, s)
    else insertGo s d did
  | none => insertGo s d genId

/-- `replace(id, newDocument)`. -/
def replaceOp (s : Store) (id : String) (nd : Doc) : (Except DbErr Doc) × Store :=
  if id = "" then (.error .invalidArg, s)
  else
    match getIdField nd with
    | some nid =>
      if id ≠ nid then (.error .invalidArg, s)
      else replaceFound s id nd
    | none => replaceFound s id nd
where
  /-- The body after argument validation. -/
  replaceFound (s : Store) (id : String) (nd : Doc) : (Except DbErr Doc) × Store :=
    match sget s id with
    | none => (.error .notFound, s)
    | some v =>
      match parseStored v with
      | none => (.error .parseFailed, s)
      | some old =>
        let s1 := removeIndexesForDocument s id old
        let p := jsMerge nd [("id", .str id)]
        let s2 := sput s1 id (.doc p)
        let s3 := addToIndexes s2 id p
        (.ok p, s3)

/-- `patch(id, newDocument)`: shallow merge over the existing document. -/
def patchOp (s : Store) (id : String) (nd : Doc) : (Except DbErr Doc) × Store :=
  if id = "" then (.error .invalidArg, s)
  else
    match getIdField nd with
    | some nid =>
      if id ≠ nid then (.error .invalidArg, s)
      else patchFound s id nd
    | none => patchFound s id nd
where
  /-- The body after argument validation. -/
  patchFound (s : Store) (id : String) (nd : Doc) : (Except DbErr Doc) × Store :=
    match sget s id with
    | none => (.error .notFound, s)
    | some v =>
      match parseStored v with
      | none => (.error .parseFailed, s)
      | some old =>
        let s1 := removeIndexesForDocument s id old
        let p := jsMerge (jsMerge old nd) [("id", .str id)]
        let s2 := sput s1 id (.doc p)
        let s3 := addToIndexes s2 id p
        (.ok p, s3)

/-- `remove(id)`: retract the index, decrement the total, delete. -/
def removeOp (s : Store) (id : String) : (Except DbErr Unit) × Store :=
  if id = "" then (.error .invalidArg, s)
  else
    match sget s id with
    | none => (.error .notFound, s)
    | some v =>
      match parseStored v with
      | none => (.error .parseFailed, s)
      | some old =>
        let s1 := removeIndexesForDocument s id old
        let s2 := decrCtr s1 (".__total__", "documents")
        (.ok (), sdel s2 id)

/-- Shared tail of `upsert`: store `{...existing, ...document, id}` and
index it. -/
def upsertGo (s : Store) (old d : Doc) (id : String) : (Except DbErr Doc) × Store :=
  let p := jsMerge (jsMerge old d) [("id", .str id)]
  let s1 := sput s id (.doc p)
  let s2 := addToIndexes s1 id p
  (.ok p, s2)

/-- `upsert(id, document)`: merge over the existing document if present
(no id validation), insert with a total-counter bump otherwise. -/
def upsertOp (s : Store) (id : String) (d : Doc) : (Except DbErr Doc) × Store :=
  if id = "" then (.error .invalidArg, s)
  else
    match sget s id with
    | some v =>
      match parseStored v with
      | none => (.error .parseFailed, s)
      | some old => upsertGo (removeIndexesForDocument s id old) old d id
    | none => upsertGo (incrCtr s (".__total__", "documents")) [] d id

/-- `read(id)`: point lookup; absent is `none`, not an error.  Reading a
key that holds a non-document raw string is outside the verified claims
(the code would return `JSON.parse` of that string). -/
def readOp (s : Store) (id : String) : Option Doc :=
  match sget s id with
  | some (.doc d) => some d
  | _ => none

/-- `batchInsert(documents)`: assign ids, write all bodies in one batch,
index sequentially, then bump the total once by the batch size.  `genIds`
supplies the generated ids (one per document, used when `doc.id` is
falsy); the rollback path cannot trigger sequentially. -/
def batchInsertOp (s : Store) (docs : List Doc) (genIds : List String) :
    (Except DbErr (List Doc)) × Store :=
  if docs.isEmpty then (.error .invalidArg, s)
  else
    let ps := (docs.zip genIds).map (fun dg =>
      let id := (getIdField dg.1).getD dg.2
      (id, jsMerge [("id", .str id)] dg.1))
    let s1 := ps.foldl (fun st idp => sput st idp.1 (.doc idp.2)) s
    let s2 := ps.foldl (fun st idp => addToIndexes st idp.1 idp.2) s1
    let cur := readCtr s2 totalCtrKey
    (.ok (ps.map (·.2)), sput s2 totalCtrKey (.raw (intToDec (cur + docs.length))))

/-! ## Range scans -/

/-- Iterator bounds, as passed to `db.keys` / `db.iterator`. -/
structure Bounds where
  bgt : Option String
  bgte : Option String
  blt : Option String
  blte : Option String

/-- Bounds `{gte, lte}`. -/
def boundsGteLte (g l : String) : Bounds := ⟨none, some g, none, some l⟩

/-- Bounds `{gte, lt}`. -/
def boundsGteLt (g l : String) : Bounds := ⟨none, some g, some l, none⟩

/-- Bounds `{gt, lte}`. -/
def boundsGtLte (g l : String) : Bounds := ⟨some g, none, none, some l⟩

/-- Bounds `{gt, lt}`. -/
def boundsGtLt (g l : String) : Bounds := ⟨some g, none, some l, none⟩

/-- Key admission for a bounds object. -/
def inBounds (b : Bounds) (k : String) : Bool :=
  (match b.bgt with | some g => strLt g k | none => true) &&
  (match b.bgte with | some g => strLe g k | none => true) &&
  (match b.blt with | some l => strLt k l | none => true) &&
  (match b.blte with | some l => strLe k l | none => true)

/-- Insert into a `strLt`-sorted list. -/
def insStr (x : String) : List String → List String
  | [] => [x]
  | y :: ys => if strLt y x then y :: insStr x ys else x :: y :: ys

/-- Sort keys ascending, the iteration order of the level store. -/
def insSortStr : List String → List String
  | [] => []
  | x :: xs => insStr x (insSortStr xs)

/-- The keys a `db.keys(bounds)` iteration yields, in ascending order. -/
def scanKeys (s : Store) (b : Bounds) : List String :=
  insSortStr ((skeys s).filter (inBounds b))

/-- `Set.add` on the insertion-ordered id accumulator. -/
def addId (l : List String) (id : String) : List String :=
  if id ∈ l then l else l ++ [id]

/-- `new Set([...a].filter(x => b.has(x)))`. -/
def idInter (a b : List String) : List String := a.filter (fun x => x ∈ b)

/-- `new Set([...a].filter(x => !b.has(x)))`. -/
def idDiff (a b : List String) : List String := a.filter (fun x => x ∉ b)

/-- `b.forEach(x => a.add(x))`. -/
def idUnion (a b : List String) : List String := b.foldl addId a

/-- Collect `db.get(ckey)` over a key list into an id set. -/
def collectIds (s : Store) (ks : List String) : List String :=
  ks.foldl (fun acc k =>
    match sget s k with
    | some v => addId acc (storeValStr v)
    | none => acc) []

/-- The decoded `lvalue` of an index key:
`ckey.split('=')[1].split('|')[0]`. -/
def lvalueOf (k : String) : String :=
  String.mk ((((k.data.dropWhile (fun c => c ≠ '=')).tail).takeWhile
    (fun c => c ≠ '=')).takeWhile (fun c => c ≠ '|'))

/-- `getIdsForKeyValue`: scan `indexes.key=value|` .. `indexes.key=value|MAX`
and collect the stored ids. -/
def getIdsForKeyValue (s : Store) (key : String) (v : Value) : List String :=
  collectIds s (scanKeys s (boundsGteLte
    ("indexes." ++ key ++ "=" ++ valueToString v ++ "|")
    ("indexes." ++ key ++ "=" ++ valueToString v ++ "|" ++ lastUni)))

/-- `getIdsForKeyValueStartsWith`: prefix scan with `{gte, lt}` bounds. -/
def getIdsForKeyValueStartsWith (s : Store) (key pre : String) : List String :=
  collectIds s (scanKeys s (boundsGteLt
    ("indexes." ++ key ++ "=" ++ pre)
    ("indexes." ++ key ++ "=" ++ pre ++ lastUni)))

/-- `getAllIds`: scan `('\x00', 'counts')` and keep keys that are not
index or counter keys.  (The upper bound also cuts off every key `≥`
`"counts"`, including document ids — see the `$ne` claim.) -/
def getAllIds (s : Store) : List String :=
  (scanKeys s (boundsGtLt "\x00" "counts")).foldl
    (fun acc k =>
      if !strStarts "indexes" k && !strStarts "counts" k then addId acc k else acc) []

/-- `getIdsForKeyExists` for `shouldExist = true`: scan the whole field
range with `{gte, lt}` bounds. -/
def getIdsForKeyExistsPos (s : Store) (key : String) : List String :=
  collectIds s (scanKeys s (boundsGteLt
    ("indexes." ++ key ++ "=")
    ("indexes." ++ key ++ "=" ++ lastUni)))

/-- `getIdsForKeyExists`. -/
def getIdsForKeyExists (s : Store) (key : String) (shouldExist : Bool) : List String :=
  if shouldExist then getIdsForKeyExistsPos s key
  else idDiff (getAllIds s) (getIdsForKeyExistsPos s key)

/-- JS `ToNumber` on a query argument of the modelled fragment, used by the
relational operators (`none` is NaN; arrays and objects are outside the
fragment the claims exercise). -/
def toCompareNum : Value → Option Int
  | .num n => some n
  | .str s => jsNumber? s
  | .bool b => some (if b then 1 else 0)
  | .arr _ => none
  | .obj _ => none

/-- The numeric filter of `getIdsForKeyValueRange`: parse the decoded index
value, drop NaN, compare. -/
def numMatches (op : String) (qv : Value) (vs : String) : Bool :=
  match jsNumber? vs, toCompareNum qv with
  | some lv, some rv =>
    if op = "$gt" then lv > rv
    else if op = "$gte" then lv ≥ rv
    else if op = "$lt" then lv < rv
    else if op = "$lte" then lv ≤ rv
    else false
  | _, _ => false

/-- `getIdsForKeyValueRange`: full field-range scan with numeric filter. -/
def getIdsForKeyValueRange (s : Store) (key op : String) (qv : Value) : List String :=
  (scanKeys s (boundsGteLte
    ("indexes." ++ key ++ "=")
    ("indexes." ++ key ++ "=" ++ lastUni))).foldl
    (fun acc k =>
      if numMatches op qv (lvalueOf k) then
        match sget s k with
        | some v => addId acc (storeValStr v)
        | none => acc
      else acc) []

/-- `getIdsForKeyValueIn`: union of per-value exact scans. -/
def getIdsForKeyValueIn (s : Store) (key : String) (vs : List Value) : List String :=
  vs.foldl (fun acc v => idUnion acc (getIdsForKeyValue s key v)) []

/-- `===` on values as used by `Array.prototype.includes`: value equality
on primitives; reference equality on objects and arrays, never true
against a freshly `JSON.parse`d document. -/
def valEqB : Value → Value → Bool
  | .str a, .str b => a = b
  | .num a, .num b => a = b
  | .bool a, .bool b => a = b
  | _, _ => false

/-- `getIdsForKeyValueAll`: scan the field range, read each candidate
document once, and check its array field contains every query value. -/
def getIdsForKeyValueAll (s : Store) (key : String) (vs : List Value) : List String :=
  (scanKeys s (boundsGteLte
    ("indexes." ++ key ++ "=")
    ("indexes." ++ key ++ "=" ++ lastUni))).foldl
    (fun acc k =>
      match sget s k with
      | some v =>
        let id := storeValStr v
        if id ∈ acc then acc
        else
          match readOp s id with
          | some d =>
            match lookupDoc d key with
            | some (.arr elems) =>
              if vs.all (fun q => elems.any (fun e => valEqB e q)) then acc ++ [id] else acc
            | _ => acc
          | none => acc
      | none => acc) []

/-- JS truthiness on the modelled fragment. -/
def truthyVal : Value → Bool
  | .str t => t ≠ ""
  | .num n => n ≠ 0
  | .bool b => b
  | .arr _ => true
  | .obj _ => true

/-- Does a query value trigger the operator path
(`isObject(value) && Object.keys(value).some(k => k.startsWith('$'))`)? -/
def isOpObject : Value → Bool
  | .obj fields => fields.any (fun kv => strStarts "$" kv.1)
  | _ => false

/-! ## Operator evaluation (`handleOperators`) -/

mutual

/-- The fold of `handleOperators` over the operator object: evaluate each
operator to an id-set and intersect (`acc = none` is the first-operator
state). -/
def handleOpsGo (s : Store) (key : String) (ops : List (String × Value))
    (acc : Option (List String)) : Except DbErr (List String) :=
  match ops with
  | [] => .ok (acc.getD [])
  | (op, v) :: rest =>
    match handleOneOp s key op v with
    | .error e => .error e
    | .ok ids =>
      handleOpsGo s key rest (some (match acc with
        | none => ids
        | some prev => idInter prev ids))

/-- One operator case of the `switch` in `handleOperators`. -/
def handleOneOp (s : Store) (key op : String) (v : Value) : Except DbErr (List String) :=
  if op = "$eq" then .ok (getIdsForKeyValue s key v)
  else if op = "$ne" then .ok (idDiff (getAllIds s) (getIdsForKeyValue s key v))
  else if op = "$gt" ∨ op = "$gte" ∨ op = "$lt" ∨ op = "$lte" then
    .ok (getIdsForKeyValueRange s key op v)
  else if op = "$in" then
    match v with
    | .arr vs => .ok (if vs.isEmpty then [] else getIdsForKeyValueIn s key vs)
    | _ => .error .opFailed
  else if op = "$nin" then
    match v with
    | .arr vs =>
      .ok (if vs.isEmpty then getAllIds s
           else idDiff (getAllIds s) (getIdsForKeyValueIn s key vs))
    | _ => .error .opFailed
  else if op = "$exists" then
    match v with
    | .bool b => .ok (getIdsForKeyExists s key b)
    | _ => .error .opFailed
  else if op = "$all" then
    match v with
    | .arr vs => .ok (if vs.isEmpty then getAllIds s else getIdsForKeyValueAll s key vs)
    | _ => .error .opFailed
  else if op = "$not" then
    match v with
    | .obj fields =>
      match handleOpsGo s key fields none with
      | .error e => .error e
      | .ok matching => .ok (idDiff (getAllIds s) matching)
    | _ => .ok (idDiff (getAllIds s) (getIdsForKeyValue s key v))
  else if op = "$sw" then
    match v with
    | .str pre => .ok (getIdsForKeyValueStartsWith s key pre)
    | _ => .error .opFailed
  else .error .unsupported

end

/-- `handleOperators(key, operators)`. -/
def handleOperators (s : Store) (key : String) (ops : List (String × Value)) :
    Except DbErr (List String) :=
  handleOpsGo s key ops none

/-! ## `query` -/

/-- The id field of a result document (`doc.id` in the `$or` union). -/
def docIdStr (d : Doc) : Option String :=
  match lookupDoc d "id" with
  | some (.str t) => some t
  | _ => none

mutual

/-- The top-level loop of `query`: per-field id-sets intersected, `$or`
unioning sub-query results, any other `$`-key rejected. -/
def queryGo (s : Store) (fields : List (String × Value)) (acc : Option (List String)) :
    Except DbErr (List String) :=
  match fields with
  | [] => .ok (acc.getD [])
  | (k, v) :: rest =>
    if k = "$or" then
      match v with
      | .arr subs =>
        match orUnionGo s subs [] with
        | .error e => .error e
        | .ok orIds =>
          queryGo s rest (some (match acc with
            | none => orIds
            | some prev => idInter prev orIds))
      | _ => .error .opFailed
    else if strStarts "$" k then .error .unsupported
    else
      match (if isOpObject v then
          (match v with
            | .obj fl => handleOpsGo s k fl none
            | _ => .ok [])
        else .ok (getIdsForKeyValue s k v)) with
      | .error e => .error e
      | .ok ids =>
        queryGo s rest (some (match acc with
          | none => ids
          | some prev => idInter prev ids))

/-- `$or`: union the ids of the documents of each sub-query. -/
def orUnionGo (s : Store) (subs : List Value) (acc : List String) :
    Except DbErr (List String) :=
  match subs with
  | [] => .ok acc
  | q :: qs =>
    match queryDocsV s q with
    | .error e => .error e
    | .ok docs =>
      orUnionGo s qs ((docs.filterMap docIdStr).foldl addId acc)

/-- `query(queryObject)` with default options: an empty (or non-object)
query is rewritten to `{id: {$exists: true}}`, whose evaluation is the
one-step unfolding of the loop on that single operator field
(`queryGo_singleton_opField` below proves the unfolding exact); the final
id-set is materialized through `read`, dropping vanished documents. -/
def queryDocsV (s : Store) (q : Value) : Except DbErr (List Doc) :=
  match q with
  | .obj (f :: fs) =>
    (match queryGo s (f :: fs) none with
     | .error e => .error e
     | .ok ids => .ok (ids.filterMap (readOp s)))
  | _ =>
    (match handleOpsGo s "id" [("$exists", Value.bool true)] none with
     | .error e => .error e
     | .ok ids => .ok (ids.filterMap (readOp s)))

end

/-- `query` as called with an optional query object and default options. -/
def queryOp (s : Store) (q : Option Value) : Except DbErr (List Doc) :=
  queryDocsV s (match q with
    | some qv => qv
    | none => Value.obj [])

/-! ## `count` -/

/-- `sumCountsForPrefix`: sum the numeric values of all counters in the
prefix range (a non-numeric value would make the JS sum NaN; no counter in
a reachable state is non-numeric, and the verified claims do not take the
`$exists` counting path). -/
def sumCountsFor (s : Store) (pre : String) : Int :=
  (scanKeys s (boundsGteLt pre (pre ++ lastUni))).foldl
    (fun acc k => acc +
      (match sget s k with
       | some v =>
         match jsNumber? (storeValStr v) with
         | some n => n
         | none => 0
       | none => 0)) 0

/-- `Object.entries(q)` for a query value: the fields of an object,
nothing otherwise. -/
def fieldsOfVal : Value → List (String × Value)
  | .obj f => f
  | _ => []

mutual

/-- The loop of `getAllIdsForQuery` (the `$or` helper of `count`). -/
def allIdsForQueryGo (s : Store) (fields : List (String × Value))
    (acc : Option (List String)) : Except DbErr (List String) :=
  match fields with
  | [] => .ok (acc.getD [])
  | (k, v) :: rest =>
    if k = "$or" then
      match v with
      | .arr subs =>
        match allIdsOrGo s subs [] with
        | .error e => .error e
        | .ok orIds =>
          allIdsForQueryGo s rest (some (match acc with
            | none => orIds
            | some prev => idInter prev orIds))
      | _ => .error .opFailed
    else if strStarts "$" k then .error .unsupported
    else
      match (if isOpObject v then
          (match v with
            | .obj fl => handleOpsGo s k fl none
            | _ => .ok [])
        else .ok (getIdsForKeyValue s k v)) with
      | .error e => .error e
      | .ok ids =>
        allIdsForQueryGo s rest (some (match acc with
          | none => ids
          | some prev => idInter prev ids))
termination_by sizeOf fields
decreasing_by
  all_goals simp_wf
  all_goals omega

/-- Union of `getAllIdsForQuery` over `$or` sub-queries. -/
def allIdsOrGo (s : Store) (subs : List Value) (acc : List String) :
    Except DbErr (List String) :=
  match subs with
  | [] => .ok acc
  | q :: qs =>
    match allIdsForQueryGo s (fieldsOfVal q) none with
    | .error e => .error e
    | .ok ids => allIdsOrGo s qs (ids.foldl addId acc)
termination_by sizeOf subs
decreasing_by
  all_goals simp_wf
  all_goals
    have hfv : sizeOf (fieldsOfVal x) ≤ sizeOf x := by
      cases x <;> simp [fieldsOfVal]
    omega

end

/-- The per-operator counting of `getCountForOperators`, folded with
`min` (`acc = none` is the first-operator state). -/
def countOpsGo (s : Store) (key : String) (ops : List (String × Value))
    (acc : Option Int) : Except DbErr Int :=
  match ops with
  | [] => .ok (acc.getD 0)
  | (op, v) :: rest =>
    match (if op = "$eq" then
        .ok (readCtr s (ctrKeyS ("." ++ key, valueToString v)))
      else if op = "$ne" then
        .ok (readCtr s totalCtrKey - readCtr s (ctrKeyS ("." ++ key, valueToString v)))
      else if op = "$in" then
        match v with
        | .arr vs =>
          .ok (vs.foldl (fun a w => a + readCtr s (ctrKeyS ("." ++ key, valueToString w))) 0)
        | _ => .error .opFailed
      else if op = "$nin" then
        match v with
        | .arr vs =>
          .ok (vs.foldl (fun a w => a - readCtr s (ctrKeyS ("." ++ key, valueToString w)))
            (readCtr s totalCtrKey))
        | _ => .error .opFailed
      else if op = "$exists" then
        .ok (if truthyVal v then sumCountsFor s ("counts." ++ key ++ "=")
             else readCtr s totalCtrKey - sumCountsFor s ("counts." ++ key ++ "="))
      else
        match handleOpsGo s key [(op, v)] none with
        | .error e => (.error e : Except DbErr Int)
        | .ok ids => .ok (ids.length : Int)) with
    | .error e => .error e
    | .ok c =>
      countOpsGo s key rest (some (match acc with
        | none => c
        | some p => min p c))

/-- The top-level loop of `count`. -/
def countGo (s : Store) (fields : List (String × Value)) (acc : Option Int) :
    Except DbErr Int :=
  match fields with
  | [] => .ok (acc.getD 0)
  | (k, v) :: rest =>
    if k = "$or" then
      match v with
      | .arr subs =>
        match allIdsOrGo s subs [] with
        | .error e => .error e
        | .ok orIds =>
          countGo s rest (some (match acc with
            | none => (orIds.length : Int)
            | some p => min p (orIds.length : Int)))
      | _ => .error .opFailed
    else if strStarts "$" k then .error .unsupported
    else
      match (if isOpObject v then
          (match v with
            | .obj fl => countOpsGo s k fl none
            | _ => .ok 0)
        else .ok (readCtr s (ctrKeyS ("." ++ k, valueToString v)))) with
      | .error e => .error e
      | .ok c =>
        countGo s rest (some (match acc with
          | none => c
          | some p => min p c))

/-- `count(queryObject)`: empty or missing query returns the total
counter. -/
def countOp (s : Store) (q : Option Value) : Except DbErr Int :=
  match q with
  | some (.obj (f :: fs)) => countGo s (f :: fs) none
  | _ => .ok (readCtr s totalCtrKey)

/-! ## `find` / `filter` (value mode) -/

/-- Loose equality `lvalue == value` between the decoded index value and
the query argument: string/string exact, string/number and string/boolean
through `ToNumber`, string/array and string/object through `ToPrimitive`
(which is the same text `${value}` produces). -/
def jsLooseEq (s : String) (v : Value) : Bool :=
  match v with
  | .str t => s = t
  | .num n => jsNumber? s = some n
  | .bool b => jsNumber? s = some (if b then 1 else 0)
  | .arr _ => s = valueToString v
  | .obj _ => s = valueToString v

/-- The iteration of `findOrFilter`: decode each key, keep loose matches,
apply `skip`, stop at the first match for `find` or once the accumulator
reaches `limit` for `filter` (`none` is `Infinity`).  Returns the raw
id strings collected. -/
def fofLoop (s : Store) (v : Value) (isFind : Bool) (skip : Nat) (limit : Option Nat)
    (ks : List String) (skipIdx : Nat) (acc : List String) : List String :=
  match ks with
  | [] => acc
  | k :: rest =>
    if jsLooseEq (lvalueOf k) v then
      if skipIdx < skip then fofLoop s v isFind skip limit rest (skipIdx + 1) acc
      else
        let acc' := acc ++ [(match sget s k with
          | some w => storeValStr w
          | none => "")]
        if isFind then acc'
        else
          match limit with
          | some l => if acc'.length ≥ l then acc' else fofLoop s v isFind skip limit rest skipIdx acc'
          | none => fofLoop s v isFind skip limit rest skipIdx acc'
    else fofLoop s v isFind skip limit rest skipIdx acc

/-- The key range `findOrFilter` iterates: `{gt, lte}` bounds around the
exact value. -/
def fofScan (s : Store) (key : String) (v : Value) : List String :=
  scanKeys s (boundsGtLte
    ("indexes." ++ key ++ "=" ++ valueToString v ++ "|")
    ("indexes." ++ key ++ "=" ++ valueToString v ++ "|" ++ lastUni))

/-- `findOrFilter('find', key, value, options)`: the first collected id's
document, or absent (`results[0]`). -/
def findValOp (s : Store) (key : String) (v : Value) (skip : Nat) (limit : Option Nat) :
    Option Doc :=
  (((fofLoop s v true skip limit (fofScan s key v) 0 []).map (readOp s)).head?).join

/-- `findOrFilter('filter', key, value, options)`: the ordered array of
present documents. -/
def filterValOp (s : Store) (key : String) (v : Value) (skip : Nat) (limit : Option Nat) :
    List Doc :=
  ((fofLoop s v false skip limit (fofScan s key v) 0 []).map (readOp s)).reduceOption

/-- `FirstUnicodeCharacter`. -/
def firstUni : String := String.mk [Char.ofNat 0]

/-- The `QueryOptions` argument of `find`/`filter`: `skip` and `limit`
(defaults applied by the callers) plus the four range options that only
the predicate mode reads. -/
structure FOFOptions where
  skip : Nat
  limit : Option Nat
  ogt : Option String
  ogte : Option String
  olt : Option String
  olte : Option String

/-- The key range `findOrFilterByFunction` iterates: each supplied option
is encoded onto the field's index range, and absent sides default to the
full field range (`gte indexes.key=` / `lte indexes.key=MAX`). -/
def fnBounds (key : String) (o : FOFOptions) : Bounds :=
  ⟨o.ogt.map (fun g => "indexes." ++ key ++ "=" ++ g ++ "|" ++ lastUni),
   (match o.ogte with
    | some g => some ("indexes." ++ key ++ "=" ++ g)
    | none => if o.ogt.isNone then some ("indexes." ++ key ++ "=") else none),
   o.olt.map (fun g => "indexes." ++ key ++ "=" ++ g ++ "|" ++ firstUni),
   (match o.olte with
    | some g => some ("indexes." ++ key ++ "=" ++ g ++ "|" ++ lastUni)
    | none => if o.olt.isNone then some ("indexes." ++ key ++ "=" ++ lastUni) else none)⟩

/-- The iteration of `findOrFilterByFunction`: identical to `fofLoop`
except that each decoded index value is tested with the caller's
predicate `fn(lvalue)` instead of loose equality against a value. -/
def fofFnLoop (s : Store) (p : String → Bool) (isFind : Bool) (skip : Nat)
    (limit : Option Nat) (ks : List String) (skipIdx : Nat) (acc : List String) :
    List String :=
  match ks with
  | [] => acc
  | k :: rest =>
    if p (lvalueOf k) then
      if skipIdx < skip then fofFnLoop s p isFind skip limit rest (skipIdx + 1) acc
      else
        let acc' := acc ++ [(match sget s k with
          | some w => storeValStr w
          | none => "")]
        if isFind then acc'
        else
          match limit with
          | some l => if acc'.length ≥ l then acc'
                      else fofFnLoop s p isFind skip limit rest skipIdx acc'
          | none => fofFnLoop s p isFind skip limit rest skipIdx acc'
    else fofFnLoop s p isFind skip limit rest skipIdx acc

/-- The keys `findOrFilterByFunction` visits, in ascending order. -/
def fofFnScan (s : Store) (key : String) (o : FOFOptions) : List String :=
  scanKeys s (fnBounds key o)

/-- `findOrFilterByFunction('find', key, fn, options)`. -/
def findFnOp (s : Store) (key : String) (p : String → Bool) (o : FOFOptions) :
    Option Doc :=
  (((fofFnLoop s p true o.skip o.limit (fofFnScan s key o) 0 []).map
    (readOp s)).head?).join

/-- `findOrFilterByFunction('filter', key, fn, options)`. -/
def filterFnOp (s : Store) (key : String) (p : String → Bool) (o : FOFOptions) :
    List Doc :=
  ((fofFnLoop s p false o.skip o.limit (fofFnScan s key o) 0 []).map
    (readOp s)).reduceOption

/-- The `valueOrFunction` argument of `find` and `filter`: a literal value
or a predicate on the decoded index value (`instanceof Function`). -/
inductive ValueOrFn where
  | val : Value → ValueOrFn
  | fn : (String → Bool) → ValueOrFn

/-- `find(key, valueOrFunction, options)`: the `instanceof Function`
dispatch between `findOrFilterByFunction` and `findOrFilter` (the value
branch reads only `skip` and `limit` from the options). -/
def findOp (s : Store) (key : String) (vf : ValueOrFn) (o : FOFOptions) : Option Doc :=
  match vf with
  | .fn p => findFnOp s key p o
  | .val v => findValOp s key v o.skip o.limit

/-- `filter(key, valueOrFunction, options)`: the `instanceof Function`
dispatch between `findOrFilterByFunction` and `findOrFilter`. -/
def filterOp (s : Store) (key : String) (vf : ValueOrFn) (o : FOFOptions) : List Doc :=
  match vf with
  | .fn p => filterFnOp s key p o
  | .val v => filterValOp s key v o.skip o.limit

/-! ## Safety of ids and key-shape facts -/

/-- An id string the key encoding can accommodate: non-empty, free of the
`=`/`|` separators and the `maxChar` sentinel, and not shadowing the
`counts`/`indexes` key ranges. -/
def safeId (id : String) : Bool :=
  id ≠ "" && safeStr id && !strStarts "counts" id && !strStarts "indexes" id

/-- The id field of a document, when present, is a string (the TypeScript
`Document` type declares `id?: string`). -/
def idFieldOk (d : Doc) : Prop :=
  ∀ v, lookupDoc d "id" = some v → ∃ t, v = .str t

/-! ## C3, C4, C9: operation-level functional correctness -/

/-- Documents whose id field does not conflict with the target id. -/
def idCompatible (d : Doc) (id : String) : Prop :=
  getIdField d = none ∨ getIdField d = some id

/-! ## Key-shape facts -/

/-- Index-key test, `key.startsWith('indexes')`. -/
def isIxKey (k : String) : Bool := strStarts "indexes" k

/-- Counter-key test, `key.startsWith('counts')`. -/
def isCtrKey (k : String) : Bool := strStarts "counts" k

/-! ## Claim-level invariant predicates -/

/-- An index entry the store currently holds for `id`: an `indexes…` key
whose stored value is `id`. -/
def EntryFor (s : Store) (id k : String) : Prop :=
  isIxKey k = true ∧ sget s k = some (.raw id)

/-- The index-consistency invariant of C1: for every id, the entries
present for that id are exactly those derivable from the document stored
under that id (none when no document is stored). -/
def IndexInv (s : Store) : Prop :=
  ∀ id k, EntryFor s id k ↔ ∃ d, readOp s id = some d ∧ k ∈ ixKeys id d

/-- The counter-positivity invariant of C10: every `counts…` key holds
the decimal numeral of an integer `≥ 1`. -/
def CounterPositivity (s : Store) : Prop :=
  ∀ k v, isCtrKey k = true → sget s k = some v →
    ∃ n : Nat, 1 ≤ n ∧ v = .raw (natToDec n)

/-- States reachable by the public mutations (with `batchInsert`), under
the single restriction that document ids — supplied or generated — do not
begin with `counts`. -/
inductive ReachableB : Store → Prop where
  | empty : ReachableB []
  | insert (s : Store) (d : Doc) (g : String) : ReachableB s →
      (∀ t, getIdField d = some t → isCtrKey t = false) → isCtrKey g = false →
      ReachableB (insertOp s d g).2
  | replace (s : Store) (id : String) (nd : Doc) : ReachableB s →
      isCtrKey id = false → ReachableB (replaceOp s id nd).2
  | patch (s : Store) (id : String) (nd : Doc) : ReachableB s →
      isCtrKey id = false → ReachableB (patchOp s id nd).2
  | remove (s : Store) (id : String) : ReachableB s → ReachableB (removeOp s id).2
  | upsert (s : Store) (id : String) (d : Doc) : ReachableB s →
      isCtrKey id = false → ReachableB (upsertOp s id d).2
  | batch (s : Store) (docs : List Doc) (gids : List String) : ReachableB s →
      (∀ dg ∈ docs.zip gids, isCtrKey ((getIdField dg.1).getD dg.2) = false) →
      ReachableB (batchInsertOp s docs gids).2

/-! ## Counter accounting: multiplicities and aggregate sums -/

/-- Sum of `F` over all values bound in the store. -/
def sumAgg (s : Store) (F : StoreVal → Nat) : Nat := (s.map (fun kv => F kv.2)).sum

/-- How many derived pairs of `d` feed the counter key `ck`. -/
def countCK (d : Doc) (ck : String) : Nat :=
  (entryPairsDoc "" d).countP (fun pv => decide (ctrKeyS pv = ck))

/-- Multiplicity contributed by one stored value to counter key `ck`. -/
def docMult : StoreVal → String → Nat
  | .doc d, ck => countCK d ck
  | .raw _, _ => 0

/-- Total multiplicity of counter key `ck` over all stored documents. -/
def totalMultCK (s : Store) (ck : String) : Nat := sumAgg s (fun v => docMult v ck)

/-- Indicator of a stored document. -/
def docOne : StoreVal → Nat
  | .doc _ => 1
  | .raw _ => 0

/-- Number of documents in the store. -/
def numDocs (s : Store) : Nat := sumAgg s docOne

/-- The counter value as a natural number (`0` when absent). -/
def ctrNat (s : Store) (ck : String) : Nat := (readCtr s ck).toNat

/-- The contribution of the value currently bound at `k` (0 when absent). -/
def oldF (s : Store) (k : String) (F : StoreVal → Nat) : Nat :=
  match sget s k with
  | some w => F w
  | none => 0

/-- Documents are stored only under safe ids. -/
def SafeDocKeys (s : Store) : Prop :=
  ∀ k d, sget s k = some (.doc d) → safeId k = true

/-! ## The global invariant of well-formed stores -/

/-- Everything the mutations maintain: unique keys, safely-encoded
documents carrying a string id field under safe ids, raw strings only
under index and counter keys, index consistency (C1), counter accuracy
(each counter equals the number of matching derived pairs over stored
documents, plus the document count on the total key), and counter
positivity (C10). -/
structure GoodState (s : Store) : Prop where
  nd : (skeys s).Nodup
  docs : ∀ k d, sget s k = some (.doc d) →
    safeId k = true ∧ safeDoc d = true ∧ ∃ t, lookupDoc d "id" = some (Value.str t)
  raws : ∀ k r, sget s k = some (.raw r) → isIxKey k = true ∨ isCtrKey k = true
  ix : IndexInv s
  acc : ∀ ck, isCtrKey ck = true →
    ctrNat s ck = totalMultCK s ck + (if ck = totalCtrKey then numDocs s else 0)
  pos : CounterPositivity s

/-- The states reachable from an empty database by the five public
document mutations of C1, on safely-encoded inputs: documents free of the
key separators, string id fields, and safe target/generated ids (fresh
in the generated case, as `crypto.randomUUID` guarantees). -/
inductive Reachable : Store → Prop where
  | empty : Reachable []
  | insert (s : Store) (d : Doc) (genId : String) :
      Reachable s → safeDoc d = true → idFieldOk d →
      (∀ t, getIdField d = some t → safeId t = true) →
      safeId genId = true → sget s genId = none →
      Reachable (insertOp s d genId).2
  | replace (s : Store) (id : String) (nd : Doc) :
      Reachable s → safeId id = true → safeDoc nd = true →
      Reachable (replaceOp s id nd).2
  | patch (s : Store) (id : String) (nd : Doc) :
      Reachable s → safeId id = true → safeDoc nd = true →
      Reachable (patchOp s id nd).2
  | remove (s : Store) (id : String) :
      Reachable s → safeId id = true →
      Reachable (removeOp s id).2
  | upsert (s : Store) (id : String) (d : Doc) :
      Reachable s → safeId id = true → safeDoc d = true →
      Reachable (upsertOp s id d).2

@[simp] theorem sget_sdel (s : Store) (k k' : String) :
    sget (sdel s k) k' = if k' = k then none else sget s k' := by
  induction s with
  | nil => simp [sdel, sget]
  | cons hd tl ih =>
    obtain ⟨k₀, v₀⟩ := hd
    by_cases h0 : k₀ = k
    · rw [sdel, if_pos h0, ih, sget]
      by_cases h1 : k' = k
      · simp [h1]
      · have : ¬ k₀ = k' := by
          rw [h0]
          exact fun hx => h1 hx.symm
        simp [h1, this]
    · rw [sdel, if_neg h0, sget]
      by_cases h1 : k₀ = k'
      · have h2 : ¬ k' = k := by
          rw [← h1]
          exact h0
        simp [h1, h2, sget]
      · simp [h1, ih, sget]

@[simp] theorem sget_sput (s : Store) (k k' : String) (v : StoreVal) :
    sget (sput s k v) k' = if k' = k then some v else sget s k' := by
  unfold sput
  rw [sget]
  by_cases h : k' = k
  · simp [h]
  · have : ¬ k = k' := fun hx => h hx.symm
    simp [h, this]

theorem sget_mem (s : Store) (k : String) (v : StoreVal) (h : sget s k = some v) :
    (k, v) ∈ s := by
  induction s with
  | nil => simp [sget] at h
  | cons hd tl ih =>
    obtain ⟨k₀, v₀⟩ := hd
    by_cases h0 : k₀ = k
    · subst h0
      simp [sget] at h
      simp [h]
    · simp [sget, h0] at h
      exact List.mem_cons_of_mem _ (ih h)

theorem ltB_irrefl (l : List Char) : ltB l l = false := by
  induction l with
  | nil => rfl
  | cons a as ih => simp [ltB, ih]

theorem leB_refl (l : List Char) : leB l l = true := by
  simp [leB, ltB_irrefl]

theorem ltB_append_iff (p a b : List Char) : ltB (p ++ a) (p ++ b) = ltB a b := by
  induction p with
  | nil => rfl
  | cons c cs ih => simp [ltB, ih]

theorem leB_append_iff (p a b : List Char) : leB (p ++ a) (p ++ b) = leB a b := by
  simp [leB, ltB_append_iff]

theorem ltB_nil_right (l : List Char) : ltB l [] = false := by
  cases l <;> rfl

theorem leB_nil_left (l : List Char) : leB [] l = true := by
  simp [leB, ltB_nil_right]

/-- If `a ≤ k ≤ a ++ [m]` then `a` is a prefix of `k`. -/
theorem sandwich_isPrefix (a k : List Char) (m : Char)
    (h1 : leB a k = true) (h2 : leB k (a ++ [m]) = true) : a.isPrefixOf k = true := by
  induction a generalizing k with
  | nil => simp [List.isPrefixOf]
  | cons c cs ih =>
    cases k with
    | nil =>
      simp [leB, ltB] at h1
    | cons d ds =>
      simp only [leB, ltB, List.cons_append] at h1 h2
      by_cases hdc : d < c
      · simp [hdc] at h1
      · by_cases hcd : c < d
        · simp [hcd, hdc] at h2
        · have hced : c = d := le_antisymm (not_lt.mp hdc) (not_lt.mp hcd)
          subst hced
          simp only [lt_irrefl, if_false] at h1 h2
          simp only [List.isPrefixOf, beq_self_eq_true, Bool.true_and]
          exact ih ds (by simpa [leB] using h1) (by simpa [leB] using h2)

/-- A list is `≤` any extension of itself. -/
theorem leB_self_append (a b : List Char) : leB a (a ++ b) = true := by
  induction a with
  | nil => exact leB_nil_left b
  | cons c cs ih => simpa [leB, ltB] using (by simpa [leB] using ih)

/-- Strictly below an extension by a list whose head is larger than any
continuation: used for upper bounds ending in `maxChar`. -/
theorem ltB_of_head_lt (a : List Char) (c d : Char) (x y : List Char) (h : c < d) :
    ltB (a ++ c :: x) (a ++ d :: y) = true := by
  induction a with
  | nil => simp [ltB, h]
  | cons e es ih => simp [ltB, ih]

theorem toNat_ofNat_small (m : Nat) (h : m < 55296) : (Char.ofNat m).toNat = m := by
  unfold Char.ofNat
  rw [dif_pos (Or.inl h)]
  rfl

theorem digitsVal_append_one (l : List Char) (c : Char) :
    digitsVal (l ++ [c]) = digitsVal l * 10 + digitVal c := by
  simp [digitsVal, List.foldl_append]

theorem digit_char_isDigit (m : Nat) (h : m < 10) : (Char.ofNat (48 + m)).isDigit = true := by
  interval_cases m <;> decide

theorem digit_char_val (m : Nat) (h : m < 10) : digitVal (Char.ofNat (48 + m)) = m := by
  interval_cases m <;> decide

theorem natDigitsF_ne_nil (fuel n : Nat) (h : n < fuel) : natDigitsF fuel n ≠ [] := by
  cases fuel with
  | zero => omega
  | succ f =>
    rw [natDigitsF]
    split
    · simp
    · simp

theorem natDigitsF_all_digit (fuel n : Nat) (h : n < fuel) :
    (natDigitsF fuel n).all Char.isDigit = true := by
  induction fuel generalizing n with
  | zero => omega
  | succ f ih =>
    rw [natDigitsF]
    split
    · rename_i h10
      simp [digit_char_isDigit _ h10]
    · rename_i h10
      have hdiv : n / 10 < n := Nat.div_lt_self (by omega) (by omega)
      rw [List.all_append]
      simp [ih (n / 10) (by omega), digit_char_isDigit _ (Nat.mod_lt _ (by omega))]

theorem digitsVal_natDigitsF (fuel n : Nat) (h : n < fuel) :
    digitsVal (natDigitsF fuel n) = n := by
  induction fuel generalizing n with
  | zero => omega
  | succ f ih =>
    rw [natDigitsF]
    split
    · rename_i h10
      simp [digitsVal, digit_char_val _ h10]
    · rename_i h10
      have hdiv : n / 10 < n := Nat.div_lt_self (by omega) (by omega)
      rw [digitsVal_append_one, ih (n / 10) (by omega),
        digit_char_val _ (Nat.mod_lt _ (by omega))]
      omega

theorem natToDec_data (n : Nat) : (natToDec n).data = natDigitsF (n + 1) n := rfl

theorem natToDec_data_ne_nil (n : Nat) : (natToDec n).data ≠ [] := by
  rw [natToDec_data]
  exact natDigitsF_ne_nil _ _ (by omega)

theorem natToDec_data_all_digit (n : Nat) : (natToDec n).data.all Char.isDigit = true := by
  rw [natToDec_data]
  exact natDigitsF_all_digit _ _ (by omega)

theorem digitsVal_natToDec (n : Nat) : digitsVal (natToDec n).data = n := by
  rw [natToDec_data]
  exact digitsVal_natDigitsF _ _ (by omega)

theorem jsNumber_natToDec (n : Nat) : jsNumber? (natToDec n) = some (n : Int) := by
  have hall := natToDec_data_all_digit n
  cases hd : (natToDec n).data with
  | nil => exact absurd hd (natToDec_data_ne_nil n)
  | cons c l =>
    rw [hd, List.all_cons] at hall
    have hc : c.isDigit = true := (Bool.and_eq_true _ _ ▸ hall).1
    unfold jsNumber?
    rw [hd]
    have hne : ¬ (c :: l = []) := by simp
    have hnm : ¬ ((c :: l).head? = some (Char.ofNat 45)) := by
      simp only [List.head?]
      intro hcm
      have hcd : c = '-' := by simpa using hcm
      subst hcd
      simp [Char.isDigit] at hc
    rw [if_neg hne, if_neg hnm, if_pos (hd ▸ natToDec_data_all_digit n)]
    rw [← hd, digitsVal_natToDec]

theorem jsNumber_intToDec (n : Int) : jsNumber? (intToDec n) = some n := by
  by_cases h : n < 0
  · unfold intToDec
    rw [if_pos h]
    unfold jsNumber?
    simp only [String.data]
    have hne : ('-' :: (natToDec (-n).toNat).data) ≠ [] := by simp
    simp only [List.head?_cons, List.tail_cons]
    have hcond : (natToDec (-n).toNat).data ≠ [] ∧
        (natToDec (-n).toNat).data.all Char.isDigit = true :=
      ⟨natToDec_data_ne_nil _, natToDec_data_all_digit _⟩
    rw [if_pos trivial, if_pos hcond]
    rw [digitsVal_natToDec]
    have hcast : (((-n).toNat : Nat) : Int) = -n := Int.toNat_of_nonneg (by omega)
    rw [hcast]
    simp
  · unfold intToDec
    rw [if_neg h, jsNumber_natToDec]
    have hcast : ((n.toNat : Nat) : Int) = n := Int.toNat_of_nonneg (by omega)
    rw [hcast]

theorem safeStr_append (a b : String) :
    safeStr (a ++ b) = (safeStr a && safeStr b) := by
  show (a.data ++ b.data).all safeChar = _
  exact List.all_append

theorem safeChar_of_digit (c : Char) (h : c.isDigit = true) : safeChar c = true := by
  have h1 : c ≠ '|' := by
    rintro rfl
    exact absurd h (by decide)
  have h2 : c ≠ '=' := by
    rintro rfl
    exact absurd h (by decide)
  have h3 : c ≠ maxChar := by
    rintro rfl
    exact absurd h (by decide)
  simp [safeChar, h1, h2, h3]

theorem safeStr_natToDec (n : Nat) : safeStr (natToDec n) = true := by
  have hall := natToDec_data_all_digit n
  rw [List.all_eq_true] at hall
  exact List.all_eq_true.mpr fun c hc => safeChar_of_digit c (hall c hc)

theorem safeStr_intToDec (n : Int) : safeStr (intToDec n) = true := by
  unfold intToDec
  split
  · show (('-' :: (natToDec (-n).toNat).data).all safeChar) = true
    rw [List.all_cons]
    have h1 : safeChar '-' = true := by decide
    rw [h1, Bool.true_and]
    exact safeStr_natToDec _
  · exact safeStr_natToDec _

mutual

theorem safe_valueToString (v : Value) (h : safeVal v = true) :
    safeStr (valueToString v) = true := by
  cases v with
  | str s => exact h
  | num n => exact safeStr_intToDec n
  | bool b =>
    cases b <;> simp only [valueToString] <;> decide
  | arr xs => exact safe_arrToString xs h
  | obj fs =>
    simp only [valueToString]
    decide

theorem safe_arrToString (l : List Value) (h : safeList l = true) :
    safeStr (arrToString l) = true := by
  cases l with
  | nil => decide
  | cons x xs =>
    cases xs with
    | nil =>
      rw [safeList] at h
      exact safe_valueToString x (by simpa using (Bool.and_eq_true _ _ ▸ h).1)
    | cons y ys =>
      rw [safeList] at h
      have h1 := (Bool.and_eq_true _ _ ▸ h).1
      have h2 := (Bool.and_eq_true _ _ ▸ h).2
      show safeStr (valueToString x ++ "," ++ arrToString (y :: ys)) = true
      rw [safeStr_append, safeStr_append]
      rw [safe_valueToString x h1, safe_arrToString (y :: ys) h2]
      decide

end

theorem lookupDoc_filter_ne (b : Doc) (k k₀ : String) (h : k ≠ k₀) :
    lookupDoc (b.filter (fun kv => kv.1 ≠ k₀)) k = lookupDoc b k := by
  induction b with
  | nil => rfl
  | cons hd tl ih =>
    obtain ⟨k₁, v₁⟩ := hd
    by_cases h1 : k₁ = k₀
    · subst h1
      have : ¬ (k₁ = k) := fun hx => h (hx.symm)
      simp [lookupDoc, List.find?, this, List.filter] at ih ⊢
      exact ih
    · by_cases h2 : k₁ = k
      · subst h2
        simp [lookupDoc, List.filter, h1, List.find?]
      · simp [lookupDoc, List.filter, h1, List.find?, h2] at ih ⊢
        exact ih

@[simp] theorem lookupDoc_cons (k₀ : String) (v : Value) (d : Doc) (k : String) :
    lookupDoc ((k₀, v) :: d) k = if k₀ = k then some v else lookupDoc d k := by
  by_cases h : k₀ = k <;> simp [lookupDoc, List.find?, h]

theorem lookupDoc_jsMerge (a b : Doc) (k : String) :
    lookupDoc (jsMerge a b) k =
      match lookupDoc b k with
      | some v => some v
      | none => lookupDoc a k := by
  induction a generalizing b with
  | nil =>
    rw [jsMerge]
    cases h : lookupDoc b k <;> simp [h, lookupDoc]
  | cons hd rest ih =>
    obtain ⟨k₀, v₀⟩ := hd
    rw [jsMerge, lookupDoc_cons]
    by_cases h0 : k₀ = k
    · subst h0
      rw [if_pos rfl]
      cases h : lookupDoc b k₀ <;> simp [h]
    · rw [if_neg h0, ih, lookupDoc_filter_ne b k k₀ (fun hx => h0 hx.symm)]
      cases h : lookupDoc b k <;> simp [h, h0]

theorem mem_insStr (a x : String) (l : List String) :
    a ∈ insStr x l ↔ a = x ∨ a ∈ l := by
  induction l with
  | nil => simp [insStr]
  | cons y ys ih =>
    rw [insStr]
    split
    · simp only [List.mem_cons, ih]
      tauto
    · simp [List.mem_cons]

theorem mem_insSortStr (a : String) (l : List String) :
    a ∈ insSortStr l ↔ a ∈ l := by
  induction l with
  | nil => simp [insSortStr]
  | cons x xs ih => simp [insSortStr, mem_insStr, ih]

theorem mem_scanKeys (s : Store) (b : Bounds) (k : String) :
    k ∈ scanKeys s b ↔ k ∈ skeys s ∧ inBounds b k = true := by
  simp [scanKeys, mem_insSortStr, List.mem_filter]

theorem mem_addId (a x : String) (l : List String) :
    a ∈ addId l x ↔ a ∈ l ∨ a = x := by
  unfold addId
  split
  · rename_i h
    constructor
    · exact fun hm => Or.inl hm
    · rintro (hm | rfl)
      · exact hm
      · exact h
  · simp

/-- The rewrite in `queryDocsV` is the exact one-step unfolding of the
loop: on a single non-`$` field holding an operator object, `queryGo` is
`handleOpsGo`. -/
theorem queryGo_singleton_opField (s : Store) (k : String) (fl : List (String × Value))
    (hk : strStarts "$" k = false) (hop : isOpObject (Value.obj fl) = true) :
    queryGo s [(k, Value.obj fl)] none = handleOpsGo s k fl none := by
  have hkor : ¬ (k = "$or") := by
    rintro rfl
    exact absurd hk (by decide)
  rw [queryGo]
  rw [if_neg hkor, if_neg (by simp [hk])]
  rw [hop]
  simp only [if_true]
  cases h : handleOpsGo s k fl none with
  | error e => simp [h]
  | ok ids =>
    simp only [h]
    rw [queryGo]
    rfl

theorem sizeOf_fieldsOfVal (q : Value) : sizeOf (fieldsOfVal q) ≤ sizeOf q := by
  cases q <;> simp [fieldsOfVal]

theorem replaceOp_absent (s : Store) (id : String) (nd : Doc)
    (hid : id ≠ "") (hc : idCompatible nd id) (habs : sget s id = none) :
    replaceOp s id nd = (.error .notFound, s) := by
  unfold replaceOp
  rw [if_neg hid]
  have hf : replaceOp.replaceFound s id nd = (.error .notFound, s) := by
    unfold replaceOp.replaceFound
    rw [habs]
  rcases hc with h | h
  · rw [h, hf]
  · rw [h]
    simp [hf]

theorem patchOp_absent (s : Store) (id : String) (nd : Doc)
    (hid : id ≠ "") (hc : idCompatible nd id) (habs : sget s id = none) :
    patchOp s id nd = (.error .notFound, s) := by
  unfold patchOp
  rw [if_neg hid]
  have hf : patchOp.patchFound s id nd = (.error .notFound, s) := by
    unfold patchOp.patchFound
    rw [habs]
  rcases hc with h | h
  · rw [h, hf]
  · rw [h]
    simp [hf]

theorem removeOp_absent (s : Store) (id : String)
    (hid : id ≠ "") (habs : sget s id = none) :
    removeOp s id = (.error .notFound, s) := by
  unfold removeOp
  rw [if_neg hid, habs]

theorem readOp_absent (s : Store) (id : String) (habs : sget s id = none) :
    readOp s id = none := by
  unfold readOp
  rw [habs]

theorem strStarts_append_self (p r : String) : strStarts p (p ++ r) = true := by
  show (p.data.isPrefixOf (p ++ r).data) = true
  rw [show (p ++ r).data = p.data ++ r.data from rfl]
  exact List.isPrefixOf_iff_prefix.mpr (List.prefix_append _ _)

theorem strStarts_head (p s : String) (c : Char) (cs : List Char)
    (hp : p.data = c :: cs) (h : strStarts p s = true) : ∃ t, s.data = c :: t := by
  have hpre := List.isPrefixOf_iff_prefix.mp h
  obtain ⟨u, hu⟩ := hpre
  rw [hp] at hu
  exact ⟨cs ++ u, by rw [← hu]; simp⟩

theorem isIxKey_ixKeyS (pv : String × String) (id : String) :
    isIxKey (ixKeyS pv id) = true := by
  show strStarts "indexes" ("indexes" ++ (pv.1 ++ "=" ++ pv.2 ++ "|" ++ id)) = true
  exact strStarts_append_self _ _

theorem isCtrKey_ctrKeyS (pv : String × String) : isCtrKey (ctrKeyS pv) = true := by
  show strStarts "counts" ("counts" ++ (pv.1 ++ "=" ++ pv.2)) = true
  exact strStarts_append_self _ _

theorem not_ix_and_ctr (k : String) : ¬ (isIxKey k = true ∧ isCtrKey k = true) := by
  rintro ⟨h1, h2⟩
  obtain ⟨t1, ht1⟩ := strStarts_head "indexes" k 'i' "ndexes".data rfl h1
  obtain ⟨t2, ht2⟩ := strStarts_head "counts" k 'c' "ounts".data rfl h2
  rw [ht1] at ht2
  exact absurd (List.head_eq_of_cons_eq ht2) (by decide)

theorem isCtrKey_ixKeyS (pv : String × String) (id : String) :
    isCtrKey (ixKeyS pv id) = false := by
  by_contra h
  exact not_ix_and_ctr _ ⟨isIxKey_ixKeyS pv id, by revert h; cases isCtrKey (ixKeyS pv id) <;> simp⟩

theorem isIxKey_ctrKeyS (pv : String × String) : isIxKey (ctrKeyS pv) = false := by
  by_contra h
  exact not_ix_and_ctr _ ⟨by revert h; cases isIxKey (ctrKeyS pv) <;> simp, isCtrKey_ctrKeyS pv⟩

theorem safeId_parts (id : String) (h : safeId id = true) :
    id ≠ "" ∧ safeStr id = true ∧ isCtrKey id = false ∧ isIxKey id = false := by
  unfold safeId at h
  simp only [Bool.and_eq_true, Bool.not_eq_true', decide_eq_true_eq] at h
  exact ⟨h.1.1.1, h.1.1.2, h.1.2, h.2⟩

theorem safeStr_no_bar (s : String) (h : safeStr s = true) : '|' ∉ s.data := by
  intro hm
  have := List.all_eq_true.mp h '|' hm
  simp [safeChar] at this

theorem safeStr_no_eq (s : String) (h : safeStr s = true) : '=' ∉ s.data := by
  intro hm
  have := List.all_eq_true.mp h '=' hm
  simp [safeChar] at this

theorem safeStr_no_max (s : String) (h : safeStr s = true) : maxChar ∉ s.data := by
  intro hm
  have := List.all_eq_true.mp h maxChar hm
  simp [safeChar] at this

theorem ixKeyS_data (pv : String × String) (id : String) :
    (ixKeyS pv id).data =
      ("indexes" ++ pv.1 ++ "=" ++ pv.2).data ++ '|' :: id.data := by
  show ("indexes" ++ pv.1 ++ "=" ++ pv.2 ++ "|" ++ id).data = _
  rw [show ("indexes" ++ pv.1 ++ "=" ++ pv.2 ++ "|" ++ id).data
      = ("indexes" ++ pv.1 ++ "=" ++ pv.2).data ++ "|".data ++ id.data from rfl]
  simp

theorem bar_mem_ixKeyS (pv : String × String) (id : String) :
    '|' ∈ (ixKeyS pv id).data := by
  rw [ixKeyS_data]
  simp

theorem safeStr_ne_ixKeyS (x : String) (hx : safeStr x = true) (pv : String × String)
    (id : String) : x ≠ ixKeyS pv id := by
  intro h
  exact absurd (h ▸ bar_mem_ixKeyS pv id) (by
    rw [← h] at *
    exact safeStr_no_bar x hx)

/-- First-occurrence splitting: a separator-free head determines the
split. -/
theorem firstSep_inj (c : Char) (a₁ : List Char) :
    ∀ (a₂ b₁ b₂ : List Char), c ∉ a₁ → c ∉ a₂ →
      a₁ ++ c :: b₁ = a₂ ++ c :: b₂ → a₁ = a₂ ∧ b₁ = b₂ := by
  induction a₁ with
  | nil =>
    intro a₂ b₁ b₂ _ h2 heq
    cases a₂ with
    | nil => simpa using heq
    | cons x xs =>
      simp only [List.nil_append, List.cons_append, List.cons.injEq] at heq
      obtain ⟨hxc, -⟩ := heq
      subst hxc
      exact absurd (List.mem_cons_self _ _) h2
  | cons x xs ih =>
    intro a₂ b₁ b₂ h1 h2 heq
    cases a₂ with
    | nil =>
      simp only [List.nil_append, List.cons_append, List.cons.injEq] at heq
      obtain ⟨hxc, -⟩ := heq
      subst hxc
      exact absurd (List.mem_cons_self _ _) h1
    | cons y ys =>
      simp only [List.cons_append, List.cons.injEq] at heq
      obtain ⟨hxy, hrest⟩ := heq
      have h1' : c ∉ xs := fun hm => h1 (List.mem_cons_of_mem _ hm)
      have h2' : c ∉ ys := fun hm => h2 (List.mem_cons_of_mem _ hm)
      obtain ⟨ha, hb⟩ := ih ys b₁ b₂ h1' h2' hrest
      exact ⟨by rw [hxy, ha], hb⟩

/-- Last-occurrence splitting: a separator-free tail determines the
split. -/
theorem lastSep_inj (c : Char) (a₁ a₂ b₁ b₂ : List Char)
    (h1 : c ∉ b₁) (h2 : c ∉ b₂)
    (heq : a₁ ++ c :: b₁ = a₂ ++ c :: b₂) : a₁ = a₂ ∧ b₁ = b₂ := by
  have hrev : b₁.reverse ++ c :: a₁.reverse = b₂.reverse ++ c :: a₂.reverse := by
    have := congrArg List.reverse heq
    simpa [List.reverse_append] using this
  have h1' : c ∉ b₁.reverse := by simpa using h1
  have h2' : c ∉ b₂.reverse := by simpa using h2
  obtain ⟨hb, ha⟩ := firstSep_inj c b₁.reverse b₂.reverse a₁.reverse a₂.reverse h1' h2' hrev
  constructor
  · have := congrArg List.reverse ha
    simpa using this
  · have := congrArg List.reverse hb
    simpa using this

/-- Two index keys with separator-free ids agree on the id. -/
theorem ixKeyS_id_inj (pv₁ pv₂ : String × String) (id₁ id₂ : String)
    (h1 : safeStr id₁ = true) (h2 : safeStr id₂ = true)
    (heq : ixKeyS pv₁ id₁ = ixKeyS pv₂ id₂) : id₁ = id₂ := by
  have hd := congrArg String.data heq
  rw [ixKeyS_data, ixKeyS_data] at hd
  obtain ⟨-, hb⟩ := lastSep_inj '|' _ _ _ _ (safeStr_no_bar _ h1) (safeStr_no_bar _ h2) hd
  exact String.ext hb

/-! ## Effect of `addToIndexes` / `removeIndexesForDocument` on the store -/

theorem sget_incrCtr_ne (s : Store) (pv : String × String) (k : String)
    (hk : k ≠ ctrKeyS pv) : sget (incrCtr s pv) k = sget s k := by
  unfold incrCtr
  rw [sget_sput, if_neg hk]

theorem sget_decrCtr_ne (s : Store) (pv : String × String) (k : String)
    (hk : k ≠ ctrKeyS pv) : sget (decrCtr s pv) k = sget s k := by
  unfold decrCtr
  split
  · simp [hk]
  · split
    · split <;> simp [hk]
    · simp [hk]

theorem sget_addList (id k : String) (hk : isCtrKey k = false)
    (pvs : List (String × String)) :
    ∀ s : Store,
      sget (pvs.foldl (fun st pv => incrCtr (sput st (ixKeyS pv id) (.raw id)) pv) s) k =
        if k ∈ pvs.map (fun pv => ixKeyS pv id) then some (.raw id) else sget s k := by
  induction pvs with
  | nil => intro s; simp
  | cons pv rest ih =>
    intro s
    rw [List.foldl_cons, ih]
    by_cases hmem : k ∈ rest.map (fun pv => ixKeyS pv id)
    · simp [hmem]
    · have hctr : k ≠ ctrKeyS pv := by
        intro h
        rw [h, isCtrKey_ctrKeyS] at hk
        exact absurd hk (by simp)
      rw [if_neg hmem, sget_incrCtr_ne _ _ _ hctr, sget_sput]
      by_cases hkk : k = ixKeyS pv id
      · simp [hkk]
      · simp [hkk, hmem]

theorem sget_addToIndexes (s : Store) (id : String) (d : Doc) (k : String)
    (hk : isCtrKey k = false) :
    sget (addToIndexes s id d) k =
      if k ∈ ixKeys id d then some (.raw id) else sget s k := by
  exact sget_addList id k hk (entryPairsDoc "" d) s

theorem sget_removeList (id k : String) (hk : isCtrKey k = false)
    (pvs : List (String × String)) :
    ∀ s : Store,
      sget (pvs.foldl (fun st pv => decrCtr (sdel st (ixKeyS pv id)) pv) s) k =
        if k ∈ pvs.map (fun pv => ixKeyS pv id) then none else sget s k := by
  induction pvs with
  | nil => intro s; simp
  | cons pv rest ih =>
    intro s
    rw [List.foldl_cons, ih]
    by_cases hmem : k ∈ rest.map (fun pv => ixKeyS pv id)
    · simp [hmem]
    · have hctr : k ≠ ctrKeyS pv := by
        intro h
        rw [h, isCtrKey_ctrKeyS] at hk
        exact absurd hk (by simp)
      rw [if_neg hmem, sget_decrCtr_ne _ _ _ hctr, sget_sdel]
      by_cases hkk : k = ixKeyS pv id
      · simp [hkk]
      · simp [hkk, hmem]

theorem sget_removeIx (s : Store) (id : String) (d : Doc) (k : String)
    (hk : isCtrKey k = false) :
    sget (removeIndexesForDocument s id d) k =
      if k ∈ ixKeys id d then none else sget s k := by
  exact sget_removeList id k hk (entryPairsDoc "" d) s

theorem safeStr_not_mem_ixKeys (x : String) (hx : safeStr x = true) (id : String)
    (d : Doc) : x ∉ ixKeys id d := by
  intro hm
  unfold ixKeys at hm
  obtain ⟨pv, -, hpv⟩ := List.mem_map.mp hm
  exact safeStr_ne_ixKeyS x hx pv id hpv.symm

theorem replaceOp_eq_found (s : Store) (id : String) (nd old : Doc)
    (hne : id ≠ "") (hc : idCompatible nd id) (hex : sget s id = some (.doc old)) :
    replaceOp s id nd =
      (.ok (jsMerge nd [("id", Value.str id)]),
        addToIndexes
          (sput (removeIndexesForDocument s id old) id
            (.doc (jsMerge nd [("id", Value.str id)])))
          id (jsMerge nd [("id", Value.str id)])) := by
  unfold replaceOp
  rw [if_neg hne]
  have hf : replaceOp.replaceFound s id nd =
      (.ok (jsMerge nd [("id", Value.str id)]),
        addToIndexes
          (sput (removeIndexesForDocument s id old) id
            (.doc (jsMerge nd [("id", Value.str id)])))
          id (jsMerge nd [("id", Value.str id)])) := by
    unfold replaceOp.replaceFound
    rw [hex]
    rfl
  rcases hc with h | h
  · rw [h, hf]
  · rw [h]
    simp [hf]

theorem patchOp_eq_found (s : Store) (id : String) (nd old : Doc)
    (hne : id ≠ "") (hc : idCompatible nd id) (hex : sget s id = some (.doc old)) :
    patchOp s id nd =
      (.ok (jsMerge (jsMerge old nd) [("id", Value.str id)]),
        addToIndexes
          (sput (removeIndexesForDocument s id old) id
            (.doc (jsMerge (jsMerge old nd) [("id", Value.str id)])))
          id (jsMerge (jsMerge old nd) [("id", Value.str id)])) := by
  unfold patchOp
  rw [if_neg hne]
  have hf : patchOp.patchFound s id nd =
      (.ok (jsMerge (jsMerge old nd) [("id", Value.str id)]),
        addToIndexes
          (sput (removeIndexesForDocument s id old) id
            (.doc (jsMerge (jsMerge old nd) [("id", Value.str id)])))
          id (jsMerge (jsMerge old nd) [("id", Value.str id)])) := by
    unfold patchOp.patchFound
    rw [hex]
    rfl
  rcases hc with h | h
  · rw [h, hf]
  · rw [h]
    simp [hf]

/-- After `sput` of a document at a safe id followed by `addToIndexes` of
that document, `read` returns exactly that document. -/
theorem readOp_put_then_add (s : Store) (id : String) (p : Doc)
    (hids : safeId id = true) :
    readOp (addToIndexes (sput s id (.doc p)) id p) id = some p := by
  obtain ⟨-, hsafe, hctr, -⟩ := safeId_parts id hids
  unfold readOp
  rw [sget_addToIndexes _ _ _ _ hctr,
    if_neg (safeStr_not_mem_ixKeys id hsafe id p), sget_sput, if_pos rfl]

theorem lookupDoc_setId (d : Doc) (id : String) :
    lookupDoc (jsMerge d [("id", Value.str id)]) "id" = some (.str id) := by
  rw [lookupDoc_jsMerge]
  simp

theorem lookupDoc_setId_ne (d : Doc) (id k : String) (hk : k ≠ "id") :
    lookupDoc (jsMerge d [("id", Value.str id)]) k = lookupDoc d k := by
  rw [lookupDoc_jsMerge]
  have : lookupDoc [("id", Value.str id)] k = none := by
    rw [lookupDoc_cons, if_neg (fun h : "id" = k => hk h.symm)]
    rfl
  rw [this]

/-- C3: for every id with no stored document: `replace`, `patch` and
`remove` each fail with `NotFound` and return the store untouched (no
document, index, or counter key written or deleted), while `read` returns
absent without raising.  (`id` must be truthy and the supplied document's
id compatible, or the earlier `InvalidArgument` checks fire instead, per
the spec's taxonomy.) -/
theorem c3_absent_mutations (s : Store) (id : String) (nd : Doc)
    (hid : id ≠ "") (hc : idCompatible nd id) (habs : sget s id = none) :
    replaceOp s id nd = (.error .notFound, s) ∧
    patchOp s id nd = (.error .notFound, s) ∧
    removeOp s id = (.error .notFound, s) ∧
    readOp s id = none :=
  ⟨replaceOp_absent s id nd hid hc habs,
   patchOp_absent s id nd hid hc habs,
   removeOp_absent s id hid habs,
   readOp_absent s id habs⟩

/-- Witness for C3 at a concrete store and id. -/
theorem c3_absent_mutations_witness :
    replaceOp [("b", .doc [("id", Value.str "b")])] "a" [("k", Value.num 1)]
        = (.error .notFound, [("b", .doc [("id", Value.str "b")])]) ∧
    patchOp [("b", .doc [("id", Value.str "b")])] "a" [("k", Value.num 1)]
        = (.error .notFound, [("b", .doc [("id", Value.str "b")])]) ∧
    removeOp [("b", .doc [("id", Value.str "b")])] "a"
        = (.error .notFound, [("b", .doc [("id", Value.str "b")])]) ∧
    readOp [("b", .doc [("id", Value.str "b")])] "a" = none :=
  c3_absent_mutations [("b", .doc [("id", Value.str "b")])] "a" [("k", Value.num 1)]
    (by decide) (Or.inl rfl) rfl

/-- C4: on a stored document, `replace` stores exactly the new document
with the id forced to the target id (no prior field survives: every
non-id field of the result is the new document's), `patch` stores the
shallow merge in which the partial's fields win and the id is preserved,
and both return the document as stored (`read` after the operation gives
back the returned document). -/
theorem c4_replace_patch (s : Store) (id : String) (nd old : Doc)
    (hids : safeId id = true) (hc : idCompatible nd id)
    (hex : sget s id = some (.doc old)) :
    (replaceOp s id nd).1 = .ok (jsMerge nd [("id", Value.str id)]) ∧
    readOp (replaceOp s id nd).2 id = some (jsMerge nd [("id", Value.str id)]) ∧
    lookupDoc (jsMerge nd [("id", Value.str id)]) "id" = some (.str id) ∧
    (∀ k, k ≠ "id" →
      lookupDoc (jsMerge nd [("id", Value.str id)]) k = lookupDoc nd k) ∧
    (patchOp s id nd).1 = .ok (jsMerge (jsMerge old nd) [("id", Value.str id)]) ∧
    readOp (patchOp s id nd).2 id
      = some (jsMerge (jsMerge old nd) [("id", Value.str id)]) ∧
    lookupDoc (jsMerge (jsMerge old nd) [("id", Value.str id)]) "id"
      = some (.str id) ∧
    (∀ k, k ≠ "id" →
      lookupDoc (jsMerge (jsMerge old nd) [("id", Value.str id)]) k =
        match lookupDoc nd k with
        | some v => some v
        | none => lookupDoc old k) := by
  have hne : id ≠ "" := (safeId_parts id hids).1
  have hrep := replaceOp_eq_found s id nd old hne hc hex
  have hpat := patchOp_eq_found s id nd old hne hc hex
  refine ⟨by rw [hrep], ?_, lookupDoc_setId nd id,
    fun k hk => lookupDoc_setId_ne nd id k hk, by rw [hpat], ?_,
    lookupDoc_setId (jsMerge old nd) id,
    fun k hk => ?_⟩
  · rw [hrep]
    exact readOp_put_then_add _ id _ hids
  · rw [hpat]
    exact readOp_put_then_add _ id _ hids
  · rw [lookupDoc_setId_ne (jsMerge old nd) id k hk, lookupDoc_jsMerge]

/-- Witness for C4 at a concrete store, id and documents. -/
theorem c4_replace_patch_witness :
    (replaceOp [("a", .doc [("id", Value.str "a"), ("x", Value.num 1)])] "a"
        [("y", Value.num 2)]).1
      = .ok (jsMerge [("y", Value.num 2)] [("id", Value.str "a")]) ∧
    readOp (replaceOp [("a", .doc [("id", Value.str "a"), ("x", Value.num 1)])] "a"
        [("y", Value.num 2)]).2 "a"
      = some (jsMerge [("y", Value.num 2)] [("id", Value.str "a")]) ∧
    lookupDoc (jsMerge [("y", Value.num 2)] [("id", Value.str "a")]) "id"
      = some (.str "a") ∧
    (∀ k, k ≠ "id" →
      lookupDoc (jsMerge [("y", Value.num 2)] [("id", Value.str "a")]) k
        = lookupDoc [("y", Value.num 2)] k) ∧
    (patchOp [("a", .doc [("id", Value.str "a"), ("x", Value.num 1)])] "a"
        [("y", Value.num 2)]).1
      = .ok (jsMerge (jsMerge [("id", Value.str "a"), ("x", Value.num 1)]
          [("y", Value.num 2)]) [("id", Value.str "a")]) ∧
    readOp (patchOp [("a", .doc [("id", Value.str "a"), ("x", Value.num 1)])] "a"
        [("y", Value.num 2)]).2 "a"
      = some (jsMerge (jsMerge [("id", Value.str "a"), ("x", Value.num 1)]
          [("y", Value.num 2)]) [("id", Value.str "a")]) ∧
    lookupDoc (jsMerge (jsMerge [("id", Value.str "a"), ("x", Value.num 1)]
        [("y", Value.num 2)]) [("id", Value.str "a")]) "id" = some (.str "a") ∧
    (∀ k, k ≠ "id" →
      lookupDoc (jsMerge (jsMerge [("id", Value.str "a"), ("x", Value.num 1)]
          [("y", Value.num 2)]) [("id", Value.str "a")]) k =
        match lookupDoc [("y", Value.num 2)] k with
        | some v => some v
        | none => lookupDoc [("id", Value.str "a"), ("x", Value.num 1)] k) :=
  c4_replace_patch [("a", .doc [("id", Value.str "a"), ("x", Value.num 1)])] "a"
    [("y", Value.num 2)] [("id", Value.str "a"), ("x", Value.num 1)]
    (by decide) (Or.inl rfl) rfl

/-- C9: `upsert` never validates the document's id against the id
argument: with a mismatched truthy `document.id` it still succeeds, and
the stored document's id field is the id argument (the document's own id
is discarded by the final `id` in the spread) — while `replace` and
`patch` reject the same arguments with `InvalidArgument`. -/
theorem c9_upsert_ignores_doc_id (s : Store) (id : String) (d : Doc) (other : String)
    (hids : safeId id = true)
    (hmis : getIdField d = some other) (hne : other ≠ id)
    (hdoc : sget s id = none ∨ ∃ old, sget s id = some (.doc old)) :
    (∃ p, (upsertOp s id d).1 = .ok p ∧
      lookupDoc p "id" = some (.str id) ∧
      readOp (upsertOp s id d).2 id = some p) ∧
    (replaceOp s id d).1 = .error .invalidArg ∧
    (patchOp s id d).1 = .error .invalidArg := by
  have hne' : id ≠ "" := (safeId_parts id hids).1
  have hne'' : id ≠ other := fun h => hne h.symm
  refine ⟨?_, ?_, ?_⟩
  · unfold upsertOp
    rw [if_neg hne']
    rcases hdoc with h | ⟨old, h⟩
    · rw [h]
      exact ⟨jsMerge (jsMerge [] d) [("id", Value.str id)],
        rfl, lookupDoc_setId _ id, readOp_put_then_add _ id _ hids⟩
    · rw [h]
      exact ⟨jsMerge (jsMerge old d) [("id", Value.str id)],
        rfl, lookupDoc_setId _ id, readOp_put_then_add _ id _ hids⟩
  · unfold replaceOp
    rw [if_neg hne', hmis]
    simp [hne'']
  · unfold patchOp
    rw [if_neg hne', hmis]
    simp [hne'']

/-- Witness for C9 at a concrete store, id and document. -/
theorem c9_upsert_ignores_doc_id_witness :
    (∃ p, (upsertOp [] "a" [("id", Value.str "zzz"), ("k", Value.num 1)]).1 = .ok p ∧
      lookupDoc p "id" = some (.str "a") ∧
      readOp (upsertOp [] "a" [("id", Value.str "zzz"), ("k", Value.num 1)]).2 "a"
        = some p) ∧
    (replaceOp [] "a" [("id", Value.str "zzz"), ("k", Value.num 1)]).1
      = .error .invalidArg ∧
    (patchOp [] "a" [("id", Value.str "zzz"), ("k", Value.num 1)]).1
      = .error .invalidArg :=
  c9_upsert_ignores_doc_id [] "a" [("id", Value.str "zzz"), ("k", Value.num 1)] "zzz"
    (by decide) rfl (by decide) (Or.inl rfl)

/-! ## C7: `find` vs `filter` -/

theorem fofLoop_find_eq_filter_one (s : Store) (v : Value) (skip : Nat)
    (limit : Option Nat) (ks : List String) :
    ∀ skipIdx, fofLoop s v true skip limit ks skipIdx []
      = fofLoop s v false skip (some 1) ks skipIdx [] := by
  induction ks with
  | nil => intro skipIdx; rfl
  | cons k rest ih =>
    intro skipIdx
    rw [fofLoop, fofLoop]
    by_cases hm : jsLooseEq (lvalueOf k) v = true
    · rw [if_pos hm, if_pos hm]
      by_cases hs : skipIdx < skip
      · rw [if_pos hs, if_pos hs, ih]
      · rw [if_neg hs, if_neg hs]
        simp
    · rw [if_neg hm, if_neg hm, ih]

theorem fofLoop_filter_length_le (s : Store) (v : Value) (skip l : Nat)
    (ks : List String) :
    ∀ skipIdx (acc : List String),
      (fofLoop s v false skip (some l) ks skipIdx acc).length
        ≤ max l (acc.length + 1) := by
  induction ks with
  | nil =>
    intro skipIdx acc
    rw [fofLoop]
    omega
  | cons k rest ih =>
    intro skipIdx acc
    rw [fofLoop]
    by_cases hm : jsLooseEq (lvalueOf k) v = true
    · rw [if_pos hm]
      by_cases hs : skipIdx < skip
      · rw [if_pos hs]
        exact ih _ acc
      · rw [if_neg hs]
        simp only [Bool.false_eq_true, if_false]
        by_cases hl : (acc ++ [(match sget s k with
            | some w => storeValStr w
            | none => "")]).length ≥ l
        · rw [if_pos hl]
          simp only [List.length_append, List.length_cons, List.length_nil]
          omega
        · rw [if_neg hl]
          have := ih skipIdx (acc ++ [(match sget s k with
            | some w => storeValStr w
            | none => "")])
          simp at hl this ⊢
          omega
    · rw [if_neg hm]
      exact ih _ acc

/-- Value mode: `findOrFilter('find', …)` is `findOrFilter('filter', …)`
with limit 1, and the filter result is capped at `max limit 1`. -/
theorem findVal_filterVal (s : Store) (key : String) (v : Value) (skip l : Nat)
    (limit : Option Nat) :
    findValOp s key v skip limit = (filterValOp s key v skip (some 1)).head? ∧
    (filterValOp s key v skip (some l)).length ≤ max l 1 := by
  constructor
  · unfold findValOp filterValOp
    rw [fofLoop_find_eq_filter_one s v skip limit (fofScan s key v) 0]
    have hle := fofLoop_filter_length_le s v skip 1 (fofScan s key v) 0 []
    cases hL : fofLoop s v false skip (some 1) (fofScan s key v) 0 [] with
    | nil => rfl
    | cons x xs =>
      cases xs with
      | nil =>
        cases hr : readOp s x with
        | none => simp [hr, List.reduceOption]
        | some d => simp [hr, List.reduceOption]
      | cons y ys =>
        rw [hL] at hle
        simp at hle
  · unfold filterValOp
    have h1 := fofLoop_filter_length_le s v skip l (fofScan s key v) 0 []
    have h2 := List.reduceOption_length_le (((fofLoop s v false skip (some l)
      (fofScan s key v) 0 []).map (readOp s)))
    simp only [List.length_map] at h2
    simp only [List.length_nil, Nat.zero_add] at h1
    exact le_trans h2 h1

theorem fofFnLoop_find_eq_filter_one (s : Store) (p : String → Bool) (skip : Nat)
    (limit : Option Nat) (ks : List String) :
    ∀ skipIdx, fofFnLoop s p true skip limit ks skipIdx []
      = fofFnLoop s p false skip (some 1) ks skipIdx [] := by
  induction ks with
  | nil => intro skipIdx; rfl
  | cons k rest ih =>
    intro skipIdx
    rw [fofFnLoop, fofFnLoop]
    by_cases hm : p (lvalueOf k) = true
    · rw [if_pos hm, if_pos hm]
      by_cases hs : skipIdx < skip
      · rw [if_pos hs, if_pos hs, ih]
      · rw [if_neg hs, if_neg hs]
        simp
    · rw [if_neg hm, if_neg hm, ih]

theorem fofFnLoop_filter_length_le (s : Store) (p : String → Bool) (skip l : Nat)
    (ks : List String) :
    ∀ skipIdx (acc : List String),
      (fofFnLoop s p false skip (some l) ks skipIdx acc).length
        ≤ max l (acc.length + 1) := by
  induction ks with
  | nil =>
    intro skipIdx acc
    rw [fofFnLoop]
    omega
  | cons k rest ih =>
    intro skipIdx acc
    rw [fofFnLoop]
    by_cases hm : p (lvalueOf k) = true
    · rw [if_pos hm]
      by_cases hs : skipIdx < skip
      · rw [if_pos hs]
        exact ih _ acc
      · rw [if_neg hs]
        simp only [Bool.false_eq_true, if_false]
        by_cases hl : (acc ++ [(match sget s k with
            | some w => storeValStr w
            | none => "")]).length ≥ l
        · rw [if_pos hl]
          simp only [List.length_append, List.length_cons, List.length_nil]
          omega
        · rw [if_neg hl]
          have := ih skipIdx (acc ++ [(match sget s k with
            | some w => storeValStr w
            | none => "")])
          simp at hl this ⊢
          omega
    · rw [if_neg hm]
      exact ih _ acc

/-- Predicate mode: `findOrFilterByFunction('find', …)` is
`findOrFilterByFunction('filter', …)` with limit 1, and the filter result
is capped at `max limit 1`; the range options are shared by both sides. -/
theorem findFn_filterFn (s : Store) (key : String) (p : String → Bool) (skip l : Nat)
    (limit : Option Nat) (og oge ol ole : Option String) :
    findFnOp s key p ⟨skip, limit, og, oge, ol, ole⟩
      = (filterFnOp s key p ⟨skip, some 1, og, oge, ol, ole⟩).head? ∧
    (filterFnOp s key p ⟨skip, some l, og, oge, ol, ole⟩).length ≤ max l 1 := by
  constructor
  · unfold findFnOp filterFnOp
    rw [show fofFnScan s key ⟨skip, limit, og, oge, ol, ole⟩
        = fofFnScan s key ⟨skip, some 1, og, oge, ol, ole⟩ from rfl]
    rw [fofFnLoop_find_eq_filter_one s p skip limit
      (fofFnScan s key ⟨skip, some 1, og, oge, ol, ole⟩) 0]
    have hle := fofFnLoop_filter_length_le s p skip 1
      (fofFnScan s key ⟨skip, some 1, og, oge, ol, ole⟩) 0 []
    cases hL : fofFnLoop s p false skip (some 1)
        (fofFnScan s key ⟨skip, some 1, og, oge, ol, ole⟩) 0 [] with
    | nil => rfl
    | cons x xs =>
      cases xs with
      | nil =>
        cases hr : readOp s x with
        | none => simp [hr, List.reduceOption]
        | some d => simp [hr, List.reduceOption]
      | cons y ys =>
        rw [hL] at hle
        simp at hle
  · unfold filterFnOp
    have h1 := fofFnLoop_filter_length_le s p skip l
      (fofFnScan s key ⟨skip, some l, og, oge, ol, ole⟩) 0 []
    have h2 := List.reduceOption_length_le (((fofFnLoop s p false skip (some l)
      (fofFnScan s key ⟨skip, some l, og, oge, ol, ole⟩) 0 []).map (readOp s)))
    simp only [List.length_map] at h2
    simp only [List.length_nil, Nat.zero_add] at h1
    exact le_trans h2 h1

/-- C7 (amended): for both argument modes of `find`/`filter` — a literal
value (the scan pinned to the encoded value, loose-equality filtered) and
a predicate on each decoded index value (over the `gt`/`gte`/`lt`/`lte`-
configured range) — `find(key, arg, options)` equals
`filter(key, arg, options)` with limit 1 (the head of the result, or
absent, after `skip`, in ascending index-key order), and `filter`'s
result length is capped at `max limit 1`: a limit `≥ 1` caps at `limit`,
but a limit of `0` still returns the first match, because both loops
check the cap only after collecting a match. -/
theorem c7_find_filter (s : Store) (key : String) (vf : ValueOrFn) (skip l : Nat)
    (limit : Option Nat) (og oge ol ole : Option String) :
    findOp s key vf ⟨skip, limit, og, oge, ol, ole⟩
      = (filterOp s key vf ⟨skip, some 1, og, oge, ol, ole⟩).head? ∧
    (filterOp s key vf ⟨skip, some l, og, oge, ol, ole⟩).length ≤ max l 1 := by
  cases vf with
  | val v => exact findVal_filterVal s key v skip l limit
  | fn p => exact findFn_filterFn s key p skip l limit og oge ol ole

/-- Counterexample to C7 as stated: with two documents matching `k = 1`,
`filter` with `limit: 0` returns one document, not zero — the cap is
checked only after a match is pushed, so the result is not capped at the
given limit. -/
theorem c7_limit_zero_cex :
    (filterOp
      (insertOp (insertOp [] [("id", Value.str "a"), ("k", Value.num 1)] "g1").2
        [("id", Value.str "b"), ("k", Value.num 1)] "g2").2
      "k" (.val (Value.num 1)) ⟨0, some 0, none, none, none, none⟩).length = 1 ∧
    ¬ ((1 : Nat) ≤ 0) :=
  ⟨rfl, by decide⟩

/-! ## C5: `$ne` misses stored documents (code bug in `getAllIds`) -/

/-- C5: at the failing input — documents `a` (k = 1) and `x` (k = 2) —
`{k: {$ne: 1}}` returns the empty id-set although `x` is stored and does
not match `k = 1`: `getAllIds` bounds its scan with `lt: 'counts'`, which
silently drops every document id `≥ "counts"` (such as `"x"`),
contradicting its own comments (`// Only get keys that don't start with
'indexes' or 'counts'`) and the spec's "all ids minus `$eq v`". -/
theorem c5_ne_misses_stored_doc :
    (let s := (insertOp (insertOp [] [("id", Value.str "a"), ("k", Value.num 1)] "g1").2
        [("id", Value.str "x"), ("k", Value.num 2)] "g2").2
     handleOperators s "k" [("$ne", Value.num 1)] = .ok [] ∧
     readOp s "x" = some [("id", Value.str "x"), ("k", Value.num 2)] ∧
     getIdsForKeyValue s "k" (Value.num 1) = ["a"] ∧
     getAllIds s = ["a"] ∧
     strLt "counts" "x" = true) :=
  ⟨rfl, rfl, rfl, rfl, rfl⟩

/-! ## Counterexamples to C1, C2, C6, C10 as stated -/

/-- Counterexample to C1 as stated: ids and values containing the `|`
separator make distinct documents derive the same index key
(`indexes.a=1|b|x` for id `b|x` with `a = 1`, and for id `x` with
`a = "1|b"`); the second insert overwrites the first document's entry, so
the index entries stored for `b|x` are no longer those derivable from its
document. -/
theorem c1_index_inv_cex :
    ¬ IndexInv
      (insertOp (insertOp [] [("id", Value.str "b|x"), ("a", Value.num 1)] "g1").2
        [("id", Value.str "x"), ("a", Value.str "1|b")] "g2").2 := by
  intro h
  have h2 := (h "b|x" "indexes.a=1|b|x").mpr
    ⟨[("id", Value.str "b|x"), ("a", Value.num 1)], rfl, by decide⟩
  obtain ⟨-, hget⟩ := h2
  have h3 : sget
      (insertOp (insertOp [] [("id", Value.str "b|x"), ("a", Value.num 1)] "g1").2
        [("id", Value.str "x"), ("a", Value.str "1|b")] "g2").2
      "indexes.a=1|b|x" = some (.raw "x") := rfl
  have h4 := h3.symm.trans hget
  have h5 : "x" = "b|x" := by
    injection h4 with h4'
    injection h4'
  exact absurd h5 (by decide)

/-- Counterexample to C2 as stated: with documents `{a:1, b:2}` and
`{a:2, b:1}`, the two-field query `{a:1, b:1}` matches no document, but
`count` combines the per-field counters with `min(1, 1) = 1`. -/
theorem c2_count_min_cex :
    (let s := (insertOp (insertOp []
        [("id", Value.str "i"), ("a", Value.num 1), ("b", Value.num 2)] "g1").2
        [("id", Value.str "j"), ("a", Value.num 2), ("b", Value.num 1)] "g2").2
     countOp s (some (Value.obj [("a", Value.num 1), ("b", Value.num 1)])) = .ok 1 ∧
     queryOp s (some (Value.obj [("a", Value.num 1), ("b", Value.num 1)])) = .ok [] ∧
     (1 : Int) ≠ ((0 : Nat) : Int)) :=
  ⟨rfl, rfl, by decide⟩

/-- Counterexample to C6 as stated: the decoded index value is the text
between the first and second `=` of the key, so the non-numeric value
`"3=9"` decodes to `"3"`, parses as `3`, and matches `{$gt: 2}` — an
indexed value that does not parse as a number does match. -/
theorem c6_nonnumeric_match_cex :
    (let s := (insertOp [] [("id", Value.str "i"), ("a", Value.str "3=9")] "g").2
     queryOp s (some (Value.obj [("a", Value.obj [("$gt", Value.num 2)])]))
        = .ok [[("id", Value.str "i"), ("a", Value.str "3=9")]] ∧
     jsNumber? "3=9" = none) :=
  ⟨rfl, rfl⟩

/-- Counterexample to C10 as stated: inserting a document whose id starts
with `counts` stores a document body under a `counts…`-prefixed key, which
then holds JSON rather than a decimal numeral `≥ 1`. -/
theorem c10_counts_id_cex :
    ¬ CounterPositivity
      (insertOp [] [("id", Value.str "countsZ"), ("a", Value.num 1)] "g").2 := by
  intro h
  have h1 := h "countsZ" (.doc [("id", Value.str "countsZ"), ("a", Value.num 1)])
    (by decide) rfl
  obtain ⟨n, -, heq⟩ := h1
  exact StoreVal.noConfusion heq

/-! ## C10 (amended): counter positivity over reachable states -/

theorem intToDec_nonneg (m : Int) (h : 0 ≤ m) : intToDec m = natToDec m.toNat := by
  unfold intToDec
  rw [if_neg (not_lt.mpr h)]

theorem readCtr_pos_form (s : Store) (hs : CounterPositivity s) (ck : String)
    (hck : isCtrKey ck = true) :
    readCtr s ck = 0 ∨ ∃ n : Nat, 1 ≤ n ∧ readCtr s ck = (n : Int) := by
  unfold readCtr
  cases hv : sget s ck with
  | none => exact Or.inl rfl
  | some v =>
    obtain ⟨n, hn1, hform⟩ := hs ck v hck hv
    subst hform
    refine Or.inr ⟨n, hn1, ?_⟩
    show (match jsNumber? (natToDec n) with
      | some m => m
      | none => 0) = (n : Int)
    rw [jsNumber_natToDec]

theorem readCtr_nonneg (s : Store) (hs : CounterPositivity s) (ck : String)
    (hck : isCtrKey ck = true) : 0 ≤ readCtr s ck := by
  rcases readCtr_pos_form s hs ck hck with h | ⟨n, -, h⟩
  · rw [h]
  · rw [h]
    omega

theorem ctrPos_sput_notCtr (s : Store) (k : String) (v : StoreVal)
    (hs : CounterPositivity s) (hk : isCtrKey k = false) :
    CounterPositivity (sput s k v) := by
  intro k' v' hck hv
  rw [sget_sput] at hv
  by_cases h : k' = k
  · rw [h] at hck
    rw [hck] at hk
    exact absurd hk (by simp)
  · rw [if_neg h] at hv
    exact hs k' v' hck hv

theorem ctrPos_sdel (s : Store) (k : String) (hs : CounterPositivity s) :
    CounterPositivity (sdel s k) := by
  intro k' v' hck hv
  rw [sget_sdel] at hv
  by_cases h : k' = k
  · rw [if_pos h] at hv
    exact absurd hv (by simp)
  · rw [if_neg h] at hv
    exact hs k' v' hck hv

theorem ctrPos_incrCtr (s : Store) (pv : String × String) (hs : CounterPositivity s) :
    CounterPositivity (incrCtr s pv) := by
  intro k' v' hck hv
  unfold incrCtr at hv
  rw [sget_sput] at hv
  by_cases h : k' = ctrKeyS pv
  · rw [if_pos h] at hv
    have hr : 0 ≤ readCtr s (ctrKeyS pv) :=
      readCtr_nonneg s hs _ (isCtrKey_ctrKeyS pv)
    injection hv with hv2
    refine ⟨(readCtr s (ctrKeyS pv) + 1).toNat, by omega, ?_⟩
    rw [← hv2, intToDec_nonneg _ (by omega)]
  · rw [if_neg h] at hv
    exact hs k' v' hck hv

theorem ctrPos_decrCtr (s : Store) (pv : String × String) (hs : CounterPositivity s) :
    CounterPositivity (decrCtr s pv) := by
  intro k' v' hck hv
  unfold decrCtr at hv
  revert hv
  split
  · exact fun hv => ctrPos_sdel s _ hs k' v' hck hv
  · split
    · split
      · rename_i hpos
        intro hv
        rw [sget_sput] at hv
        by_cases h : k' = ctrKeyS pv
        · rw [if_pos h] at hv
          injection hv with hv2
          refine ⟨_, ?_, (by rw [← hv2, intToDec_nonneg _ (by omega)] :
            v' = StoreVal.raw (natToDec _))⟩
          omega
        · rw [if_neg h] at hv
          exact hs k' v' hck hv
      · exact fun hv => ctrPos_sdel s _ hs k' v' hck hv
    · exact fun hv => ctrPos_sdel s _ hs k' v' hck hv

theorem ctrPos_addList (id : String) (pvs : List (String × String)) :
    ∀ s : Store, CounterPositivity s →
      CounterPositivity
        (pvs.foldl (fun st pv => incrCtr (sput st (ixKeyS pv id) (.raw id)) pv) s) := by
  induction pvs with
  | nil => exact fun s hs => hs
  | cons pv rest ih =>
    intro s hs
    rw [List.foldl_cons]
    refine ih _ (ctrPos_incrCtr _ _ ?_)
    exact ctrPos_sput_notCtr _ _ _ hs (isCtrKey_ixKeyS pv id)

theorem ctrPos_addToIndexes (s : Store) (id : String) (d : Doc)
    (hs : CounterPositivity s) : CounterPositivity (addToIndexes s id d) :=
  ctrPos_addList id (entryPairsDoc "" d) s hs

theorem ctrPos_removeList (id : String) (pvs : List (String × String)) :
    ∀ s : Store, CounterPositivity s →
      CounterPositivity
        (pvs.foldl (fun st pv => decrCtr (sdel st (ixKeyS pv id)) pv) s) := by
  induction pvs with
  | nil => exact fun s hs => hs
  | cons pv rest ih =>
    intro s hs
    rw [List.foldl_cons]
    exact ih _ (ctrPos_decrCtr _ _ (ctrPos_sdel _ _ hs))

theorem ctrPos_removeIx (s : Store) (id : String) (d : Doc)
    (hs : CounterPositivity s) :
    CounterPositivity (removeIndexesForDocument s id d) :=
  ctrPos_removeList id (entryPairsDoc "" d) s hs

theorem ctrPos_insertGo (s : Store) (d : Doc) (id : String)
    (hs : CounterPositivity s) (hid : isCtrKey id = false) :
    CounterPositivity (insertGo s d id).2 := by
  unfold insertGo
  exact ctrPos_incrCtr _ _ (ctrPos_addToIndexes _ _ _
    (ctrPos_sput_notCtr _ _ _ hs hid))

theorem ctrPos_replaceFound (s : Store) (id : String) (nd : Doc)
    (hs : CounterPositivity s) (hid : isCtrKey id = false) :
    CounterPositivity (replaceOp.replaceFound s id nd).2 := by
  unfold replaceOp.replaceFound
  split
  · exact hs
  · split
    · exact hs
    · exact ctrPos_addToIndexes _ _ _
        (ctrPos_sput_notCtr _ _ _ (ctrPos_removeIx _ _ _ hs) hid)

theorem ctrPos_replaceOp (s : Store) (id : String) (nd : Doc)
    (hs : CounterPositivity s) (hid : isCtrKey id = false) :
    CounterPositivity (replaceOp s id nd).2 := by
  unfold replaceOp
  split
  · exact hs
  · split
    · split
      · exact hs
      · exact ctrPos_replaceFound s id nd hs hid
    · exact ctrPos_replaceFound s id nd hs hid

theorem ctrPos_patchFound (s : Store) (id : String) (nd : Doc)
    (hs : CounterPositivity s) (hid : isCtrKey id = false) :
    CounterPositivity (patchOp.patchFound s id nd).2 := by
  unfold patchOp.patchFound
  split
  · exact hs
  · split
    · exact hs
    · exact ctrPos_addToIndexes _ _ _
        (ctrPos_sput_notCtr _ _ _ (ctrPos_removeIx _ _ _ hs) hid)

theorem ctrPos_patchOp (s : Store) (id : String) (nd : Doc)
    (hs : CounterPositivity s) (hid : isCtrKey id = false) :
    CounterPositivity (patchOp s id nd).2 := by
  unfold patchOp
  split
  · exact hs
  · split
    · split
      · exact hs
      · exact ctrPos_patchFound s id nd hs hid
    · exact ctrPos_patchFound s id nd hs hid

theorem ctrPos_removeOp (s : Store) (id : String) (hs : CounterPositivity s) :
    CounterPositivity (removeOp s id).2 := by
  unfold removeOp
  split
  · exact hs
  · split
    · exact hs
    · split
      · exact hs
      · exact ctrPos_sdel _ _ (ctrPos_decrCtr _ _ (ctrPos_removeIx _ _ _ hs))

theorem ctrPos_upsertGo (s : Store) (old d : Doc) (id : String)
    (hs : CounterPositivity s) (hid : isCtrKey id = false) :
    CounterPositivity (upsertGo s old d id).2 := by
  unfold upsertGo
  exact ctrPos_addToIndexes _ _ _ (ctrPos_sput_notCtr _ _ _ hs hid)

theorem ctrPos_upsertOp (s : Store) (id : String) (d : Doc)
    (hs : CounterPositivity s) (hid : isCtrKey id = false) :
    CounterPositivity (upsertOp s id d).2 := by
  unfold upsertOp
  split
  · exact hs
  · split
    · split
      · exact hs
      · exact ctrPos_upsertGo _ _ _ _ (ctrPos_removeIx _ _ _ hs) hid
    · exact ctrPos_upsertGo _ _ _ _ (ctrPos_incrCtr _ _ hs) hid

theorem ctrPos_insertOp (s : Store) (d : Doc) (g : String)
    (hs : CounterPositivity s)
    (hdid : ∀ t, getIdField d = some t → isCtrKey t = false)
    (hg : isCtrKey g = false) :
    CounterPositivity (insertOp s d g).2 := by
  unfold insertOp
  split
  · rename_i t ht
    split
    · exact hs
    · exact ctrPos_insertGo s d t hs (hdid t ht)
  · exact ctrPos_insertGo s d g hs hg

theorem ctrPos_sput_goodCtr (s : Store) (k : String) (v : StoreVal)
    (hs : CounterPositivity s) (hv : ∃ n : Nat, 1 ≤ n ∧ v = .raw (natToDec n)) :
    CounterPositivity (sput s k v) := by
  intro k' v' hck hget
  rw [sget_sput] at hget
  by_cases h : k' = k
  · rw [if_pos h] at hget
    injection hget with h2
    obtain ⟨n, hn, hform⟩ := hv
    exact ⟨n, hn, by rw [← h2, hform]⟩
  · rw [if_neg h] at hget
    exact hs k' v' hck hget

theorem ctrPos_putAll (ps : List (String × Doc))
    (hall : ∀ p ∈ ps, isCtrKey p.1 = false) :
    ∀ s : Store, CounterPositivity s →
      CounterPositivity (ps.foldl (fun st idp => sput st idp.1 (.doc idp.2)) s) := by
  induction ps with
  | nil => exact fun s hs => hs
  | cons p rest ih =>
    intro s hs
    rw [List.foldl_cons]
    exact ih (fun q hq => hall q (List.mem_cons_of_mem _ hq)) _
      (ctrPos_sput_notCtr _ _ _ hs (hall p (List.mem_cons_self _ _)))

theorem ctrPos_addAll (ps : List (String × Doc)) :
    ∀ s : Store, CounterPositivity s →
      CounterPositivity (ps.foldl (fun st idp => addToIndexes st idp.1 idp.2) s) := by
  induction ps with
  | nil => exact fun s hs => hs
  | cons p rest ih =>
    intro s hs
    rw [List.foldl_cons]
    exact ih _ (ctrPos_addToIndexes _ _ _ hs)

theorem isCtrKey_totalCtrKey : isCtrKey totalCtrKey = true := by decide

theorem exists_natToDec_form (m : Int) (len : Nat) (hm : 0 ≤ m) (hlen : 1 ≤ len) :
    ∃ n : Nat, 1 ≤ n ∧ StoreVal.raw (intToDec (m + len)) = .raw (natToDec n) :=
  ⟨(m + len).toNat, by omega, by rw [intToDec_nonneg _ (by omega)]⟩

theorem ctrPos_batchInsertOp (s : Store) (docs : List Doc) (gids : List String)
    (hs : CounterPositivity s)
    (hall : ∀ dg ∈ docs.zip gids, isCtrKey ((getIdField dg.1).getD dg.2) = false) :
    CounterPositivity (batchInsertOp s docs gids).2 := by
  unfold batchInsertOp
  split
  · exact hs
  · rename_i hne
    have hps : ∀ p ∈ (docs.zip gids).map (fun dg =>
        ((getIdField dg.1).getD dg.2,
          jsMerge [("id", Value.str ((getIdField dg.1).getD dg.2))] dg.1)),
        isCtrKey p.1 = false := by
      intro p hp
      obtain ⟨dg, hdg, hpd⟩ := List.mem_map.mp hp
      rw [← hpd]
      exact hall dg hdg
    have h2 := ctrPos_addAll
      ((docs.zip gids).map (fun dg =>
        ((getIdField dg.1).getD dg.2,
          jsMerge [("id", Value.str ((getIdField dg.1).getD dg.2))] dg.1)))
      _ (ctrPos_putAll _ hps s hs)
    refine ctrPos_sput_goodCtr _ _ _ h2 ?_
    have hr := readCtr_nonneg _ h2 totalCtrKey isCtrKey_totalCtrKey
    have hlen : 1 ≤ docs.length := by
      cases docs with
      | nil => exact absurd rfl hne
      | cons d ds => simp
    exact exists_natToDec_form _ _ hr hlen

/-- C10 (amended): in every state reachable by the public operations with
ids that do not begin with `counts`, every `counts…`-prefixed key holds
the decimal numeral of an integer `≥ 1`: increments write at least 1,
decrements delete at zero instead of storing 0 or negatives, and
`batchInsert` writes `oldTotal + batchSize ≥ 1`. -/
theorem c10_counter_positivity (s : Store) (h : ReachableB s) :
    CounterPositivity s := by
  induction h with
  | empty => intro k v _ hv; exact absurd hv (by simp [sget])
  | insert s d g _ hdid hg ih => exact ctrPos_insertOp s d g ih hdid hg
  | replace s id nd _ hid ih => exact ctrPos_replaceOp s id nd ih hid
  | patch s id nd _ hid ih => exact ctrPos_patchOp s id nd ih hid
  | remove s id _ ih => exact ctrPos_removeOp s id ih
  | upsert s id d _ hid ih => exact ctrPos_upsertOp s id d ih hid
  | batch s docs gids _ hall ih => exact ctrPos_batchInsertOp s docs gids ih hall

/-- Witness for C10 at a concrete reachable state. -/
theorem c10_counter_positivity_witness :
    CounterPositivity (insertOp [] [("id", Value.str "a"), ("k", Value.num 1)] "g").2 :=
  c10_counter_positivity _
    (ReachableB.insert [] [("id", Value.str "a"), ("k", Value.num 1)] "g"
      ReachableB.empty (fun t ht => by
        have : t = "a" := by
          have h2 : getIdField [("id", Value.str "a"), ("k", Value.num 1)] = some "a" := rfl
          rw [h2] at ht
          injection ht with h3
          exact h3.symm
        rw [this]
        decide) (by decide))

/-! ## Safety of derived entry pairs and merged documents -/

theorem bool_and3 (a b c : Bool) (h : (a && b && c) = true) :
    a = true ∧ b = true ∧ c = true := by
  simp only [Bool.and_eq_true] at h
  exact ⟨h.1.1, h.1.2, h.2⟩

mutual

theorem safe_entryPairsDoc (pre : String) (d : List (String × Value))
    (hp : safeStr pre = true) (hd : safeFields d = true) :
    ∀ pv ∈ entryPairsDoc pre d, safeStr pv.1 = true ∧ safeStr pv.2 = true := by
  cases d with
  | nil => intro pv hpv; exact absurd hpv (by simp [entryPairsDoc])
  | cons f rest =>
    obtain ⟨k, v⟩ := f
    intro pv hpv
    rw [safeFields] at hd
    obtain ⟨hk, hv, hrest⟩ := bool_and3 _ _ _ hd
    rw [entryPairsDoc] at hpv
    rcases List.mem_append.mp hpv with h | h
    · exact safe_entryPairsField pre k v hp hk hv pv h
    · exact safe_entryPairsDoc pre rest hp hrest pv h

theorem safe_entryPairsField (pre k : String) (v : Value)
    (hp : safeStr pre = true) (hk : safeStr k = true) (hv : safeVal v = true) :
    ∀ pv ∈ entryPairsField pre k v, safeStr pv.1 = true ∧ safeStr pv.2 = true := by
  have hpk : safeStr (pre ++ "." ++ k) = true := by
    rw [safeStr_append, safeStr_append]
    rw [hp, hk]
    decide
  cases v with
  | str t =>
    intro pv hpv
    rw [entryPairsField, List.mem_singleton] at hpv
    subst hpv
    exact ⟨hpk, hv⟩
  | num n =>
    intro pv hpv
    rw [entryPairsField, List.mem_singleton] at hpv
    subst hpv
    exact ⟨hpk, safeStr_intToDec n⟩
  | bool b =>
    intro pv hpv
    rw [entryPairsField, List.mem_singleton] at hpv
    subst hpv
    refine ⟨hpk, ?_⟩
    cases b
    · exact (by decide : safeStr "false" = true)
    · exact (by decide : safeStr "true" = true)
  | arr xs =>
    intro pv hpv
    rw [entryPairsField] at hpv
    exact safe_arrPairs pre k xs hp hk hv pv hpv
  | obj fs =>
    intro pv hpv
    rw [entryPairsField] at hpv
    rcases List.mem_append.mp hpv with h | h
    · exact safe_entryPairsDoc (pre ++ "." ++ k) fs hpk hv pv h
    · exact safe_aliasPairs pre k fs hp hk hv pv h

theorem safe_aliasPairs (pre k : String) (fs : List (String × Value))
    (hp : safeStr pre = true) (hk : safeStr k = true) (hf : safeFields fs = true) :
    ∀ pv ∈ aliasPairs pre k fs, safeStr pv.1 = true ∧ safeStr pv.2 = true := by
  cases fs with
  | nil => intro pv hpv; exact absurd hpv (List.not_mem_nil pv)
  | cons f rest =>
    obtain ⟨nk, nv⟩ := f
    intro pv hpv
    rw [safeFields] at hf
    obtain ⟨hnk, hnv, hrest⟩ := bool_and3 _ _ _ hf
    have hfst : safeStr (pre ++ "." ++ (k ++ "." ++ nk)) = true := by
      rw [safeStr_append, safeStr_append, safeStr_append, safeStr_append]
      rw [hp, hk, hnk]
      decide
    cases nv with
    | obj fs2 =>
      exact safe_aliasPairs pre k rest hp hk hrest pv hpv
    | str t =>
      rcases List.mem_cons.mp hpv with h | h
      · subst h
        exact ⟨hfst, safe_valueToString _ hnv⟩
      · exact safe_aliasPairs pre k rest hp hk hrest pv h
    | num n =>
      rcases List.mem_cons.mp hpv with h | h
      · subst h
        exact ⟨hfst, safe_valueToString _ hnv⟩
      · exact safe_aliasPairs pre k rest hp hk hrest pv h
    | bool b =>
      rcases List.mem_cons.mp hpv with h | h
      · subst h
        exact ⟨hfst, safe_valueToString _ hnv⟩
      · exact safe_aliasPairs pre k rest hp hk hrest pv h
    | arr xs =>
      rcases List.mem_cons.mp hpv with h | h
      · subst h
        exact ⟨hfst, safe_valueToString _ hnv⟩
      · exact safe_aliasPairs pre k rest hp hk hrest pv h

theorem safe_arrPairs (pre k : String) (xs : List Value)
    (hp : safeStr pre = true) (hk : safeStr k = true) (hx : safeList xs = true) :
    ∀ pv ∈ arrPairs pre k xs, safeStr pv.1 = true ∧ safeStr pv.2 = true := by
  cases xs with
  | nil => intro pv hpv; exact absurd hpv (by simp [arrPairs])
  | cons x rest =>
    intro pv hpv
    rw [safeList] at hx
    rw [Bool.and_eq_true] at hx
    rw [arrPairs, List.mem_cons] at hpv
    rcases hpv with h | h
    · subst h
      constructor
      · rw [safeStr_append, safeStr_append]
        rw [hp, hk]
        decide
      · exact safe_valueToString x hx.1
    · exact safe_arrPairs pre k rest hp hk hx.2 pv h

end

theorem safeVal_lookupDoc (d : Doc) (k : String) (v : Value)
    (hd : safeFields d = true) (h : lookupDoc d k = some v) : safeVal v = true := by
  induction d with
  | nil => exact absurd h (by simp [lookupDoc])
  | cons f rest ih =>
    obtain ⟨k₀, v₀⟩ := f
    rw [safeFields] at hd
    obtain ⟨-, hv0, hrest⟩ := bool_and3 _ _ _ hd
    rw [lookupDoc_cons] at h
    by_cases hk : k₀ = k
    · rw [if_pos hk] at h
      injection h with h2
      rw [← h2]
      exact hv0
    · rw [if_neg hk] at h
      exact ih hrest h

theorem safeFields_filter (d : Doc) (p : String × Value → Bool)
    (hd : safeFields d = true) : safeFields (d.filter p) = true := by
  induction d with
  | nil => exact hd
  | cons f rest ih =>
    obtain ⟨k₀, v₀⟩ := f
    rw [safeFields] at hd
    obtain ⟨hk, hv, hrest⟩ := bool_and3 _ _ _ hd
    rw [List.filter_cons]
    split
    · rw [safeFields, hk, hv, ih hrest]
      rfl
    · exact ih hrest

theorem safeFields_jsMerge (a : Doc) :
    ∀ b : Doc, safeFields a = true → safeFields b = true →
      safeFields (jsMerge a b) = true := by
  induction a with
  | nil => intro b _ hb; exact hb
  | cons f rest ih =>
    obtain ⟨k, v⟩ := f
    intro b ha hb
    rw [safeFields] at ha
    obtain ⟨hk, hv, hrest⟩ := bool_and3 _ _ _ ha
    rw [jsMerge, safeFields]
    have hval : safeVal ((lookupDoc b k).getD v) = true := by
      cases hl : lookupDoc b k with
      | none => exact hv
      | some w => exact safeVal_lookupDoc b k w hb hl
    rw [hk, hval, ih _ hrest (safeFields_filter b _ hb)]
    rfl

/-- The derived pairs of a safe document are safe. -/
theorem safeDoc_pairs (d : Doc) (hd : safeDoc d = true) :
    ∀ pv ∈ entryPairsDoc "" d, safeStr pv.1 = true ∧ safeStr pv.2 = true :=
  safe_entryPairsDoc "" d (by decide) hd

theorem sdel_sublist (s : Store) (k : String) : List.Sublist (sdel s k) s := by
  induction s with
  | nil => exact List.Sublist.refl _
  | cons hd tl ih =>
    obtain ⟨k₀, v₀⟩ := hd
    rw [sdel]
    by_cases h : k₀ = k
    · rw [if_pos h]
      exact List.Sublist.cons _ ih
    · rw [if_neg h]
      exact List.Sublist.cons₂ _ ih

theorem mem_skeys_sdel (s : Store) (k x : String) :
    x ∈ skeys (sdel s k) ↔ x ∈ skeys s ∧ x ≠ k := by
  induction s with
  | nil => simp [sdel, skeys]
  | cons hd tl ih =>
    obtain ⟨k₀, v₀⟩ := hd
    rw [sdel]
    by_cases h : k₀ = k
    · rw [if_pos h, ih]
      subst h
      constructor
      · rintro ⟨hm, hne⟩
        exact ⟨by simp [skeys]; right; simpa [skeys] using hm, hne⟩
      · rintro ⟨hm, hne⟩
        refine ⟨?_, hne⟩
        simp only [skeys, List.map_cons, List.mem_cons] at hm
        rcases hm with h0 | h0
        · exact absurd h0 hne
        · simpa [skeys] using h0
    · rw [if_neg h]
      simp only [skeys, List.map_cons, List.mem_cons]
      rw [show (List.map (fun x => x.1) (sdel tl k)) = skeys (sdel tl k) from rfl, ih]
      constructor
      · rintro (h0 | ⟨hm, hne⟩)
        · subst h0
          exact ⟨Or.inl rfl, fun hx => h (hx ▸ rfl)⟩
        · exact ⟨Or.inr (by simpa [skeys] using hm), hne⟩
      · rintro ⟨h0 | h0, hne⟩
        · exact Or.inl h0
        · exact Or.inr ⟨by simpa [skeys] using h0, hne⟩

theorem nodup_sdel (s : Store) (k : String) (h : (skeys s).Nodup) :
    (skeys (sdel s k)).Nodup :=
  List.Nodup.sublist (List.Sublist.map _ (sdel_sublist s k)) h

theorem nodup_sput (s : Store) (k : String) (v : StoreVal) (h : (skeys s).Nodup) :
    (skeys (sput s k v)).Nodup := by
  show (k :: skeys (sdel s k)).Nodup
  refine List.Nodup.cons ?_ (nodup_sdel s k h)
  intro hm
  exact ((mem_skeys_sdel s k k).mp hm).2 rfl

theorem nodup_incrCtr (s : Store) (pv : String × String) (h : (skeys s).Nodup) :
    (skeys (incrCtr s pv)).Nodup := nodup_sput _ _ _ h

theorem nodup_decrCtr (s : Store) (pv : String × String) (h : (skeys s).Nodup) :
    (skeys (decrCtr s pv)).Nodup := by
  unfold decrCtr
  split
  · exact nodup_sdel _ _ h
  · split
    · split
      · exact nodup_sput _ _ _ h
      · exact nodup_sdel _ _ h
    · exact nodup_sdel _ _ h

theorem nodup_addList (id : String) (pvs : List (String × String)) :
    ∀ s : Store, (skeys s).Nodup →
      (skeys (pvs.foldl (fun st pv => incrCtr (sput st (ixKeyS pv id) (.raw id)) pv) s)).Nodup := by
  induction pvs with
  | nil => exact fun s h => h
  | cons pv rest ih =>
    intro s h
    exact ih _ (nodup_incrCtr _ _ (nodup_sput _ _ _ h))

theorem nodup_removeList (id : String) (pvs : List (String × String)) :
    ∀ s : Store, (skeys s).Nodup →
      (skeys (pvs.foldl (fun st pv => decrCtr (sdel st (ixKeyS pv id)) pv) s)).Nodup := by
  induction pvs with
  | nil => exact fun s h => h
  | cons pv rest ih =>
    intro s h
    exact ih _ (nodup_decrCtr _ _ (nodup_sdel _ _ h))

theorem sumAgg_sdel (s : Store) (k : String) (F : StoreVal → Nat)
    (hnd : (skeys s).Nodup) :
    sumAgg (sdel s k) F + oldF s k F = sumAgg s F := by
  induction s with
  | nil => rfl
  | cons hd tl ih =>
    obtain ⟨k₀, v₀⟩ := hd
    rw [show skeys ((k₀, v₀) :: tl) = k₀ :: skeys tl from rfl, List.nodup_cons] at hnd
    obtain ⟨hk0, hnd'⟩ := hnd
    by_cases h : k₀ = k
    · subst h
      rw [sdel, if_pos rfl]
      have hdel : sdel tl k₀ = tl := by
        have : ∀ u : Store, k₀ ∉ skeys u → sdel u k₀ = u := by
          intro u
          induction u with
          | nil => intro _; rfl
          | cons hd2 tl2 ih2 =>
            obtain ⟨k₂, v₂⟩ := hd2
            intro hm
            rw [sdel]
            simp only [skeys, List.map_cons, List.mem_cons] at hm
            rw [if_neg (fun hx => hm (Or.inl hx.symm)), ih2 (fun hx => hm (Or.inr (by simpa [skeys] using hx)))]
        exact this tl hk0
      rw [hdel]
      show sumAgg tl F + oldF ((k₀, v₀) :: tl) k₀ F = F v₀ + sumAgg tl F
      rw [show oldF ((k₀, v₀) :: tl) k₀ F = F v₀ from by unfold oldF; rw [show sget ((k₀, v₀) :: tl) k₀ = some v₀ from by rw [sget, if_pos rfl]]]
      omega
    · rw [sdel, if_neg h]
      show (F v₀ + sumAgg (sdel tl k) F) + oldF ((k₀, v₀) :: tl) k F = F v₀ + sumAgg tl F
      rw [show oldF ((k₀, v₀) :: tl) k F = oldF tl k F from by unfold oldF; rw [show sget ((k₀, v₀) :: tl) k = sget tl k from by rw [sget, if_neg h]]]
      have := ih hnd'
      omega

theorem sumAgg_sput (s : Store) (k : String) (v : StoreVal) (F : StoreVal → Nat)
    (hnd : (skeys s).Nodup) :
    sumAgg (sput s k v) F + oldF s k F = sumAgg s F + F v := by
  show (F v + sumAgg (sdel s k) F) + oldF s k F = sumAgg s F + F v
  have := sumAgg_sdel s k F hnd
  omega

theorem sumAgg_ge (s : Store) (k : String) (v : StoreVal) (F : StoreVal → Nat)
    (h : sget s k = some v) : F v ≤ sumAgg s F := by
  have hm : (k, v) ∈ s := sget_mem s k v h
  exact List.single_le_sum (fun x _ => Nat.zero_le x) _
    (List.mem_map.mpr ⟨(k, v), hm, rfl⟩)

theorem oldF_raw_zero (s : Store) (k : String) (F : StoreVal → Nat)
    (hF : ∀ r, F (.raw r) = 0) (h : ∀ d, sget s k ≠ some (.doc d)) :
    oldF s k F = 0 := by
  unfold oldF
  cases hv : sget s k with
  | none => rfl
  | some w =>
    cases w with
    | raw r => exact hF r
    | doc d => exact absurd hv (h d)

theorem safeId_not_ctr_ix (k : String) (h : safeId k = true) :
    isCtrKey k = false ∧ isIxKey k = false :=
  ⟨(safeId_parts k h).2.2.1, (safeId_parts k h).2.2.2⟩

theorem noDoc_of_safe (s : Store) (hs : SafeDocKeys s) (k : String)
    (hk : isCtrKey k = true ∨ isIxKey k = true) :
    ∀ d, sget s k ≠ some (.doc d) := by
  intro d hd
  have hsafe := hs k d hd
  have := safeId_not_ctr_ix k hsafe
  rcases hk with h | h
  · rw [this.1] at h
    exact Bool.false_ne_true h
  · rw [this.2] at h
    exact Bool.false_ne_true h

theorem safeDocKeys_sput_raw (s : Store) (k : String) (r : String)
    (hs : SafeDocKeys s) : SafeDocKeys (sput s k (.raw r)) := by
  intro k' d hd
  rw [sget_sput] at hd
  by_cases h : k' = k
  · rw [if_pos h] at hd
    exact absurd hd (by simp)
  · rw [if_neg h] at hd
    exact hs k' d hd

theorem safeDocKeys_sdel (s : Store) (k : String) (hs : SafeDocKeys s) :
    SafeDocKeys (sdel s k) := by
  intro k' d hd
  rw [sget_sdel] at hd
  by_cases h : k' = k
  · rw [if_pos h] at hd
    exact absurd hd (by simp)
  · rw [if_neg h] at hd
    exact hs k' d hd

theorem safeDocKeys_incrCtr (s : Store) (pv : String × String) (hs : SafeDocKeys s) :
    SafeDocKeys (incrCtr s pv) := safeDocKeys_sput_raw _ _ _ hs

theorem safeDocKeys_decrCtr (s : Store) (pv : String × String) (hs : SafeDocKeys s) :
    SafeDocKeys (decrCtr s pv) := by
  unfold decrCtr
  split
  · exact safeDocKeys_sdel _ _ hs
  · split
    · split
      · exact safeDocKeys_sput_raw _ _ _ hs
      · exact safeDocKeys_sdel _ _ hs
    · exact safeDocKeys_sdel _ _ hs

theorem sumAgg_incrCtr (s : Store) (pv : String × String) (F : StoreVal → Nat)
    (hF : ∀ r, F (.raw r) = 0) (hnd : (skeys s).Nodup) (hs : SafeDocKeys s) :
    sumAgg (incrCtr s pv) F = sumAgg s F := by
  have h1 := sumAgg_sput s (ctrKeyS pv) (.raw (intToDec (readCtr s (ctrKeyS pv) + 1))) F hnd
  have h2 : oldF s (ctrKeyS pv) F = 0 :=
    oldF_raw_zero s _ F hF (noDoc_of_safe s hs _ (Or.inl (isCtrKey_ctrKeyS pv)))
  have h3 := hF (intToDec (readCtr s (ctrKeyS pv) + 1))
  show sumAgg (sput s (ctrKeyS pv) (.raw (intToDec (readCtr s (ctrKeyS pv) + 1)))) F = sumAgg s F
  omega

theorem sumAgg_sput_raw_gen (s : Store) (k r : String) (F : StoreVal → Nat)
    (hF : ∀ r, F (.raw r) = 0) (hnd : (skeys s).Nodup) (h2 : oldF s k F = 0) :
    sumAgg (sput s k (.raw r)) F = sumAgg s F := by
  have h1 := sumAgg_sput s k (.raw r) F hnd
  have h3 := hF r
  omega

theorem sumAgg_decrCtr (s : Store) (pv : String × String) (F : StoreVal → Nat)
    (hF : ∀ r, F (.raw r) = 0) (hnd : (skeys s).Nodup) (hs : SafeDocKeys s) :
    sumAgg (decrCtr s pv) F = sumAgg s F := by
  have h2 : oldF s (ctrKeyS pv) F = 0 :=
    oldF_raw_zero s _ F hF (noDoc_of_safe s hs _ (Or.inl (isCtrKey_ctrKeyS pv)))
  have hdel : sumAgg (sdel s (ctrKeyS pv)) F = sumAgg s F := by
    have := sumAgg_sdel s (ctrKeyS pv) F hnd
    omega
  unfold decrCtr
  split
  · exact hdel
  · split
    · split
      · exact sumAgg_sput_raw_gen s _ _ F hF hnd h2
      · exact hdel
    · exact hdel

theorem sumAgg_sput_ixRaw (s : Store) (pv : String × String) (id : String)
    (F : StoreVal → Nat) (hF : ∀ r, F (.raw r) = 0) (hnd : (skeys s).Nodup)
    (hs : SafeDocKeys s) :
    sumAgg (sput s (ixKeyS pv id) (.raw id)) F = sumAgg s F := by
  have h1 := sumAgg_sput s (ixKeyS pv id) (.raw id) F hnd
  have h2 : oldF s (ixKeyS pv id) F = 0 :=
    oldF_raw_zero s _ F hF (noDoc_of_safe s hs _ (Or.inr (isIxKey_ixKeyS pv id)))
  have h3 := hF id
  omega

theorem sumAgg_addList (id : String) (pvs : List (String × String)) (F : StoreVal → Nat)
    (hF : ∀ r, F (.raw r) = 0) :
    ∀ s : Store, (skeys s).Nodup → SafeDocKeys s →
      sumAgg (pvs.foldl (fun st pv => incrCtr (sput st (ixKeyS pv id) (.raw id)) pv) s) F =
        sumAgg s F := by
  induction pvs with
  | nil => exact fun s _ _ => rfl
  | cons pv rest ih =>
    intro s hnd hs
    have hnd1 := nodup_sput s (ixKeyS pv id) (.raw id) hnd
    have hs1 := safeDocKeys_sput_raw s (ixKeyS pv id) id hs
    have hnd2 := nodup_incrCtr _ pv hnd1
    have hs2 := safeDocKeys_incrCtr _ pv hs1
    rw [List.foldl_cons, ih _ hnd2 hs2, sumAgg_incrCtr _ pv F hF hnd1 hs1,
      sumAgg_sput_ixRaw s pv id F hF hnd hs]

theorem sumAgg_sdel_ix (s : Store) (pv : String × String) (id : String)
    (F : StoreVal → Nat) (hF : ∀ r, F (.raw r) = 0) (hnd : (skeys s).Nodup)
    (hs : SafeDocKeys s) :
    sumAgg (sdel s (ixKeyS pv id)) F = sumAgg s F := by
  have h1 := sumAgg_sdel s (ixKeyS pv id) F hnd
  have h2 : oldF s (ixKeyS pv id) F = 0 :=
    oldF_raw_zero s _ F hF (noDoc_of_safe s hs _ (Or.inr (isIxKey_ixKeyS pv id)))
  omega

theorem sumAgg_removeList (id : String) (pvs : List (String × String)) (F : StoreVal → Nat)
    (hF : ∀ r, F (.raw r) = 0) :
    ∀ s : Store, (skeys s).Nodup → SafeDocKeys s →
      sumAgg (pvs.foldl (fun st pv => decrCtr (sdel st (ixKeyS pv id)) pv) s) F =
        sumAgg s F := by
  induction pvs with
  | nil => exact fun s _ _ => rfl
  | cons pv rest ih =>
    intro s hnd hs
    have hnd1 := nodup_sdel s (ixKeyS pv id) hnd
    have hs1 := safeDocKeys_sdel s (ixKeyS pv id) hs
    have hnd2 := nodup_decrCtr _ pv hnd1
    have hs2 := safeDocKeys_decrCtr _ pv hs1
    rw [List.foldl_cons, ih _ hnd2 hs2, sumAgg_decrCtr _ pv F hF hnd1 hs1,
      sumAgg_sdel_ix s pv id F hF hnd hs]

/-! ## Counter accounting: the numeric side -/

theorem readCtr_sput_ne (s : Store) (k : String) (v : StoreVal) (ck : String)
    (h : ck ≠ k) : readCtr (sput s k v) ck = readCtr s ck := by
  unfold readCtr
  rw [sget_sput, if_neg h]

theorem readCtr_sdel_ne (s : Store) (k ck : String) (h : ck ≠ k) :
    readCtr (sdel s k) ck = readCtr s ck := by
  unfold readCtr
  rw [sget_sdel, if_neg h]

theorem ctrKey_ne_ixKey (ck : String) (hck : isCtrKey ck = true)
    (pv : String × String) (id : String) : ck ≠ ixKeyS pv id := by
  intro h
  rw [h] at hck
  rw [isCtrKey_ixKeyS] at hck
  exact Bool.false_ne_true hck

theorem ctrNat_incrCtr (s : Store) (pv : String × String) (ck : String)
    (hpos : CounterPositivity s) (hck : isCtrKey ck = true) :
    ctrNat (incrCtr s pv) ck = ctrNat s ck + (if ctrKeyS pv = ck then 1 else 0) := by
  by_cases h : ctrKeyS pv = ck
  · rw [if_pos h]
    subst h
    have hr := readCtr_nonneg s hpos (ctrKeyS pv) (isCtrKey_ctrKeyS pv)
    unfold ctrNat
    have : readCtr (incrCtr s pv) (ctrKeyS pv) = readCtr s (ctrKeyS pv) + 1 := by
      show readCtr (sput s (ctrKeyS pv) _) (ctrKeyS pv) = _
      unfold readCtr
      rw [sget_sput, if_pos rfl]
      simp only [storeValStr, jsNumber_intToDec]
    rw [this]
    omega
  · rw [if_neg h]
    unfold ctrNat incrCtr
    rw [readCtr_sput_ne s _ _ ck (fun hx => h hx.symm)]
    omega

theorem ctrNat_decrCtr (s : Store) (pv : String × String) (ck : String)
    (hpos : CounterPositivity s) (hck : isCtrKey ck = true) :
    ctrNat (decrCtr s pv) ck = ctrNat s ck - (if ctrKeyS pv = ck then 1 else 0) := by
  by_cases h : ctrKeyS pv = ck
  · rw [if_pos h]
    subst h
    unfold decrCtr
    cases hv : sget s (ctrKeyS pv) with
    | none =>
      have h0 : ctrNat s (ctrKeyS pv) = 0 := by
        unfold ctrNat readCtr
        rw [hv]
        rfl
      have h1 : ctrNat (sdel s (ctrKeyS pv)) (ctrKeyS pv) = 0 := by
        unfold ctrNat readCtr
        rw [sget_sdel, if_pos rfl]
        rfl
      rw [h1, h0]
    | some v =>
      obtain ⟨n, hn1, hnv⟩ := hpos (ctrKeyS pv) v (isCtrKey_ctrKeyS pv) hv
      subst hnv
      have hcur : ctrNat s (ctrKeyS pv) = n := by
        unfold ctrNat readCtr
        rw [hv]
        simp only [storeValStr, jsNumber_natToDec]
        exact Int.toNat_natCast n
      simp only [storeValStr, jsNumber_natToDec]
      by_cases h2 : (n : Int) - 1 > 0
      · rw [if_pos h2]
        have hstep : ctrNat (sput s (ctrKeyS pv) (.raw (intToDec ((n : Int) - 1))))
            (ctrKeyS pv) = ((n : Int) - 1).toNat := by
          unfold ctrNat readCtr
          rw [sget_sput, if_pos rfl]
          simp only [storeValStr, jsNumber_intToDec]
        rw [hstep, hcur]
        omega
      · rw [if_neg h2]
        have h1 : ctrNat (sdel s (ctrKeyS pv)) (ctrKeyS pv) = 0 := by
          unfold ctrNat readCtr
          rw [sget_sdel, if_pos rfl]
          rfl
        rw [h1, hcur]
        omega
  · rw [if_neg h]
    have hne : ck ≠ ctrKeyS pv := fun hx => h hx.symm
    unfold ctrNat decrCtr
    split
    · rw [readCtr_sdel_ne s _ ck hne]
      omega
    · split
      · split
        · rw [readCtr_sput_ne s _ _ ck hne]
          omega
        · rw [readCtr_sdel_ne s _ ck hne]
          omega
      · rw [readCtr_sdel_ne s _ ck hne]
        omega

theorem ctrNat_addList (id : String) (pvs : List (String × String)) (ck : String)
    (hck : isCtrKey ck = true) :
    ∀ s : Store, CounterPositivity s →
      ctrNat (pvs.foldl (fun st pv => incrCtr (sput st (ixKeyS pv id) (.raw id)) pv) s) ck =
        ctrNat s ck + pvs.countP (fun pv => decide (ctrKeyS pv = ck)) := by
  induction pvs with
  | nil => intro s _; rfl
  | cons pv rest ih =>
    intro s hpos
    have hpos1 := ctrPos_sput_notCtr s (ixKeyS pv id) (.raw id) hpos (isCtrKey_ixKeyS pv id)
    have hpos2 := ctrPos_incrCtr _ pv hpos1
    rw [List.foldl_cons, ih _ hpos2,
      ctrNat_incrCtr _ pv ck hpos1 hck,
      show ctrNat (sput s (ixKeyS pv id) (.raw id)) ck = ctrNat s ck from by
        unfold ctrNat
        rw [readCtr_sput_ne s _ _ ck (ctrKey_ne_ixKey ck hck pv id)],
      List.countP_cons]
    by_cases h : ctrKeyS pv = ck
    · simp [h]
      omega
    · simp [h]

theorem ctrNat_removeList (id : String) (pvs : List (String × String)) (ck : String)
    (hck : isCtrKey ck = true) :
    ∀ s : Store, CounterPositivity s →
      ctrNat (pvs.foldl (fun st pv => decrCtr (sdel st (ixKeyS pv id)) pv) s) ck =
        ctrNat s ck - pvs.countP (fun pv => decide (ctrKeyS pv = ck)) := by
  induction pvs with
  | nil => intro s _; rfl
  | cons pv rest ih =>
    intro s hpos
    have hpos1 := ctrPos_sdel s (ixKeyS pv id) hpos
    have hpos2 := ctrPos_decrCtr _ pv hpos1
    rw [List.foldl_cons, ih _ hpos2,
      ctrNat_decrCtr _ pv ck hpos1 hck,
      show ctrNat (sdel s (ixKeyS pv id)) ck = ctrNat s ck from by
        unfold ctrNat
        rw [readCtr_sdel_ne s _ ck (ctrKey_ne_ixKey ck hck pv id)],
      List.countP_cons]
    by_cases h : ctrKeyS pv = ck
    · simp [h]
      omega
    · simp [h]

/-! ## Tracking document bindings through the index folds -/

theorem oldF_none (s : Store) (k : String) (F : StoreVal → Nat)
    (h : sget s k = none) : oldF s k F = 0 := by
  unfold oldF
  rw [h]

theorem oldF_doc (s : Store) (k : String) (F : StoreVal → Nat) (d : Doc)
    (h : sget s k = some (.doc d)) : oldF s k F = F (.doc d) := by
  unfold oldF
  rw [h]

theorem isIxKey_of_mem_ixKeys (k id : String) (d : Doc) (h : k ∈ ixKeys id d) :
    isIxKey k = true := by
  obtain ⟨pv, -, hpv⟩ := List.mem_map.mp h
  rw [← hpv]
  exact isIxKey_ixKeyS pv id

theorem ixKeys_id_unique (k id₁ id₂ : String) (d₁ d₂ : Doc)
    (h1 : safeStr id₁ = true) (h2 : safeStr id₂ = true)
    (hk1 : k ∈ ixKeys id₁ d₁) (hk2 : k ∈ ixKeys id₂ d₂) : id₁ = id₂ := by
  obtain ⟨pv₁, -, hpv₁⟩ := List.mem_map.mp hk1
  obtain ⟨pv₂, -, hpv₂⟩ := List.mem_map.mp hk2
  exact ixKeyS_id_inj pv₁ pv₂ id₁ id₂ h1 h2 (hpv₁.trans hpv₂.symm)

theorem sget_back_sdel (s : Store) (k k' : String) (v : StoreVal)
    (h : sget (sdel s k) k' = some v) : sget s k' = some v := by
  rw [sget_sdel] at h
  by_cases hx : k' = k
  · rw [if_pos hx] at h
    exact absurd h (by simp)
  · rwa [if_neg hx] at h

theorem doc_back_sput_raw (s : Store) (k r k' : String) (d : Doc)
    (h : sget (sput s k (.raw r)) k' = some (.doc d)) : sget s k' = some (.doc d) := by
  rw [sget_sput] at h
  by_cases hx : k' = k
  · rw [if_pos hx] at h
    exact absurd h (by simp)
  · rwa [if_neg hx] at h

theorem doc_back_incrCtr (s : Store) (pv : String × String) (k' : String) (d : Doc)
    (h : sget (incrCtr s pv) k' = some (.doc d)) : sget s k' = some (.doc d) :=
  doc_back_sput_raw s _ _ k' d h

theorem doc_back_decrCtr (s : Store) (pv : String × String) (k' : String) (d : Doc)
    (h : sget (decrCtr s pv) k' = some (.doc d)) : sget s k' = some (.doc d) := by
  unfold decrCtr at h
  revert h
  split
  · exact fun h => sget_back_sdel s _ k' _ h
  · split
    · split
      · exact fun h => doc_back_sput_raw s _ _ k' d h
      · exact fun h => sget_back_sdel s _ k' _ h
    · exact fun h => sget_back_sdel s _ k' _ h

theorem doc_back_addList (id : String) (pvs : List (String × String)) (k' : String)
    (d : Doc) :
    ∀ s : Store,
      sget (pvs.foldl (fun st pv => incrCtr (sput st (ixKeyS pv id) (.raw id)) pv) s) k' =
          some (.doc d) →
        sget s k' = some (.doc d) := by
  induction pvs with
  | nil => exact fun s h => h
  | cons pv rest ih =>
    intro s h
    exact doc_back_sput_raw s _ _ k' d (doc_back_incrCtr _ pv k' d (ih _ h))

theorem doc_back_removeList (id : String) (pvs : List (String × String)) (k' : String)
    (d : Doc) :
    ∀ s : Store,
      sget (pvs.foldl (fun st pv => decrCtr (sdel st (ixKeyS pv id)) pv) s) k' =
          some (.doc d) →
        sget s k' = some (.doc d) := by
  induction pvs with
  | nil => exact fun s h => h
  | cons pv rest ih =>
    intro s h
    exact sget_back_sdel s _ k' _ (doc_back_decrCtr _ pv k' d (ih _ h))

theorem sget_safe_addToIndexes (s : Store) (id : String) (p : Doc) (k : String)
    (hk : safeId k = true) : sget (addToIndexes s id p) k = sget s k := by
  rw [sget_addToIndexes s id p k (safeId_not_ctr_ix k hk).1,
    if_neg (safeStr_not_mem_ixKeys k (safeId_parts k hk).2.1 id p)]

theorem sget_safe_removeIx (s : Store) (id : String) (old : Doc) (k : String)
    (hk : safeId k = true) : sget (removeIndexesForDocument s id old) k = sget s k := by
  rw [sget_removeIx s id old k (safeId_not_ctr_ix k hk).1,
    if_neg (safeStr_not_mem_ixKeys k (safeId_parts k hk).2.1 id old)]

theorem sget_safe_incrCtr (s : Store) (pv : String × String) (k : String)
    (hk : safeId k = true) : sget (incrCtr s pv) k = sget s k := by
  refine sget_incrCtr_ne s pv k (fun h => ?_)
  have := (safeId_not_ctr_ix k hk).1
  rw [h, isCtrKey_ctrKeyS] at this
  exact absurd this (by decide)

theorem sget_safe_decrCtr (s : Store) (pv : String × String) (k : String)
    (hk : safeId k = true) : sget (decrCtr s pv) k = sget s k := by
  refine sget_decrCtr_ne s pv k (fun h => ?_)
  have := (safeId_not_ctr_ix k hk).1
  rw [h, isCtrKey_ctrKeyS] at this
  exact absurd this (by decide)

theorem safeDocKeys_sput_doc (s : Store) (id : String) (p : Doc)
    (hid : safeId id = true) (hs : SafeDocKeys s) :
    SafeDocKeys (sput s id (.doc p)) := by
  intro k' d hd
  rw [sget_sput] at hd
  by_cases h : k' = id
  · rw [h]
    exact hid
  · rw [if_neg h] at hd
    exact hs k' d hd

theorem safeDocKeys_addList (id : String) (pvs : List (String × String)) :
    ∀ s : Store, SafeDocKeys s →
      SafeDocKeys (pvs.foldl (fun st pv => incrCtr (sput st (ixKeyS pv id) (.raw id)) pv) s) := by
  induction pvs with
  | nil => exact fun s hs => hs
  | cons pv rest ih =>
    intro s hs
    exact ih _ (safeDocKeys_incrCtr _ pv (safeDocKeys_sput_raw s _ id hs))

theorem safeDocKeys_removeList (id : String) (pvs : List (String × String)) :
    ∀ s : Store, SafeDocKeys s →
      SafeDocKeys (pvs.foldl (fun st pv => decrCtr (sdel st (ixKeyS pv id)) pv) s) := by
  induction pvs with
  | nil => exact fun s hs => hs
  | cons pv rest ih =>
    intro s hs
    exact ih _ (safeDocKeys_decrCtr _ pv (safeDocKeys_sdel s _ hs))

theorem GoodState.sdk {s : Store} (G : GoodState s) : SafeDocKeys s :=
  fun k d hd => (G.docs k d hd).1

theorem readOp_some (s : Store) (id : String) (d : Doc)
    (h : readOp s id = some d) : sget s id = some (.doc d) := by
  unfold readOp at h
  cases hx : sget s id with
  | none =>
    rw [hx] at h
    exact absurd h (by simp)
  | some v =>
    cases v with
    | raw r =>
      rw [hx] at h
      exact absurd h (by simp)
    | doc d2 =>
      rw [hx] at h
      injection h with h2
      rw [h2]

theorem readOp_doc (s : Store) (id : String) (d : Doc)
    (h : sget s id = some (.doc d)) : readOp s id = some d := by
  unfold readOp
  rw [h]

theorem sget_installGo_ix (s : Store) (id : String) (p : Doc) (k : String)
    (hid : safeId id = true) (hk : isIxKey k = true) :
    sget (addToIndexes (sput s id (.doc p)) id p) k =
      if k ∈ ixKeys id p then some (.raw id) else sget s k := by
  have hctr : isCtrKey k = false := by
    by_contra h
    exact not_ix_and_ctr k ⟨hk, by revert h; cases isCtrKey k <;> simp⟩
  rw [sget_addToIndexes _ id p k hctr]
  by_cases hm : k ∈ ixKeys id p
  · rw [if_pos hm, if_pos hm]
  · rw [if_neg hm, if_neg hm, sget_sput]
    have hne : ¬ k = id := by
      intro h
      have := (safeId_not_ctr_ix id hid).2
      rw [← h, hk] at this
      exact absurd this (by decide)
    rw [if_neg hne]

theorem readOp_installGo (s : Store) (id : String) (p : Doc) (id' : String)
    (hid : safeId id = true) (hs : SafeDocKeys s) :
    readOp (addToIndexes (sput s id (.doc p)) id p) id' =
      if id' = id then some p else readOp s id' := by
  by_cases h : id' = id
  · subst h
    rw [if_pos rfl]
    unfold readOp
    rw [sget_safe_addToIndexes _ id' p id' hid, sget_sput, if_pos rfl]
  · rw [if_neg h]
    by_cases hsafe : safeId id' = true
    · unfold readOp
      rw [sget_safe_addToIndexes _ id p id' hsafe, sget_sput, if_neg h]
    · have hafter : SafeDocKeys (addToIndexes (sput s id (.doc p)) id p) :=
        safeDocKeys_addList id _ _ (safeDocKeys_sput_doc s id p hid hs)
      unfold readOp
      cases h1 : sget (addToIndexes (sput s id (.doc p)) id p) id' with
      | none =>
        cases h2 : sget s id' with
        | none => rfl
        | some v =>
          cases v with
          | raw r => rfl
          | doc d => exact absurd (hs id' d h2) hsafe
      | some v =>
        cases v with
        | raw r =>
          cases h2 : sget s id' with
          | none => rfl
          | some w =>
            cases w with
            | raw r2 => rfl
            | doc d => exact absurd (hs id' d h2) hsafe
        | doc d => exact absurd (hafter id' d h1) hsafe

theorem readOp_removeIx (s : Store) (id : String) (old : Doc) (id' : String)
    (hs : SafeDocKeys s) :
    readOp (removeIndexesForDocument s id old) id' = readOp s id' := by
  by_cases hsafe : safeId id' = true
  · unfold readOp
    rw [sget_safe_removeIx s id old id' hsafe]
  · have hafter : SafeDocKeys (removeIndexesForDocument s id old) :=
      safeDocKeys_removeList id _ s hs
    unfold readOp
    cases h1 : sget (removeIndexesForDocument s id old) id' with
    | none =>
      cases h2 : sget s id' with
      | none => rfl
      | some v =>
        cases v with
        | raw r => rfl
        | doc d => exact absurd (hs id' d h2) hsafe
    | some v =>
      cases v with
      | raw r =>
        cases h2 : sget s id' with
        | none => rfl
        | some w =>
          cases w with
          | raw r2 => rfl
          | doc d => exact absurd (hs id' d h2) hsafe
      | doc d => exact absurd (hafter id' d h1) hsafe

theorem countCK_def (d : Doc) (ck : String) :
    countCK d ck = (entryPairsDoc "" d).countP (fun pv => decide (ctrKeyS pv = ck)) := rfl

theorem goodState_updateCore (s : Store) (id : String) (old p : Doc)
    (G : GoodState s) (hold : sget s id = some (.doc old))
    (hp : safeDoc p = true) (hpid : ∃ t, lookupDoc p "id" = some (Value.str t)) :
    GoodState (addToIndexes (sput (removeIndexesForDocument s id old) id (.doc p)) id p) := by
  obtain ⟨hid, hsold, -⟩ := G.docs id old hold
  have hsdk : SafeDocKeys s := G.sdk
  set s1 := removeIndexesForDocument s id old with hs1
  set s2 := sput s1 id (.doc p) with hs2
  set s3 := addToIndexes s2 id p with hs3
  have hnd1 : (skeys s1).Nodup := nodup_removeList id (entryPairsDoc "" old) s G.nd
  have hsdk1 : SafeDocKeys s1 := safeDocKeys_removeList id (entryPairsDoc "" old) s hsdk
  have hnd2 : (skeys s2).Nodup := nodup_sput s1 id _ hnd1
  have hsdk2 : SafeDocKeys s2 := safeDocKeys_sput_doc s1 id p hid hsdk1
  have hnd3 : (skeys s3).Nodup := nodup_addList id (entryPairsDoc "" p) s2 hnd2
  have hsdk3 : SafeDocKeys s3 := safeDocKeys_addList id (entryPairsDoc "" p) s2 hsdk2
  have hpos1 : CounterPositivity s1 := ctrPos_removeList id (entryPairsDoc "" old) s G.pos
  have hpos2 : CounterPositivity s2 :=
    ctrPos_sput_notCtr s1 id _ hpos1 (safeId_not_ctr_ix id hid).1
  have hpos3 : CounterPositivity s3 := ctrPos_addList id (entryPairsDoc "" p) s2 hpos2
  have hold1 : sget s1 id = some (.doc old) := by
    rw [hs1, sget_safe_removeIx s id old id hid]
    exact hold
  have hreadOp : ∀ id', readOp s3 id' = if id' = id then some p else readOp s id' := by
    intro id'
    rw [hs3, hs2, readOp_installGo s1 id p id' hid hsdk1, hs1,
      readOp_removeIx s id old id' hsdk]
  have hchar : ∀ k, isIxKey k = true →
      sget s3 k = if k ∈ ixKeys id p then some (.raw id)
        else if k ∈ ixKeys id old then none else sget s k := by
    intro k hik
    rw [hs3, hs2, sget_installGo_ix s1 id p k hid hik]
    by_cases hm : k ∈ ixKeys id p
    · rw [if_pos hm, if_pos hm]
    · have hctrf : isCtrKey k = false := by
        by_contra h
        exact not_ix_and_ctr k ⟨hik, by revert h; cases isCtrKey k <;> simp⟩
      rw [if_neg hm, if_neg hm, hs1, sget_removeIx s id old k hctrf]
  refine ⟨hnd3, ?_, ?_, ?_, ?_, hpos3⟩
  · -- documents: safely keyed, safely encoded, carrying a string id
    intro k d hd
    have hd2 : sget s2 k = some (.doc d) := doc_back_addList id (entryPairsDoc "" p) k d s2 hd
    rw [hs2, sget_sput] at hd2
    by_cases hk : k = id
    · subst hk
      rw [if_pos rfl] at hd2
      injection hd2 with h1
      injection h1 with h2
      subst h2
      exact ⟨hid, hp, hpid⟩
    · rw [if_neg hk] at hd2
      exact G.docs k d (doc_back_removeList id (entryPairsDoc "" old) k d s hd2)
  · -- raw strings only under index and counter keys
    intro k r hr
    by_cases hix : isIxKey k = true
    · exact Or.inl hix
    by_cases hctr : isCtrKey k = true
    · exact Or.inr hctr
    exfalso
    have hctrf : isCtrKey k = false := by revert hctr; cases isCtrKey k <;> simp
    have h3 : sget s3 k = sget s2 k := by
      rw [hs3, sget_addToIndexes _ id p k hctrf,
        if_neg (fun hm => hix (isIxKey_of_mem_ixKeys k id p hm))]
    rw [h3, hs2, sget_sput] at hr
    by_cases hk : k = id
    · rw [if_pos hk] at hr
      exact absurd hr (by simp)
    · rw [if_neg hk, hs1, sget_removeIx s id old k hctrf,
        if_neg (fun hm => hix (isIxKey_of_mem_ixKeys k id old hm))] at hr
      rcases G.raws k r hr with h | h
      · exact hix h
      · rw [hctrf] at h
        exact absurd h (by decide)
  · -- index consistency
    intro id' k
    constructor
    · rintro ⟨hik, hv⟩
      rw [hchar k hik] at hv
      by_cases hm : k ∈ ixKeys id p
      · rw [if_pos hm] at hv
        injection hv with h1
        injection h1 with h2
        refine ⟨p, ?_, ?_⟩
        · rw [hreadOp id', if_pos h2.symm]
        · rw [← h2]
          exact hm
      · rw [if_neg hm] at hv
        by_cases hmo : k ∈ ixKeys id old
        · rw [if_pos hmo] at hv
          exact absurd hv (by simp)
        · rw [if_neg hmo] at hv
          obtain ⟨d, hrd, hkd⟩ := (G.ix id' k).mp ⟨hik, hv⟩
          have hne : id' ≠ id := by
            intro he
            subst he
            have hde : d = old := by
              have := readOp_some s id' d hrd
              rw [hold] at this
              injection this with h1
              injection h1 with h2
              exact h2.symm
            rw [hde] at hkd
            exact hmo hkd
          refine ⟨d, ?_, hkd⟩
          rw [hreadOp id', if_neg hne]
          exact hrd
    · rintro ⟨d, hrd, hkd⟩
      rw [hreadOp id'] at hrd
      by_cases hne : id' = id
      · rw [if_pos hne] at hrd
        injection hrd with h1
        subst hne
        subst h1
        have hik := isIxKey_of_mem_ixKeys k id' p hkd
        refine ⟨hik, ?_⟩
        rw [hchar k hik, if_pos hkd]
      · rw [if_neg hne] at hrd
        obtain ⟨hik, hv⟩ := (G.ix id' k).mpr ⟨d, hrd, hkd⟩
        have hdid' := readOp_some s id' d hrd
        have hsafe' : safeId id' = true := (G.docs id' d hdid').1
        have hnm1 : k ∉ ixKeys id p := fun hm =>
          hne (ixKeys_id_unique k id' id d p (safeId_parts id' hsafe').2.1
            (safeId_parts id hid).2.1 hkd hm)
        have hnm2 : k ∉ ixKeys id old := fun hm =>
          hne (ixKeys_id_unique k id' id d old (safeId_parts id' hsafe').2.1
            (safeId_parts id hid).2.1 hkd hm)
        refine ⟨hik, ?_⟩
        rw [hchar k hik, if_neg hnm1, if_neg hnm2]
        exact hv
  · -- counter accuracy
    intro ck hck
    have hckid : ck ≠ id := by
      intro h
      rw [h, (safeId_not_ctr_ix id hid).1] at hck
      exact absurd hck (by decide)
    have hn1 : ctrNat s1 ck = ctrNat s ck - countCK old ck := by
      rw [countCK_def]
      exact ctrNat_removeList id (entryPairsDoc "" old) ck hck s G.pos
    have hn2 : ctrNat s2 ck = ctrNat s1 ck := by
      rw [hs2]
      unfold ctrNat
      rw [readCtr_sput_ne s1 id _ ck hckid]
    have hn3 : ctrNat s3 ck = ctrNat s2 ck + countCK p ck := by
      rw [countCK_def]
      exact ctrNat_addList id (entryPairsDoc "" p) ck hck s2 hpos2
    have hF : ∀ r, docMult (.raw r) ck = 0 := fun r => rfl
    have hD : ∀ r, docOne (.raw r) = 0 := fun r => rfl
    have hm1 : totalMultCK s1 ck = totalMultCK s ck :=
      sumAgg_removeList id (entryPairsDoc "" old) _ hF s G.nd hsdk
    have hm2 : totalMultCK s2 ck + countCK old ck = totalMultCK s1 ck + countCK p ck := by
      have h := sumAgg_sput s1 id (.doc p) (fun v => docMult v ck) hnd1
      rw [oldF_doc s1 id _ old hold1] at h
      exact h
    have hm3 : totalMultCK s3 ck = totalMultCK s2 ck :=
      sumAgg_addList id (entryPairsDoc "" p) _ hF s2 hnd2 hsdk2
    have hd1 : numDocs s1 = numDocs s :=
      sumAgg_removeList id (entryPairsDoc "" old) _ hD s G.nd hsdk
    have hd2 : numDocs s2 + 1 = numDocs s1 + 1 := by
      have h := sumAgg_sput s1 id (.doc p) docOne hnd1
      rw [oldF_doc s1 id _ old hold1] at h
      exact h
    have hd3 : numDocs s3 = numDocs s2 :=
      sumAgg_addList id (entryPairsDoc "" p) _ hD s2 hnd2 hsdk2
    have hle : countCK old ck ≤ totalMultCK s ck :=
      sumAgg_ge s id (StoreVal.doc old) (fun v => docMult v ck) hold
    have hacc := G.acc ck hck
    by_cases ht : ck = totalCtrKey
    · rw [if_pos ht] at hacc ⊢
      omega
    · rw [if_neg ht] at hacc ⊢
      omega

theorem readOp_none_of_ctr (s : Store) (k : String) (hs : SafeDocKeys s)
    (hk : isCtrKey k = true) : readOp s k = none := by
  unfold readOp
  cases hx : sget s k with
  | none => rfl
  | some v =>
    cases v with
    | raw r => rfl
    | doc d =>
      have := (safeId_not_ctr_ix k (hs k d hx)).1
      rw [hk] at this
      exact absurd this (by decide)

theorem readOp_incrCtr (s : Store) (pv : String × String) (id' : String)
    (hs : SafeDocKeys s) : readOp (incrCtr s pv) id' = readOp s id' := by
  by_cases h : id' = ctrKeyS pv
  · subst h
    rw [readOp_none_of_ctr s _ hs (isCtrKey_ctrKeyS pv),
      readOp_none_of_ctr _ _ (safeDocKeys_incrCtr s pv hs) (isCtrKey_ctrKeyS pv)]
  · unfold readOp
    rw [sget_incrCtr_ne s pv id' h]

theorem readOp_decrCtr (s : Store) (pv : String × String) (id' : String)
    (hs : SafeDocKeys s) : readOp (decrCtr s pv) id' = readOp s id' := by
  by_cases h : id' = ctrKeyS pv
  · subst h
    rw [readOp_none_of_ctr s _ hs (isCtrKey_ctrKeyS pv),
      readOp_none_of_ctr _ _ (safeDocKeys_decrCtr s pv hs) (isCtrKey_ctrKeyS pv)]
  · unfold readOp
    rw [sget_decrCtr_ne s pv id' h]

theorem readOp_sdel_ne (s : Store) (k id' : String) (h : id' ≠ k) :
    readOp (sdel s k) id' = readOp s id' := by
  unfold readOp
  rw [sget_sdel, if_neg h]

theorem goodState_insertCore (s : Store) (id : String) (p : Doc)
    (G : GoodState s) (hid : safeId id = true) (hfresh : sget s id = none)
    (hp : safeDoc p = true) (hpid : ∃ t, lookupDoc p "id" = some (Value.str t)) :
    GoodState (incrCtr (addToIndexes (sput s id (.doc p)) id p)
      (".__total__", "documents")) := by
  have hsdk : SafeDocKeys s := G.sdk
  set s1 := sput s id (.doc p) with hs1
  set s2 := addToIndexes s1 id p with hs2
  set s3 := incrCtr s2 (".__total__", "documents") with hs3
  have hnd1 : (skeys s1).Nodup := nodup_sput s id _ G.nd
  have hsdk1 : SafeDocKeys s1 := safeDocKeys_sput_doc s id p hid hsdk
  have hnd2 : (skeys s2).Nodup := nodup_addList id (entryPairsDoc "" p) s1 hnd1
  have hsdk2 : SafeDocKeys s2 := safeDocKeys_addList id (entryPairsDoc "" p) s1 hsdk1
  have hnd3 : (skeys s3).Nodup := nodup_incrCtr s2 _ hnd2
  have hsdk3 : SafeDocKeys s3 := safeDocKeys_incrCtr s2 _ hsdk2
  have hpos1 : CounterPositivity s1 :=
    ctrPos_sput_notCtr s id _ G.pos (safeId_not_ctr_ix id hid).1
  have hpos2 : CounterPositivity s2 := ctrPos_addList id (entryPairsDoc "" p) s1 hpos1
  have hpos3 : CounterPositivity s3 := ctrPos_incrCtr s2 _ hpos2
  have hreadOp : ∀ id', readOp s3 id' = if id' = id then some p else readOp s id' := by
    intro id'
    rw [hs3, readOp_incrCtr s2 _ id' hsdk2, hs2, hs1,
      readOp_installGo s id p id' hid hsdk]
  have hreadS : readOp s id = none := by
    unfold readOp
    rw [hfresh]
  have hchar : ∀ k, isIxKey k = true →
      sget s3 k = if k ∈ ixKeys id p then some (.raw id) else sget s k := by
    intro k hik
    have hne : k ≠ ctrKeyS (".__total__", "documents") := by
      intro h
      exact not_ix_and_ctr k ⟨hik, by rw [h]; exact isCtrKey_ctrKeyS _⟩
    rw [hs3, sget_incrCtr_ne s2 _ k hne, hs2, hs1, sget_installGo_ix s id p k hid hik]
  refine ⟨hnd3, ?_, ?_, ?_, ?_, hpos3⟩
  · intro k d hd
    have hd2 : sget s2 k = some (.doc d) :=
      doc_back_incrCtr s2 _ k d (by rw [← hs3]; exact hd)
    have hd1 : sget s1 k = some (.doc d) := doc_back_addList id (entryPairsDoc "" p) k d s1 hd2
    rw [hs1, sget_sput] at hd1
    by_cases hk : k = id
    · subst hk
      rw [if_pos rfl] at hd1
      injection hd1 with h1
      injection h1 with h2
      subst h2
      exact ⟨hid, hp, hpid⟩
    · rw [if_neg hk] at hd1
      exact G.docs k d hd1
  · intro k r hr
    by_cases hix : isIxKey k = true
    · exact Or.inl hix
    by_cases hctr : isCtrKey k = true
    · exact Or.inr hctr
    exfalso
    have hctrf : isCtrKey k = false := by revert hctr; cases isCtrKey k <;> simp
    have hnet : k ≠ ctrKeyS (".__total__", "documents") := by
      intro h
      rw [h, isCtrKey_ctrKeyS] at hctrf
      exact absurd hctrf (by decide)
    rw [hs3, sget_incrCtr_ne s2 _ k hnet, hs2,
      sget_addToIndexes _ id p k hctrf,
      if_neg (fun hm => hix (isIxKey_of_mem_ixKeys k id p hm)), hs1, sget_sput] at hr
    by_cases hk : k = id
    · rw [if_pos hk] at hr
      exact absurd hr (by simp)
    · rw [if_neg hk] at hr
      rcases G.raws k r hr with h | h
      · exact hix h
      · rw [hctrf] at h
        exact absurd h (by decide)
  · intro id' k
    constructor
    · rintro ⟨hik, hv⟩
      rw [hchar k hik] at hv
      by_cases hm : k ∈ ixKeys id p
      · rw [if_pos hm] at hv
        injection hv with h1
        injection h1 with h2
        refine ⟨p, ?_, ?_⟩
        · rw [hreadOp id', if_pos h2.symm]
        · rw [← h2]
          exact hm
      · rw [if_neg hm] at hv
        obtain ⟨d, hrd, hkd⟩ := (G.ix id' k).mp ⟨hik, hv⟩
        have hne : id' ≠ id := by
          intro he
          rw [he, hreadS] at hrd
          exact absurd hrd (by simp)
        refine ⟨d, ?_, hkd⟩
        rw [hreadOp id', if_neg hne]
        exact hrd
    · rintro ⟨d, hrd, hkd⟩
      rw [hreadOp id'] at hrd
      by_cases hne : id' = id
      · rw [if_pos hne] at hrd
        injection hrd with h1
        subst hne
        subst h1
        have hik := isIxKey_of_mem_ixKeys k id' p hkd
        refine ⟨hik, ?_⟩
        rw [hchar k hik, if_pos hkd]
      · rw [if_neg hne] at hrd
        obtain ⟨hik, hv⟩ := (G.ix id' k).mpr ⟨d, hrd, hkd⟩
        have hdid' := readOp_some s id' d hrd
        have hsafe' : safeId id' = true := (G.docs id' d hdid').1
        have hnm1 : k ∉ ixKeys id p := fun hm =>
          hne (ixKeys_id_unique k id' id d p (safeId_parts id' hsafe').2.1
            (safeId_parts id hid).2.1 hkd hm)
        refine ⟨hik, ?_⟩
        rw [hchar k hik, if_neg hnm1]
        exact hv
  · intro ck hck
    have hckid : ck ≠ id := by
      intro h
      rw [h, (safeId_not_ctr_ix id hid).1] at hck
      exact absurd hck (by decide)
    have hn1 : ctrNat s1 ck = ctrNat s ck := by
      rw [hs1]
      unfold ctrNat
      rw [readCtr_sput_ne s id _ ck hckid]
    have hn2 : ctrNat s2 ck = ctrNat s1 ck + countCK p ck := by
      rw [countCK_def]
      exact ctrNat_addList id (entryPairsDoc "" p) ck hck s1 hpos1
    have hn3 : ctrNat s3 ck = ctrNat s2 ck +
        (if ctrKeyS (".__total__", "documents") = ck then 1 else 0) :=
      ctrNat_incrCtr s2 _ ck hpos2 hck
    have hF : ∀ r, docMult (.raw r) ck = 0 := fun r => rfl
    have hD : ∀ r, docOne (.raw r) = 0 := fun r => rfl
    have hm1 : totalMultCK s1 ck + 0 = totalMultCK s ck + countCK p ck := by
      have h := sumAgg_sput s id (.doc p) (fun v => docMult v ck) G.nd
      rw [oldF_none s id _ hfresh] at h
      exact h
    have hm2 : totalMultCK s2 ck = totalMultCK s1 ck :=
      sumAgg_addList id (entryPairsDoc "" p) _ hF s1 hnd1 hsdk1
    have hm3 : totalMultCK s3 ck = totalMultCK s2 ck :=
      sumAgg_incrCtr s2 _ _ hF hnd2 hsdk2
    have hd1 : numDocs s1 + 0 = numDocs s + 1 := by
      have h := sumAgg_sput s id (.doc p) docOne G.nd
      rw [oldF_none s id _ hfresh] at h
      exact h
    have hd2 : numDocs s2 = numDocs s1 :=
      sumAgg_addList id (entryPairsDoc "" p) _ hD s1 hnd1 hsdk1
    have hd3 : numDocs s3 = numDocs s2 :=
      sumAgg_incrCtr s2 _ _ hD hnd2 hsdk2
    have hacc := G.acc ck hck
    by_cases ht : ck = totalCtrKey
    · rw [if_pos ht] at hacc ⊢
      rw [if_pos (show ctrKeyS (".__total__", "documents") = ck from ht.symm)] at hn3
      omega
    · rw [if_neg ht] at hacc ⊢
      rw [if_neg (fun h : ctrKeyS (".__total__", "documents") = ck => ht h.symm)] at hn3
      omega

theorem goodState_upsertNewCore (s : Store) (id : String) (p : Doc)
    (G : GoodState s) (hid : safeId id = true) (hfresh : sget s id = none)
    (hp : safeDoc p = true) (hpid : ∃ t, lookupDoc p "id" = some (Value.str t)) :
    GoodState (addToIndexes
      (sput (incrCtr s (".__total__", "documents")) id (.doc p)) id p) := by
  have hsdk : SafeDocKeys s := G.sdk
  have hidnt : id ≠ ctrKeyS (".__total__", "documents") := by
    intro h
    have := (safeId_not_ctr_ix id hid).1
    rw [h, isCtrKey_ctrKeyS] at this
    exact absurd this (by decide)
  set s0 := incrCtr s (".__total__", "documents") with hs0
  set s1 := sput s0 id (.doc p) with hs1
  set s2 := addToIndexes s1 id p with hs2
  have hnd0 : (skeys s0).Nodup := nodup_incrCtr s _ G.nd
  have hsdk0 : SafeDocKeys s0 := safeDocKeys_incrCtr s _ hsdk
  have hpos0 : CounterPositivity s0 := ctrPos_incrCtr s _ G.pos
  have hnd1 : (skeys s1).Nodup := nodup_sput s0 id _ hnd0
  have hsdk1 : SafeDocKeys s1 := safeDocKeys_sput_doc s0 id p hid hsdk0
  have hpos1 : CounterPositivity s1 :=
    ctrPos_sput_notCtr s0 id _ hpos0 (safeId_not_ctr_ix id hid).1
  have hnd2 : (skeys s2).Nodup := nodup_addList id (entryPairsDoc "" p) s1 hnd1
  have hsdk2 : SafeDocKeys s2 := safeDocKeys_addList id (entryPairsDoc "" p) s1 hsdk1
  have hpos2 : CounterPositivity s2 := ctrPos_addList id (entryPairsDoc "" p) s1 hpos1
  have hfresh0 : sget s0 id = none := by
    rw [hs0, sget_incrCtr_ne s _ id hidnt]
    exact hfresh
  have hreadOp : ∀ id', readOp s2 id' = if id' = id then some p else readOp s id' := by
    intro id'
    rw [hs2, hs1, readOp_installGo s0 id p id' hid hsdk0, hs0,
      readOp_incrCtr s _ id' hsdk]
  have hreadS : readOp s id = none := by
    unfold readOp
    rw [hfresh]
  have hchar : ∀ k, isIxKey k = true →
      sget s2 k = if k ∈ ixKeys id p then some (.raw id) else sget s k := by
    intro k hik
    have hne : k ≠ ctrKeyS (".__total__", "documents") := by
      intro h
      exact not_ix_and_ctr k ⟨hik, by rw [h]; exact isCtrKey_ctrKeyS _⟩
    rw [hs2, hs1, sget_installGo_ix s0 id p k hid hik, hs0]
    by_cases hm : k ∈ ixKeys id p
    · rw [if_pos hm, if_pos hm]
    · rw [if_neg hm, if_neg hm, sget_incrCtr_ne s _ k hne]
  refine ⟨hnd2, ?_, ?_, ?_, ?_, hpos2⟩
  · intro k d hd
    have hd1 : sget s1 k = some (.doc d) := doc_back_addList id (entryPairsDoc "" p) k d s1 hd
    rw [hs1, sget_sput] at hd1
    by_cases hk : k = id
    · subst hk
      rw [if_pos rfl] at hd1
      injection hd1 with h1
      injection h1 with h2
      subst h2
      exact ⟨hid, hp, hpid⟩
    · rw [if_neg hk] at hd1
      exact G.docs k d (doc_back_incrCtr s _ k d hd1)
  · intro k r hr
    by_cases hix : isIxKey k = true
    · exact Or.inl hix
    by_cases hctr : isCtrKey k = true
    · exact Or.inr hctr
    exfalso
    have hctrf : isCtrKey k = false := by revert hctr; cases isCtrKey k <;> simp
    have hnet : k ≠ ctrKeyS (".__total__", "documents") := by
      intro h
      rw [h, isCtrKey_ctrKeyS] at hctrf
      exact absurd hctrf (by decide)
    rw [hs2, sget_addToIndexes _ id p k hctrf,
      if_neg (fun hm => hix (isIxKey_of_mem_ixKeys k id p hm)), hs1, sget_sput] at hr
    by_cases hk : k = id
    · rw [if_pos hk] at hr
      exact absurd hr (by simp)
    · rw [if_neg hk, hs0, sget_incrCtr_ne s _ k hnet] at hr
      rcases G.raws k r hr with h | h
      · exact hix h
      · rw [hctrf] at h
        exact absurd h (by decide)
  · intro id' k
    constructor
    · rintro ⟨hik, hv⟩
      rw [hchar k hik] at hv
      by_cases hm : k ∈ ixKeys id p
      · rw [if_pos hm] at hv
        injection hv with h1
        injection h1 with h2
        refine ⟨p, ?_, ?_⟩
        · rw [hreadOp id', if_pos h2.symm]
        · rw [← h2]
          exact hm
      · rw [if_neg hm] at hv
        obtain ⟨d, hrd, hkd⟩ := (G.ix id' k).mp ⟨hik, hv⟩
        have hne : id' ≠ id := by
          intro he
          rw [he, hreadS] at hrd
          exact absurd hrd (by simp)
        refine ⟨d, ?_, hkd⟩
        rw [hreadOp id', if_neg hne]
        exact hrd
    · rintro ⟨d, hrd, hkd⟩
      rw [hreadOp id'] at hrd
      by_cases hne : id' = id
      · rw [if_pos hne] at hrd
        injection hrd with h1
        subst hne
        subst h1
        have hik := isIxKey_of_mem_ixKeys k id' p hkd
        refine ⟨hik, ?_⟩
        rw [hchar k hik, if_pos hkd]
      · rw [if_neg hne] at hrd
        obtain ⟨hik, hv⟩ := (G.ix id' k).mpr ⟨d, hrd, hkd⟩
        have hdid' := readOp_some s id' d hrd
        have hsafe' : safeId id' = true := (G.docs id' d hdid').1
        have hnm1 : k ∉ ixKeys id p := fun hm =>
          hne (ixKeys_id_unique k id' id d p (safeId_parts id' hsafe').2.1
            (safeId_parts id hid).2.1 hkd hm)
        refine ⟨hik, ?_⟩
        rw [hchar k hik, if_neg hnm1]
        exact hv
  · intro ck hck
    have hckid : ck ≠ id := by
      intro h
      rw [h, (safeId_not_ctr_ix id hid).1] at hck
      exact absurd hck (by decide)
    have hn0 : ctrNat s0 ck = ctrNat s ck +
        (if ctrKeyS (".__total__", "documents") = ck then 1 else 0) :=
      ctrNat_incrCtr s _ ck G.pos hck
    have hn1 : ctrNat s1 ck = ctrNat s0 ck := by
      rw [hs1]
      unfold ctrNat
      rw [readCtr_sput_ne s0 id _ ck hckid]
    have hn2 : ctrNat s2 ck = ctrNat s1 ck + countCK p ck := by
      rw [countCK_def]
      exact ctrNat_addList id (entryPairsDoc "" p) ck hck s1 hpos1
    have hF : ∀ r, docMult (.raw r) ck = 0 := fun r => rfl
    have hD : ∀ r, docOne (.raw r) = 0 := fun r => rfl
    have hm0 : totalMultCK s0 ck = totalMultCK s ck :=
      sumAgg_incrCtr s _ _ hF G.nd hsdk
    have hm1 : totalMultCK s1 ck + 0 = totalMultCK s0 ck + countCK p ck := by
      have h := sumAgg_sput s0 id (.doc p) (fun v => docMult v ck) hnd0
      rw [oldF_none s0 id _ hfresh0] at h
      exact h
    have hm2 : totalMultCK s2 ck = totalMultCK s1 ck :=
      sumAgg_addList id (entryPairsDoc "" p) _ hF s1 hnd1 hsdk1
    have hd0 : numDocs s0 = numDocs s :=
      sumAgg_incrCtr s _ _ hD G.nd hsdk
    have hd1 : numDocs s1 + 0 = numDocs s0 + 1 := by
      have h := sumAgg_sput s0 id (.doc p) docOne hnd0
      rw [oldF_none s0 id _ hfresh0] at h
      exact h
    have hd2 : numDocs s2 = numDocs s1 :=
      sumAgg_addList id (entryPairsDoc "" p) _ hD s1 hnd1 hsdk1
    have hacc := G.acc ck hck
    by_cases ht : ck = totalCtrKey
    · rw [if_pos ht] at hacc ⊢
      rw [if_pos (show ctrKeyS (".__total__", "documents") = ck from ht.symm)] at hn0
      omega
    · rw [if_neg ht] at hacc ⊢
      rw [if_neg (fun h : ctrKeyS (".__total__", "documents") = ck => ht h.symm)] at hn0
      omega

theorem goodState_removeCore (s : Store) (id : String) (old : Doc)
    (G : GoodState s) (hold : sget s id = some (.doc old)) :
    GoodState (sdel (decrCtr (removeIndexesForDocument s id old)
      (".__total__", "documents")) id) := by
  obtain ⟨hid, hsold, -⟩ := G.docs id old hold
  have hsdk : SafeDocKeys s := G.sdk
  have hidnt : id ≠ ctrKeyS (".__total__", "documents") := by
    intro h
    have := (safeId_not_ctr_ix id hid).1
    rw [h, isCtrKey_ctrKeyS] at this
    exact absurd this (by decide)
  set s1 := removeIndexesForDocument s id old with hs1
  set s2 := decrCtr s1 (".__total__", "documents") with hs2
  set s3 := sdel s2 id with hs3
  have hnd1 : (skeys s1).Nodup := nodup_removeList id (entryPairsDoc "" old) s G.nd
  have hsdk1 : SafeDocKeys s1 := safeDocKeys_removeList id (entryPairsDoc "" old) s hsdk
  have hpos1 : CounterPositivity s1 := ctrPos_removeList id (entryPairsDoc "" old) s G.pos
  have hnd2 : (skeys s2).Nodup := nodup_decrCtr s1 _ hnd1
  have hsdk2 : SafeDocKeys s2 := safeDocKeys_decrCtr s1 _ hsdk1
  have hpos2 : CounterPositivity s2 := ctrPos_decrCtr s1 _ hpos1
  have hnd3 : (skeys s3).Nodup := nodup_sdel s2 id hnd2
  have hsdk3 : SafeDocKeys s3 := safeDocKeys_sdel s2 id hsdk2
  have hpos3 : CounterPositivity s3 := ctrPos_sdel s2 id hpos2
  have hold1 : sget s1 id = some (.doc old) := by
    rw [hs1, sget_safe_removeIx s id old id hid]
    exact hold
  have hold2 : sget s2 id = some (.doc old) := by
    rw [hs2, sget_decrCtr_ne s1 _ id hidnt]
    exact hold1
  have hreadOp : ∀ id', readOp s3 id' = if id' = id then none else readOp s id' := by
    intro id'
    by_cases h : id' = id
    · rw [if_pos h]
      subst h
      unfold readOp
      rw [hs3, sget_sdel, if_pos rfl]
    · rw [if_neg h, hs3, readOp_sdel_ne s2 id id' h, hs2,
        readOp_decrCtr s1 _ id' hsdk1, hs1, readOp_removeIx s id old id' hsdk]
  have hchar : ∀ k, isIxKey k = true →
      sget s3 k = if k ∈ ixKeys id old then none else sget s k := by
    intro k hik
    have hctrf : isCtrKey k = false := by
      by_contra h
      exact not_ix_and_ctr k ⟨hik, by revert h; cases isCtrKey k <;> simp⟩
    have hkid : k ≠ id := by
      intro h
      have := (safeId_not_ctr_ix id hid).2
      rw [← h, hik] at this
      exact absurd this (by decide)
    have hnet : k ≠ ctrKeyS (".__total__", "documents") := by
      intro h
      rw [h, isCtrKey_ctrKeyS] at hctrf
      exact absurd hctrf (by decide)
    rw [hs3, sget_sdel, if_neg hkid, hs2, sget_decrCtr_ne s1 _ k hnet, hs1,
      sget_removeIx s id old k hctrf]
  refine ⟨hnd3, ?_, ?_, ?_, ?_, hpos3⟩
  · intro k d hd
    have hd2 : sget s2 k = some (.doc d) := sget_back_sdel s2 id k _ (by rw [← hs3]; exact hd)
    have hd1 : sget s1 k = some (.doc d) := doc_back_decrCtr s1 _ k d hd2
    exact G.docs k d (doc_back_removeList id (entryPairsDoc "" old) k d s hd1)
  · intro k r hr
    by_cases hix : isIxKey k = true
    · exact Or.inl hix
    by_cases hctr : isCtrKey k = true
    · exact Or.inr hctr
    exfalso
    have hctrf : isCtrKey k = false := by revert hctr; cases isCtrKey k <;> simp
    have hnet : k ≠ ctrKeyS (".__total__", "documents") := by
      intro h
      rw [h, isCtrKey_ctrKeyS] at hctrf
      exact absurd hctrf (by decide)
    by_cases hkid : k = id
    · rw [hs3, sget_sdel, if_pos hkid] at hr
      exact absurd hr (by simp)
    · rw [hs3, sget_sdel, if_neg hkid, hs2, sget_decrCtr_ne s1 _ k hnet, hs1,
        sget_removeIx s id old k hctrf,
        if_neg (fun hm => hix (isIxKey_of_mem_ixKeys k id old hm))] at hr
      rcases G.raws k r hr with h | h
      · exact hix h
      · rw [hctrf] at h
        exact absurd h (by decide)
  · intro id' k
    constructor
    · rintro ⟨hik, hv⟩
      rw [hchar k hik] at hv
      by_cases hmo : k ∈ ixKeys id old
      · rw [if_pos hmo] at hv
        exact absurd hv (by simp)
      · rw [if_neg hmo] at hv
        obtain ⟨d, hrd, hkd⟩ := (G.ix id' k).mp ⟨hik, hv⟩
        have hne : id' ≠ id := by
          intro he
          subst he
          have hde : d = old := by
            have := readOp_some s id' d hrd
            rw [hold] at this
            injection this with h1
            injection h1 with h2
            exact h2.symm
          rw [hde] at hkd
          exact hmo hkd
        refine ⟨d, ?_, hkd⟩
        rw [hreadOp id', if_neg hne]
        exact hrd
    · rintro ⟨d, hrd, hkd⟩
      rw [hreadOp id'] at hrd
      by_cases hne : id' = id
      · rw [if_pos hne] at hrd
        exact absurd hrd (by simp)
      · rw [if_neg hne] at hrd
        obtain ⟨hik, hv⟩ := (G.ix id' k).mpr ⟨d, hrd, hkd⟩
        have hdid' := readOp_some s id' d hrd
        have hsafe' : safeId id' = true := (G.docs id' d hdid').1
        have hnm2 : k ∉ ixKeys id old := fun hm =>
          hne (ixKeys_id_unique k id' id d old (safeId_parts id' hsafe').2.1
            (safeId_parts id hid).2.1 hkd hm)
        refine ⟨hik, ?_⟩
        rw [hchar k hik, if_neg hnm2]
        exact hv
  · intro ck hck
    have hckid : ck ≠ id := by
      intro h
      rw [h, (safeId_not_ctr_ix id hid).1] at hck
      exact absurd hck (by decide)
    have hn1 : ctrNat s1 ck = ctrNat s ck - countCK old ck := by
      rw [countCK_def]
      exact ctrNat_removeList id (entryPairsDoc "" old) ck hck s G.pos
    have hn2 : ctrNat s2 ck = ctrNat s1 ck -
        (if ctrKeyS (".__total__", "documents") = ck then 1 else 0) :=
      ctrNat_decrCtr s1 _ ck hpos1 hck
    have hn3 : ctrNat s3 ck = ctrNat s2 ck := by
      rw [hs3]
      unfold ctrNat
      rw [readCtr_sdel_ne s2 id ck hckid]
    have hF : ∀ r, docMult (.raw r) ck = 0 := fun r => rfl
    have hD : ∀ r, docOne (.raw r) = 0 := fun r => rfl
    have hm1 : totalMultCK s1 ck = totalMultCK s ck :=
      sumAgg_removeList id (entryPairsDoc "" old) _ hF s G.nd hsdk
    have hm2 : totalMultCK s2 ck = totalMultCK s1 ck :=
      sumAgg_decrCtr s1 _ _ hF hnd1 hsdk1
    have hm3 : totalMultCK s3 ck + countCK old ck = totalMultCK s2 ck := by
      have h := sumAgg_sdel s2 id (fun v => docMult v ck) hnd2
      rw [oldF_doc s2 id _ old hold2] at h
      exact h
    have hd1 : numDocs s1 = numDocs s :=
      sumAgg_removeList id (entryPairsDoc "" old) _ hD s G.nd hsdk
    have hd2 : numDocs s2 = numDocs s1 :=
      sumAgg_decrCtr s1 _ _ hD hnd1 hsdk1
    have hd3 : numDocs s3 + 1 = numDocs s2 := by
      have h := sumAgg_sdel s2 id docOne hnd2
      rw [oldF_doc s2 id _ old hold2] at h
      exact h
    have hle : countCK old ck ≤ totalMultCK s ck :=
      sumAgg_ge s id (StoreVal.doc old) (fun v => docMult v ck) hold
    have hone : 1 ≤ numDocs s := sumAgg_ge s id (StoreVal.doc old) docOne hold
    have hacc := G.acc ck hck
    by_cases ht : ck = totalCtrKey
    · rw [if_pos ht] at hacc ⊢
      rw [if_pos (show ctrKeyS (".__total__", "documents") = ck from ht.symm)] at hn2
      omega
    · rw [if_neg ht] at hacc ⊢
      rw [if_neg (fun h : ctrKeyS (".__total__", "documents") = ck => ht h.symm)] at hn2
      omega

/-! ## Per-operation preservation and reachability -/

theorem safeFields_setId (id : String) (hid : safeStr id = true) :
    safeFields [("id", Value.str id)] = true := by
  rw [safeFields, show safeVal (Value.str id) = safeStr id from rfl, hid]
  decide

theorem safeDoc_insHead (d : Doc) (id : String) (hd : safeDoc d = true)
    (hid : safeStr id = true) :
    safeDoc (jsMerge [("id", Value.str id)] d) = true :=
  safeFields_jsMerge _ d (safeFields_setId id hid) hd

theorem safeDoc_setIdTail (d : Doc) (id : String) (hd : safeDoc d = true)
    (hid : safeStr id = true) :
    safeDoc (jsMerge d [("id", Value.str id)]) = true :=
  safeFields_jsMerge d _ hd (safeFields_setId id hid)

theorem lookupDoc_insHead_id (d : Doc) (id : String) (hok : idFieldOk d) :
    ∃ t, lookupDoc (jsMerge [("id", Value.str id)] d) "id" = some (Value.str t) := by
  rw [show jsMerge [("id", Value.str id)] d =
      ("id", (lookupDoc d "id").getD (Value.str id)) ::
        jsMerge [] (d.filter (fun kv => kv.1 ≠ "id")) from rfl,
    lookupDoc_cons, if_pos rfl]
  cases hl : lookupDoc d "id" with
  | none => exact ⟨id, rfl⟩
  | some v =>
    obtain ⟨t, ht⟩ := hok v hl
    exact ⟨t, by rw [ht]; rfl⟩

theorem goodState_insertOp (s : Store) (d : Doc) (genId : String)
    (G : GoodState s) (hd : safeDoc d = true) (hok : idFieldOk d)
    (hdid : ∀ t, getIdField d = some t → safeId t = true)
    (hgen : safeId genId = true) (hgfresh : sget s genId = none) :
    GoodState (insertOp s d genId).2 := by
  unfold insertOp
  cases hgf : getIdField d with
  | some did =>
    show GoodState (if (sget s did).isSome = true then (Except.error DbErr.conflict, s)
      else insertGo s d did).2
    cases hx : sget s did with
    | some v =>
      exact G
    | none =>
      exact goodState_insertCore s did (jsMerge [("id", Value.str did)] d) G
        (hdid did hgf) hx
        (safeDoc_insHead d did hd (safeId_parts did (hdid did hgf)).2.1)
        (lookupDoc_insHead_id d did hok)
  | none =>
    exact goodState_insertCore s genId (jsMerge [("id", Value.str genId)] d) G hgen hgfresh
      (safeDoc_insHead d genId hd (safeId_parts genId hgen).2.1)
      (lookupDoc_insHead_id d genId hok)

theorem raw_at_safe_absurd (s : Store) (G : GoodState s) (id : String)
    (hid : safeId id = true) (r : String) (hx : sget s id = some (.raw r)) :
    False := by
  rcases G.raws id r hx with h | h
  · rw [(safeId_parts id hid).2.2.2] at h
    exact absurd h (by decide)
  · rw [(safeId_parts id hid).2.2.1] at h
    exact absurd h (by decide)

theorem goodState_replaceFound (s : Store) (id : String) (nd : Doc)
    (G : GoodState s) (hid : safeId id = true) (hnd : safeDoc nd = true) :
    GoodState (replaceOp.replaceFound s id nd).2 := by
  unfold replaceOp.replaceFound
  cases hx : sget s id with
  | none => exact G
  | some v =>
    cases v with
    | raw r => exact absurd (raw_at_safe_absurd s G id hid r hx) (fun h => h)
    | doc old =>
      exact goodState_updateCore s id old (jsMerge nd [("id", Value.str id)]) G hx
        (safeDoc_setIdTail nd id hnd (safeId_parts id hid).2.1)
        ⟨id, lookupDoc_setId nd id⟩

theorem goodState_replaceOp (s : Store) (id : String) (nd : Doc)
    (G : GoodState s) (hid : safeId id = true) (hnd : safeDoc nd = true) :
    GoodState (replaceOp s id nd).2 := by
  unfold replaceOp
  rw [if_neg (safeId_parts id hid).1]
  cases hgf : getIdField nd with
  | some nid =>
    show GoodState (if id ≠ nid then (Except.error DbErr.invalidArg, s)
      else replaceOp.replaceFound s id nd).2
    by_cases hne : id ≠ nid
    · rw [if_pos hne]
      exact G
    · rw [if_neg hne]
      exact goodState_replaceFound s id nd G hid hnd
  | none => exact goodState_replaceFound s id nd G hid hnd

theorem goodState_patchFound (s : Store) (id : String) (nd : Doc)
    (G : GoodState s) (hid : safeId id = true) (hnd : safeDoc nd = true) :
    GoodState (patchOp.patchFound s id nd).2 := by
  unfold patchOp.patchFound
  cases hx : sget s id with
  | none => exact G
  | some v =>
    cases v with
    | raw r => exact absurd (raw_at_safe_absurd s G id hid r hx) (fun h => h)
    | doc old =>
      exact goodState_updateCore s id old
        (jsMerge (jsMerge old nd) [("id", Value.str id)]) G hx
        (safeFields_jsMerge _ _ (safeFields_jsMerge old nd (G.docs id old hx).2.1 hnd)
          (safeFields_setId id (safeId_parts id hid).2.1))
        ⟨id, lookupDoc_setId _ id⟩

theorem goodState_patchOp (s : Store) (id : String) (nd : Doc)
    (G : GoodState s) (hid : safeId id = true) (hnd : safeDoc nd = true) :
    GoodState (patchOp s id nd).2 := by
  unfold patchOp
  rw [if_neg (safeId_parts id hid).1]
  cases hgf : getIdField nd with
  | some nid =>
    show GoodState (if id ≠ nid then (Except.error DbErr.invalidArg, s)
      else patchOp.patchFound s id nd).2
    by_cases hne : id ≠ nid
    · rw [if_pos hne]
      exact G
    · rw [if_neg hne]
      exact goodState_patchFound s id nd G hid hnd
  | none => exact goodState_patchFound s id nd G hid hnd

theorem goodState_removeOp (s : Store) (id : String)
    (G : GoodState s) (hid : safeId id = true) :
    GoodState (removeOp s id).2 := by
  unfold removeOp
  rw [if_neg (safeId_parts id hid).1]
  cases hx : sget s id with
  | none => exact G
  | some v =>
    cases v with
    | raw r => exact absurd (raw_at_safe_absurd s G id hid r hx) (fun h => h)
    | doc old => exact goodState_removeCore s id old G hx

theorem goodState_upsertOp (s : Store) (id : String) (d : Doc)
    (G : GoodState s) (hid : safeId id = true) (hd : safeDoc d = true) :
    GoodState (upsertOp s id d).2 := by
  unfold upsertOp
  rw [if_neg (safeId_parts id hid).1]
  cases hx : sget s id with
  | some v =>
    cases v with
    | raw r => exact absurd (raw_at_safe_absurd s G id hid r hx) (fun h => h)
    | doc old =>
      exact goodState_updateCore s id old
        (jsMerge (jsMerge old d) [("id", Value.str id)]) G hx
        (safeFields_jsMerge _ _ (safeFields_jsMerge old d (G.docs id old hx).2.1 hd)
          (safeFields_setId id (safeId_parts id hid).2.1))
        ⟨id, lookupDoc_setId _ id⟩
  | none =>
    exact goodState_upsertNewCore s id (jsMerge (jsMerge [] d) [("id", Value.str id)])
      G hid hx
      (safeFields_jsMerge _ _ hd (safeFields_setId id (safeId_parts id hid).2.1))
      ⟨id, lookupDoc_setId _ id⟩

theorem goodState_empty : GoodState [] := by
  refine ⟨List.nodup_nil, ?_, ?_, ?_, ?_, ?_⟩
  · intro k d hd
    exact absurd hd (by simp [sget])
  · intro k r hr
    exact absurd hr (by simp [sget])
  · intro id k
    constructor
    · rintro ⟨-, hv⟩
      exact absurd hv (by simp [sget])
    · rintro ⟨d, hrd, -⟩
      unfold readOp at hrd
      exact absurd hrd (by simp [sget])
  · intro ck hck
    show (readCtr [] ck).toNat = sumAgg [] _ + _
    rw [show readCtr [] ck = 0 from rfl]
    by_cases ht : ck = totalCtrKey
    · rw [if_pos ht]
      rfl
    · rw [if_neg ht]
      rfl
  · intro k v hck hv
    exact absurd hv (by simp [sget])

theorem goodState_of_reachable (s : Store) (h : Reachable s) : GoodState s := by
  induction h with
  | empty => exact goodState_empty
  | insert s d genId hr hd hok hdid hgen hgf ih =>
    exact goodState_insertOp s d genId ih hd hok hdid hgen hgf
  | replace s id nd hr hid hnd ih => exact goodState_replaceOp s id nd ih hid hnd
  | patch s id nd hr hid hnd ih => exact goodState_patchOp s id nd ih hid hnd
  | remove s id hr hid ih => exact goodState_removeOp s id ih hid
  | upsert s id d hr hid hd ih => exact goodState_upsertOp s id d ih hid hd

/-- C1 (amended): after every completed mutation — i.e. in every store
reachable from empty by insert, replace, patch, upsert and remove on
separator-free documents with string id fields and safe ids — the index
entries present in the store for every id are exactly those derivable
from the document currently stored under that id (and after remove none
remain, since the document is gone). -/
theorem c1_index_consistency (s : Store) (h : Reachable s) : IndexInv s :=
  (goodState_of_reachable s h).ix

theorem c1_index_consistency_witness :
    IndexInv (insertOp [] [("id", Value.str "a"), ("k", Value.num 1)] "g").2 :=
  c1_index_consistency _
    (Reachable.insert [] [("id", Value.str "a"), ("k", Value.num 1)] "g"
      Reachable.empty (by decide)
      (fun v hv => by
        rw [lookupDoc_cons, if_pos rfl] at hv
        exact ⟨"a", by injection hv with h; exact h.symm⟩)
      (fun t ht => by
        rw [show getIdField [("id", Value.str "a"), ("k", Value.num 1)] = some "a"
          from rfl] at ht
        injection ht with h
        rw [← h]
        decide)
      (by decide) rfl)

/-! ## C8: the empty query returns every stored document -/

theorem lt_maxChar_of_ne (c : Char) (h : c ≠ maxChar) : c < maxChar := by
  have hv := c.valid
  have hlt : c.val.toNat < 1114112 := by
    rcases hv with h1 | h2
    · omega
    · exact h2.2
  have hne : c.val.toNat ≠ 1114111 := by
    intro he
    exact h (Char.ext (UInt32.ext (he.trans (by decide))))
  show c.val < maxChar.val
  show c.val.toNat < maxChar.val.toNat
  rw [show maxChar.val.toNat = 1114111 from by decide]
  omega

theorem ltB_asymm (a : List Char) : ∀ b, ltB a b = true → ltB b a = false := by
  induction a with
  | nil =>
    intro b _
    exact ltB_nil_right b
  | cons c cs ih =>
    intro b hab
    cases b with
    | nil => exact absurd hab (by rw [ltB_nil_right]; decide)
    | cons d ds =>
      rw [ltB] at hab ⊢
      by_cases hcd : c < d
      · have hdc : ¬ d < c := fun h2 => absurd (lt_trans hcd h2) (lt_irrefl c)
        rw [if_neg hdc, if_pos hcd]
      · rw [if_neg hcd] at hab
        by_cases hdc : d < c
        · rw [if_pos hdc] at hab
          exact absurd hab (by decide)
        · rw [if_neg hdc] at hab
          rw [if_neg hdc, if_neg hcd]
          exact ih ds hab

theorem inRange_left (P k : String)
    (h : inBounds (boundsGteLt P (P ++ lastUni)) k = true) : strStarts P k = true := by
  unfold inBounds boundsGteLt at h
  simp only [Bool.and_eq_true] at h
  obtain ⟨⟨⟨-, hge⟩, hlt⟩, -⟩ := h
  have hle2 : leB k.data (P.data ++ [maxChar]) = true := by
    unfold strLt at hlt
    rw [show (P ++ lastUni).data = P.data ++ [maxChar] from by
      rw [show (P ++ lastUni).data = P.data ++ lastUni.data from by simp]
      rfl] at hlt
    unfold leB
    rw [ltB_asymm _ _ hlt]
    rfl
  exact List.isPrefixOf_iff_prefix.mpr
    (List.isPrefixOf_iff_prefix.mp (sandwich_isPrefix P.data k.data maxChar hge hle2))

theorem inRange_right (P : String) (rest : List Char)
    (hmax : ∀ c ∈ rest, c ≠ maxChar) :
    inBounds (boundsGteLt P (P ++ lastUni)) (String.mk (P.data ++ rest)) = true := by
  unfold inBounds boundsGteLt
  simp only [Bool.and_eq_true]
  refine ⟨⟨⟨trivial, ?_⟩, ?_⟩, trivial⟩
  · exact leB_self_append P.data rest
  · show ltB (P.data ++ rest) (P ++ lastUni).data = true
    rw [show (P ++ lastUni).data = P.data ++ [maxChar] from by
      rw [show (P ++ lastUni).data = P.data ++ lastUni.data from by simp]
      rfl]
    rw [ltB_append_iff]
    cases rest with
    | nil => rfl
    | cons c cs =>
      rw [ltB]
      rw [if_pos (lt_maxChar_of_ne c (hmax c (List.mem_cons_self c cs)))]

theorem mem_collectIds_aux (s : Store) (ks : List String) (a : String) :
    ∀ acc, (a ∈ ks.foldl (fun acc k =>
        match sget s k with
        | some v => addId acc (storeValStr v)
        | none => acc) acc ↔
      a ∈ acc ∨ ∃ k ∈ ks, ∃ v, sget s k = some v ∧ storeValStr v = a) := by
  induction ks with
  | nil => simp
  | cons k ks ih =>
    intro acc
    rw [List.foldl_cons]
    cases hx : sget s k with
    | none =>
      rw [ih acc]
      constructor
      · rintro (h | ⟨k2, hk2, v, hv, ha⟩)
        · exact Or.inl h
        · exact Or.inr ⟨k2, List.mem_cons_of_mem k hk2, v, hv, ha⟩
      · rintro (h | ⟨k2, hk2, v, hv, ha⟩)
        · exact Or.inl h
        · rcases List.mem_cons.mp hk2 with h2 | h2
          · subst h2
            rw [hx] at hv
            exact absurd hv (by simp)
          · exact Or.inr ⟨k2, h2, v, hv, ha⟩
    | some v =>
      rw [ih (addId acc (storeValStr v)), mem_addId]
      constructor
      · rintro ((h | h) | ⟨k2, hk2, w, hw, ha⟩)
        · exact Or.inl h
        · exact Or.inr ⟨k, List.mem_cons_self k ks, v, hx, h.symm⟩
        · exact Or.inr ⟨k2, List.mem_cons_of_mem k hk2, w, hw, ha⟩
      · rintro (h | ⟨k2, hk2, w, hw, ha⟩)
        · exact Or.inl (Or.inl h)
        · rcases List.mem_cons.mp hk2 with h2 | h2
          · subst h2
            rw [hx] at hw
            injection hw with hw2
            subst hw2
            exact Or.inl (Or.inr ha.symm)
          · exact Or.inr ⟨k2, h2, w, hw, ha⟩

theorem mem_collectIds (s : Store) (ks : List String) (a : String) :
    a ∈ collectIds s ks ↔ ∃ k ∈ ks, ∃ v, sget s k = some v ∧ storeValStr v = a := by
  unfold collectIds
  rw [mem_collectIds_aux s ks a []]
  simp

theorem mem_skeys_sget (s : Store) (k : String) (h : k ∈ skeys s) :
    ∃ v, sget s k = some v := by
  induction s with
  | nil => exact absurd h (by simp [skeys])
  | cons hd tl ih =>
    obtain ⟨k₀, v₀⟩ := hd
    rw [show skeys ((k₀, v₀) :: tl) = k₀ :: skeys tl from rfl, List.mem_cons] at h
    by_cases h0 : k₀ = k
    · exact ⟨v₀, by rw [sget, if_pos h0]⟩
    · rcases h with h | h
      · exact absurd h.symm h0
      · obtain ⟨v, hv⟩ := ih h
        exact ⟨v, by rw [sget, if_neg h0]; exact hv⟩

theorem sget_mem_skeys (s : Store) (k : String) (v : StoreVal)
    (h : sget s k = some v) : k ∈ skeys s :=
  List.mem_map.mpr ⟨(k, v), sget_mem s k v h, rfl⟩

theorem mem_field_of_lookup (d : Doc) (k : String) (v : Value)
    (h : lookupDoc d k = some v) : (k, v) ∈ d := by
  induction d with
  | nil => exact absurd h (by simp [lookupDoc])
  | cons f rest ih =>
    obtain ⟨k₀, v₀⟩ := f
    rw [lookupDoc_cons] at h
    by_cases h0 : k₀ = k
    · rw [if_pos h0] at h
      injection h with h2
      rw [← h0, ← h2]
      exact List.mem_cons_self _ _
    · rw [if_neg h0] at h
      exact List.mem_cons_of_mem _ (ih h)

theorem entryPairsField_sub (d : Doc) (pre : String) :
    ∀ f ∈ d, ∀ pv ∈ entryPairsField pre f.1 f.2, pv ∈ entryPairsDoc pre d := by
  induction d with
  | nil => intro f hf; exact absurd hf (by simp)
  | cons g rest ih =>
    obtain ⟨k₀, v₀⟩ := g
    intro f hf pv hpv
    rw [show entryPairsDoc pre ((k₀, v₀) :: rest)
      = entryPairsField pre k₀ v₀ ++ entryPairsDoc pre rest from rfl]
    rcases List.mem_cons.mp hf with h | h
    · subst h
      exact List.mem_append_left _ hpv
    · exact List.mem_append_right _ (ih f h pv hpv)

theorem idPair_mem (d : Doc) (t : String)
    (h : lookupDoc d "id" = some (Value.str t)) :
    (".id", t) ∈ entryPairsDoc "" d := by
  have hf := mem_field_of_lookup d "id" (Value.str t) h
  have hpv : (".id", t) ∈ entryPairsField "" "id" (Value.str t) := by
    rw [show entryPairsField "" "id" (Value.str t) = [("" ++ "." ++ "id", t)] from rfl]
    rw [show ("" ++ "." ++ "id" : String) = ".id" from by decide]
    exact List.mem_singleton.mpr rfl
  exact entryPairsField_sub d "" ("id", Value.str t) hf (".id", t) hpv

theorem mem_exists_ids (s : Store) (G : GoodState s) (a : String) :
    a ∈ getIdsForKeyExistsPos s "id" ↔ ∃ d, readOp s a = some d := by
  unfold getIdsForKeyExistsPos
  rw [mem_collectIds]
  constructor
  · rintro ⟨k, hk, v, hv, ha⟩
    rw [mem_scanKeys] at hk
    obtain ⟨hks, hb⟩ := hk
    have hpre : strStarts ("indexes." ++ "id" ++ "=") k = true := inRange_left _ k hb
    have hik : isIxKey k = true := by
      unfold isIxKey strStarts
      have h1 := List.isPrefixOf_iff_prefix.mp hpre
      exact List.isPrefixOf_iff_prefix.mpr
        (List.IsPrefix.trans (List.isPrefixOf_iff_prefix.mp
          (by decide : ("indexes" : String).data.isPrefixOf
            ("indexes." ++ "id" ++ "=" : String).data = true)) h1)
    cases v with
    | doc d =>
      exfalso
      have hsafe := (G.docs k d hv).1
      rw [(safeId_parts k hsafe).2.2.2] at hik
      exact absurd hik (by decide)
    | raw r =>
      obtain ⟨d, hrd, -⟩ := (G.ix r k).mp ⟨hik, hv⟩
      rw [show storeValStr (StoreVal.raw r) = r from rfl] at ha
      subst ha
      exact ⟨d, hrd⟩
  · rintro ⟨d, hrd⟩
    have hdoc := readOp_some s a d hrd
    obtain ⟨hsafe, hsd, t, ht⟩ := G.docs a d hdoc
    have hst : safeStr t = true := safeVal_lookupDoc d "id" (Value.str t) hsd ht
    have hpv := idPair_mem d t ht
    have hkmem : ixKeyS (".id", t) a ∈ ixKeys a d := List.mem_map.mpr ⟨(".id", t), hpv, rfl⟩
    obtain ⟨-, hv⟩ := (G.ix a (ixKeyS (".id", t) a)).mpr ⟨d, hrd, hkmem⟩
    refine ⟨ixKeyS (".id", t) a, ?_, .raw a, hv, rfl⟩
    rw [mem_scanKeys]
    refine ⟨sget_mem_skeys s _ _ hv, ?_⟩
    have hdata : (ixKeyS (".id", t) a).data
        = ("indexes." ++ "id" ++ "=" : String).data ++ (t.data ++ '|' :: a.data) := by
      rw [ixKeyS_data]
      rw [show ("indexes" ++ (".id", t).1 ++ "=" ++ (".id", t).2).data
          = ("indexes." ++ "id" ++ "=" : String).data ++ t.data from by
        rw [show ("indexes" ++ (".id", t).1 ++ "=" ++ (".id", t).2).data
            = ("indexes" ++ ".id" ++ "=").data ++ t.data from by simp]
        rfl]
      rw [List.append_assoc]
    have hkey : ixKeyS (".id", t) a
        = String.mk (("indexes." ++ "id" ++ "=" : String).data ++ (t.data ++ '|' :: a.data)) :=
      String.ext hdata
    rw [hkey]
    apply inRange_right
    intro c hc
    rcases List.mem_append.mp hc with h | h
    · exact fun he => safeStr_no_max t hst (he ▸ h)
    · rcases List.mem_cons.mp h with h2 | h2
      · subst h2
        decide
      · exact fun he => safeStr_no_max a (safeId_parts a hsafe).2.1 (he ▸ h2)

theorem queryOp_none_eq (s : Store) :
    queryOp s none = .ok ((getIdsForKeyExistsPos s "id").filterMap (readOp s)) := rfl

/-- C8: `query()` (and `query({})`) is rewritten to `{id: {$exists: true}}`
and, over every reachable safely-encoded store, returns exactly the stored
documents: a document is in the result iff it is stored under some id. -/
theorem c8_empty_query_all_docs (s : Store) (h : Reachable s) :
    ∃ r, queryOp s none = .ok r ∧ ∀ d, d ∈ r ↔ ∃ id, readOp s id = some d := by
  have G := goodState_of_reachable s h
  refine ⟨(getIdsForKeyExistsPos s "id").filterMap (readOp s), queryOp_none_eq s, ?_⟩
  intro d
  rw [List.mem_filterMap]
  constructor
  · rintro ⟨a, -, ha⟩
    exact ⟨a, ha⟩
  · rintro ⟨id, hid⟩
    exact ⟨id, (mem_exists_ids s G id).mpr ⟨d, hid⟩, hid⟩

theorem c8_empty_query_witness :
    ∃ r, queryOp (insertOp [] [("id", Value.str "b"), ("v", Value.num 2)] "g").2 none
        = .ok r ∧
      ∀ d, d ∈ r ↔
        ∃ id, readOp (insertOp [] [("id", Value.str "b"), ("v", Value.num 2)] "g").2 id
          = some d :=
  c8_empty_query_all_docs _
    (Reachable.insert [] [("id", Value.str "b"), ("v", Value.num 2)] "g"
      Reachable.empty (by decide)
      (fun v hv => by
        rw [lookupDoc_cons, if_pos rfl] at hv
        exact ⟨"b", by injection hv with h; exact h.symm⟩)
      (fun t ht => by
        rw [show getIdField [("id", Value.str "b"), ("v", Value.num 2)] = some "b"
          from rfl] at ht
        injection ht with h
        rw [← h]
        decide)
      (by decide) rfl)

/-! ## C6: decoding index keys and the inclusive field range -/

theorem dropWhile_no (p : Char → Bool) (l₁ : List Char) :
    ∀ l₂, (∀ c ∈ l₁, p c = true) → (l₁ ++ l₂).dropWhile p = l₂.dropWhile p := by
  induction l₁ with
  | nil => intro l₂ _; rfl
  | cons c cs ih =>
    intro l₂ h
    rw [List.cons_append, List.dropWhile_cons, if_pos (h c (List.mem_cons_self c cs))]
    exact ih l₂ (fun x hx => h x (List.mem_cons_of_mem c hx))

theorem takeWhile_no (p : Char → Bool) (l₁ : List Char) :
    ∀ l₂, (∀ c ∈ l₁, p c = true) → (l₁ ++ l₂).takeWhile p = l₁ ++ l₂.takeWhile p := by
  induction l₁ with
  | nil => intro l₂ _; rfl
  | cons c cs ih =>
    intro l₂ h
    rw [List.cons_append, List.takeWhile_cons, if_pos (h c (List.mem_cons_self c cs)),
      ih l₂ (fun x hx => h x (List.mem_cons_of_mem c hx)), List.cons_append]

theorem all_ne_of_not_mem (s : String) (c : Char) (h : c ∉ s.data) :
    ∀ x ∈ s.data, decide (x ≠ c) = true := by
  intro x hx
  rw [decide_eq_true_eq]
  intro he
  exact h (he ▸ hx)

theorem lvalueOf_ixKeyS (pv : String × String) (id : String)
    (h1 : safeStr pv.1 = true) (h2 : safeStr pv.2 = true)
    (hid : safeStr id = true) : lvalueOf (ixKeyS pv id) = pv.2 := by
  unfold lvalueOf
  have hdata : (ixKeyS pv id).data
      = ("indexes".data ++ pv.1.data) ++ '=' :: (pv.2.data ++ '|' :: id.data) := by
    show ("indexes" ++ pv.1 ++ "=" ++ pv.2 ++ "|" ++ id).data = _
    rw [show ("indexes" ++ pv.1 ++ "=" ++ pv.2 ++ "|" ++ id).data
        = "indexes".data ++ pv.1.data ++ "=".data ++ pv.2.data ++ "|".data ++ id.data
        from rfl]
    simp
  rw [hdata]
  have hno1 : ∀ c ∈ "indexes".data ++ pv.1.data, decide (c ≠ '=') = true := by
    intro c hc
    rcases List.mem_append.mp hc with h | h
    · rw [decide_eq_true_eq]
      intro he
      subst he
      revert h
      decide
    · exact all_ne_of_not_mem pv.1 '=' (safeStr_no_eq pv.1 h1) c h
  rw [dropWhile_no _ _ _ hno1]
  rw [show List.dropWhile (fun c => decide (c ≠ '='))
      ('=' :: (pv.2.data ++ '|' :: id.data)) = '=' :: (pv.2.data ++ '|' :: id.data) from by
    rw [List.dropWhile_cons, if_neg (by decide)]]
  rw [List.tail_cons]
  have hno2 : ∀ c ∈ pv.2.data ++ '|' :: id.data, decide (c ≠ '=') = true := by
    intro c hc
    rcases List.mem_append.mp hc with h | h
    · exact all_ne_of_not_mem pv.2 '=' (safeStr_no_eq pv.2 h2) c h
    · rcases List.mem_cons.mp h with h2x | h2x
      · subst h2x
        decide
      · exact all_ne_of_not_mem id '=' (safeStr_no_eq id hid) c h2x
  rw [List.takeWhile_eq_self_iff.mpr hno2]
  rw [takeWhile_no _ pv.2.data _
    (all_ne_of_not_mem pv.2 '|' (safeStr_no_bar pv.2 h2))]
  rw [show List.takeWhile (fun c => decide (c ≠ '|')) ('|' :: id.data) = [] from by
    rw [List.takeWhile_cons, if_neg (by decide)]]
  rw [List.append_nil]

theorem char_asymm (c d : Char) (h : c < d) : ¬ d < c :=
  fun h2 => absurd (lt_trans h h2) (lt_irrefl c)

theorem leB_le_max (l : List Char) (h : ∀ c ∈ l, c ≠ maxChar) :
    leB l [maxChar] = true := by
  cases l with
  | nil => exact leB_nil_left _
  | cons c cs =>
    have hlt : c < maxChar := lt_maxChar_of_ne c (h c (List.mem_cons_self c cs))
    unfold leB
    rw [ltB, if_neg (char_asymm c maxChar hlt), if_pos hlt]
    rfl

theorem inRangeLte_left (P k : String)
    (h : inBounds (boundsGteLte P (P ++ lastUni)) k = true) : strStarts P k = true := by
  unfold inBounds boundsGteLte at h
  simp only [Bool.and_eq_true] at h
  obtain ⟨⟨⟨-, hge⟩, -⟩, hle⟩ := h
  unfold strLe at hge hle
  rw [show (P ++ lastUni).data = P.data ++ [maxChar] from by
    rw [show (P ++ lastUni).data = P.data ++ lastUni.data from by simp]
    rfl] at hle
  exact sandwich_isPrefix P.data k.data maxChar hge hle

theorem inRangeLte_right (P : String) (rest : List Char)
    (hmax : ∀ c ∈ rest, c ≠ maxChar) :
    inBounds (boundsGteLte P (P ++ lastUni)) (String.mk (P.data ++ rest)) = true := by
  unfold inBounds boundsGteLte
  simp only [Bool.and_eq_true]
  refine ⟨⟨⟨trivial, ?_⟩, trivial⟩, ?_⟩
  · exact leB_self_append P.data rest
  · show leB (P.data ++ rest) (P ++ lastUni).data = true
    rw [show (P ++ lastUni).data = P.data ++ [maxChar] from by
      rw [show (P ++ lastUni).data = P.data ++ lastUni.data from by simp]
      rfl]
    rw [leB_append_iff]
    exact leB_le_max rest hmax

theorem ixKey_data_eq (pv : String × String) (r : String) :
    (ixKeyS pv r).data
      = "indexes".data ++ (pv.1.data ++ '=' :: (pv.2.data ++ '|' :: r.data)) := by
  show ("indexes" ++ pv.1 ++ "=" ++ pv.2 ++ "|" ++ r).data = _
  rw [show ("indexes" ++ pv.1 ++ "=" ++ pv.2 ++ "|" ++ r).data
      = "indexes".data ++ pv.1.data ++ "=".data ++ pv.2.data ++ "|".data ++ r.data
      from rfl]
  simp

theorem pfx_data_field (field : String) :
    ("indexes." ++ field ++ "=" : String).data
      = "indexes".data ++ ('.' :: (field.data ++ ['='])) := by
  rw [show ("indexes." ++ field ++ "=" : String).data
      = "indexes.".data ++ field.data ++ "=".data from rfl]
  rw [show ("indexes." : String).data = "indexes".data ++ ['.'] from rfl]
  simp

theorem ixKey_split_field (pv : String × String) (r field : String) (rest : List Char)
    (hp1 : safeStr pv.1 = true) (hf : safeStr field = true)
    (heq : (ixKeyS pv r).data = ("indexes." ++ field ++ "=" : String).data ++ rest) :
    pv.1 = "." ++ field ∧ pv.2.data ++ '|' :: r.data = rest := by
  rw [ixKey_data_eq, pfx_data_field, List.append_assoc] at heq
  have heq2 := List.append_cancel_left heq
  rw [show ('.' :: (field.data ++ ['='])) ++ rest = ('.' :: field.data) ++ '=' :: rest
    from by simp] at heq2
  have hno1 : '=' ∉ pv.1.data := safeStr_no_eq pv.1 hp1
  have hno2 : '=' ∉ '.' :: field.data := by
    intro hm
    rcases List.mem_cons.mp hm with h | h
    · exact absurd h (by decide)
    · exact safeStr_no_eq field hf h
  obtain ⟨ha, hb⟩ := firstSep_inj '=' pv.1.data ('.' :: field.data) _ _ hno1 hno2 heq2
  refine ⟨String.ext ?_, hb⟩
  rw [ha]
  rfl

theorem vsplit_bar (pv2 r vsq : String) (rest : List Char)
    (h2 : safeStr pv2 = true) (hvq : '|' ∉ vsq.data)
    (heq : pv2.data ++ '|' :: r.data = vsq.data ++ '|' :: rest) :
    pv2 = vsq ∧ r.data = rest := by
  obtain ⟨ha, hb⟩ := firstSep_inj '|' pv2.data vsq.data _ _
    (safeStr_no_bar pv2 h2) hvq heq
  exact ⟨String.ext ha, hb⟩

/-- Every store key of a good state carrying the field prefix
`indexes.field=` is a well-formed index entry of a stored document, and
its decoded lvalue is the encoded pair value. -/
theorem range_key_analysis (s : Store) (G : GoodState s) (field : String)
    (hfield : safeStr field = true) (k : String) (hks : k ∈ skeys s)
    (hpre : strStarts ("indexes." ++ field ++ "=") k = true) :
    ∃ pv r d, k = ixKeyS pv r ∧ sget s k = some (.raw r) ∧ readOp s r = some d ∧
      pv ∈ entryPairsDoc "" d ∧ pv.1 = "." ++ field ∧
      safeStr pv.2 = true ∧ safeStr r = true ∧ lvalueOf k = pv.2 ∧
      (∃ rest : List Char,
        k.data = ("indexes." ++ field ++ "=" : String).data ++ rest ∧
        rest = pv.2.data ++ '|' :: r.data) := by
  have hik : isIxKey k = true := by
    unfold isIxKey strStarts
    exact List.isPrefixOf_iff_prefix.mpr
      (List.IsPrefix.trans
        (by rw [pfx_data_field]
            exact List.prefix_append _ _)
        (List.isPrefixOf_iff_prefix.mp hpre))
  obtain ⟨v, hv⟩ := mem_skeys_sget s k hks
  cases v with
  | doc d =>
    exfalso
    have hsafe := (G.docs k d hv).1
    rw [(safeId_parts k hsafe).2.2.2] at hik
    exact absurd hik (by decide)
  | raw r =>
    obtain ⟨d, hrd, hkd⟩ := (G.ix r k).mp ⟨hik, hv⟩
    obtain ⟨pv, hpv, hkey⟩ := List.mem_map.mp hkd
    have hdd := readOp_some s r d hrd
    have hsafer : safeStr r = true := (safeId_parts r (G.docs r d hdd).1).2.1
    have hsd : safeDoc d = true := (G.docs r d hdd).2.1
    obtain ⟨hs1, hs2⟩ := safeDoc_pairs d hsd pv hpv
    obtain ⟨rest, hrest⟩ := List.isPrefixOf_iff_prefix.mp hpre
    have hkdata : (ixKeyS pv r).data
        = ("indexes." ++ field ++ "=" : String).data ++ rest := by
      rw [hkey]
      exact hrest.symm
    obtain ⟨hpv1, hsplit⟩ := ixKey_split_field pv r field rest hs1 hfield hkdata
    refine ⟨pv, r, d, hkey.symm, hv, hrd, hpv, hpv1, hs2, hsafer, ?_, rest, ?_, hsplit.symm⟩
    · rw [← hkey]
      exact lvalueOf_ixKeyS pv r hs1 hs2 hsafer
    · rw [← hkey]
      exact hkdata

theorem range_key_backward (s : Store) (G : GoodState s) (a : String) (d : Doc)
    (hrd : readOp s a = some d) (pv : String × String) (hpv : pv ∈ entryPairsDoc "" d) :
    sget s (ixKeyS pv a) = some (.raw a) ∧ ixKeyS pv a ∈ skeys s ∧
      safeStr pv.1 = true ∧ safeStr pv.2 = true ∧ safeStr a = true := by
  have hkd : ixKeyS pv a ∈ ixKeys a d := List.mem_map.mpr ⟨pv, hpv, rfl⟩
  obtain ⟨-, hv⟩ := (G.ix a (ixKeyS pv a)).mpr ⟨d, hrd, hkd⟩
  have hdd := readOp_some s a d hrd
  obtain ⟨h1, h2⟩ := safeDoc_pairs d (G.docs a d hdd).2.1 pv hpv
  exact ⟨hv, sget_mem_skeys s _ _ hv, h1, h2, (safeId_parts a (G.docs a d hdd).1).2.1⟩

theorem ixKey_data_of_field (field : String) (pv : String × String) (a : String)
    (hpv1 : pv.1 = "." ++ field) :
    (ixKeyS pv a).data
      = ("indexes." ++ field ++ "=" : String).data ++ (pv.2.data ++ '|' :: a.data) := by
  rw [ixKey_data_eq, pfx_data_field, hpv1]
  rw [show ("." ++ field : String).data = '.' :: field.data from rfl]
  simp

theorem range_key_inBounds (field : String) (pv : String × String) (a : String)
    (hpv1 : pv.1 = "." ++ field) (h2 : safeStr pv.2 = true) (ha : safeStr a = true) :
    inBounds (boundsGteLte ("indexes." ++ field ++ "=")
      ("indexes." ++ field ++ "=" ++ lastUni)) (ixKeyS pv a) = true := by
  have hkey : ixKeyS pv a = String.mk (("indexes." ++ field ++ "=" : String).data
      ++ (pv.2.data ++ '|' :: a.data)) :=
    String.ext (ixKey_data_of_field field pv a hpv1)
  rw [hkey]
  exact inRangeLte_right ("indexes." ++ field ++ "=") _ (by
    intro c hc
    rcases List.mem_append.mp hc with h | h
    · exact fun he => safeStr_no_max pv.2 h2 (he ▸ h)
    · rcases List.mem_cons.mp h with h2x | h2x
      · subst h2x
        decide
      · exact fun he => safeStr_no_max a ha (he ▸ h2x))

theorem mem_rangeFold_aux (s : Store) (op : String) (qv : Value) (ks : List String)
    (a : String) :
    ∀ acc, (a ∈ ks.foldl (fun acc k =>
        if numMatches op qv (lvalueOf k) then
          match sget s k with
          | some v => addId acc (storeValStr v)
          | none => acc
        else acc) acc ↔
      a ∈ acc ∨ ∃ k ∈ ks, numMatches op qv (lvalueOf k) = true ∧
        ∃ v, sget s k = some v ∧ storeValStr v = a) := by
  induction ks with
  | nil => simp
  | cons k ks ih =>
    intro acc
    rw [List.foldl_cons]
    by_cases hn : numMatches op qv (lvalueOf k) = true
    · rw [if_pos hn]
      cases hx : sget s k with
      | none =>
        rw [ih acc]
        constructor
        · rintro (h | ⟨k2, hk2, hn2, v, hv, ha⟩)
          · exact Or.inl h
          · exact Or.inr ⟨k2, List.mem_cons_of_mem k hk2, hn2, v, hv, ha⟩
        · rintro (h | ⟨k2, hk2, hn2, v, hv, ha⟩)
          · exact Or.inl h
          · rcases List.mem_cons.mp hk2 with h2 | h2
            · subst h2
              rw [hx] at hv
              exact absurd hv (by simp)
            · exact Or.inr ⟨k2, h2, hn2, v, hv, ha⟩
      | some v =>
        rw [ih (addId acc (storeValStr v)), mem_addId]
        constructor
        · rintro ((h | h) | ⟨k2, hk2, hn2, w, hw, ha⟩)
          · exact Or.inl h
          · exact Or.inr ⟨k, List.mem_cons_self k ks, hn, v, hx, h.symm⟩
          · exact Or.inr ⟨k2, List.mem_cons_of_mem k hk2, hn2, w, hw, ha⟩
        · rintro (h | ⟨k2, hk2, hn2, w, hw, ha⟩)
          · exact Or.inl (Or.inl h)
          · rcases List.mem_cons.mp hk2 with h2 | h2
            · subst h2
              rw [hx] at hw
              injection hw with hw2
              subst hw2
              exact Or.inl (Or.inr ha.symm)
            · exact Or.inr ⟨k2, h2, hn2, w, hw, ha⟩
    · rw [if_neg hn, ih acc]
      constructor
      · rintro (h | ⟨k2, hk2, hn2, v, hv, ha⟩)
        · exact Or.inl h
        · exact Or.inr ⟨k2, List.mem_cons_of_mem k hk2, hn2, v, hv, ha⟩
      · rintro (h | ⟨k2, hk2, hn2, v, hv, ha⟩)
        · exact Or.inl h
        · rcases List.mem_cons.mp hk2 with h2 | h2
          · subst h2
            exact absurd hn2 hn
          · exact Or.inr ⟨k2, h2, hn2, v, hv, ha⟩

/-- C6 (amended): over a reachable safely-encoded store and a
separator-free field name, a range operator returns exactly the ids of
stored documents carrying an indexed entry under that field whose decoded
value numerically parses and satisfies the comparison (`numMatches` is
the source's parse-then-compare filter; values that do not parse never
match). -/
theorem c6_range_scan (s : Store) (h : Reachable s) (field : String)
    (hfield : safeStr field = true) (op : String)
    (_hop : op = "$gt" ∨ op = "$gte" ∨ op = "$lt" ∨ op = "$lte")
    (qv : Value) (a : String) :
    a ∈ getIdsForKeyValueRange s field op qv ↔
      ∃ d, readOp s a = some d ∧ ∃ pv ∈ entryPairsDoc "" d,
        pv.1 = "." ++ field ∧ numMatches op qv pv.2 = true := by
  have G := goodState_of_reachable s h
  unfold getIdsForKeyValueRange
  rw [mem_rangeFold_aux s op qv _ a []]
  simp only [List.not_mem_nil, false_or]
  constructor
  · rintro ⟨k, hk, hnum, v, hv, ha⟩
    rw [mem_scanKeys] at hk
    obtain ⟨hks, hb⟩ := hk
    have hpre := inRangeLte_left _ k hb
    obtain ⟨pv, r, d, hkey, hraw, hrd, hpv, hpv1, -, -, hlv, -⟩ :=
      range_key_analysis s G field hfield k hks hpre
    rw [hraw] at hv
    injection hv with hv2
    subst hv2
    rw [show storeValStr (StoreVal.raw r) = r from rfl] at ha
    subst ha
    refine ⟨d, hrd, pv, hpv, hpv1, ?_⟩
    rw [← hlv]
    exact hnum
  · rintro ⟨d, hrd, pv, hpv, hpv1, hnum⟩
    obtain ⟨hraw, hmemk, h1, h2, ha⟩ := range_key_backward s G a d hrd pv hpv
    refine ⟨ixKeyS pv a, ?_, ?_, .raw a, hraw, rfl⟩
    · rw [mem_scanKeys]
      exact ⟨hmemk, range_key_inBounds field pv a hpv1 h2 ha⟩
    · rw [lvalueOf_ixKeyS pv a h1 h2 ha]
      exact hnum

theorem c6_range_scan_witness :
    ("w9" ∈ getIdsForKeyValueRange
        (insertOp (insertOp [] [("id", Value.str "u5"), ("value", Value.num 5)] "g1").2
          [("id", Value.str "w9"), ("value", Value.num 10)] "g2").2
        "value" "$gt" (Value.num 7) ↔
      ∃ d, readOp
          (insertOp (insertOp [] [("id", Value.str "u5"), ("value", Value.num 5)] "g1").2
            [("id", Value.str "w9"), ("value", Value.num 10)] "g2").2 "w9" = some d ∧
        ∃ pv ∈ entryPairsDoc "" d,
          pv.1 = "." ++ "value" ∧ numMatches "$gt" (Value.num 7) pv.2 = true) :=
  c6_range_scan _
    (Reachable.insert _ [("id", Value.str "w9"), ("value", Value.num 10)] "g2"
      (Reachable.insert [] [("id", Value.str "u5"), ("value", Value.num 5)] "g1"
        Reachable.empty (by decide)
        (fun v hv => by
          rw [lookupDoc_cons, if_pos rfl] at hv
          exact ⟨"u5", by injection hv with h; exact h.symm⟩)
        (fun t ht => by
          rw [show getIdField [("id", Value.str "u5"), ("value", Value.num 5)]
            = some "u5" from rfl] at ht
          injection ht with h
          rw [← h]
          decide)
        (by decide) rfl)
      (by decide)
      (fun v hv => by
        rw [lookupDoc_cons, if_pos rfl] at hv
        exact ⟨"w9", by injection hv with h; exact h.symm⟩)
      (fun t ht => by
        rw [show getIdField [("id", Value.str "w9"), ("value", Value.num 10)]
          = some "w9" from rfl] at ht
        injection ht with h
        rw [← h]
        decide)
      (by decide) rfl)
    "value" (by decide) "$gt" (Or.inl rfl) (Value.num 7) "w9"

/-! ## C2: the counter fast path versus the materialized id-set -/

theorem ctrKeyS_data_eq (pv : String × String) :
    (ctrKeyS pv).data = "counts".data ++ (pv.1.data ++ '=' :: pv.2.data) := by
  show ("counts" ++ pv.1 ++ "=" ++ pv.2).data = _
  rw [show ("counts" ++ pv.1 ++ "=" ++ pv.2).data
      = "counts".data ++ pv.1.data ++ "=".data ++ pv.2.data from rfl]
  simp

theorem ctrKeyS_inj_safe (pv : String × String) (field vs : String)
    (h1 : safeStr pv.1 = true) (hf : safeStr field = true)
    (heq : ctrKeyS pv = ctrKeyS ("." ++ field, vs)) : pv = ("." ++ field, vs) := by
  have hd := congrArg String.data heq
  rw [ctrKeyS_data_eq, ctrKeyS_data_eq] at hd
  have hd2 := List.append_cancel_left hd
  rw [show (("." ++ field, vs) : String × String).1.data = '.' :: field.data from rfl,
    show (("." ++ field, vs) : String × String).2.data = vs.data from rfl] at hd2
  have hno2 : '=' ∉ '.' :: field.data := by
    intro hm
    rcases List.mem_cons.mp hm with h | h
    · exact absurd h (by decide)
    · exact safeStr_no_eq field hf h
  obtain ⟨ha, hb⟩ := firstSep_inj '=' pv.1.data ('.' :: field.data) _ _
    (safeStr_no_eq pv.1 h1) hno2 hd2
  obtain ⟨x, y⟩ := pv
  simp only [Prod.mk.injEq]
  constructor
  · exact String.ext ha
  · exact String.ext hb

theorem countCK_pos_iff (d : Doc) (hsd : safeDoc d = true) (field vs : String)
    (hf : safeStr field = true) :
    0 < countCK d (ctrKeyS ("." ++ field, vs)) ↔
      ("." ++ field, vs) ∈ entryPairsDoc "" d := by
  rw [countCK_def, List.countP_pos_iff]
  constructor
  · rintro ⟨pv, hpv, hp⟩
    rw [decide_eq_true_eq] at hp
    have hpv' := ctrKeyS_inj_safe pv field vs (safeDoc_pairs d hsd pv hpv).1 hf hp
    rw [← hpv']
    exact hpv
  · intro hm
    exact ⟨("." ++ field, vs), hm, by rw [decide_eq_true_eq]⟩

theorem totalMult_length (s : Store) (ck : String)
    (honce : ∀ kv ∈ s, docMult kv.2 ck ≤ 1) :
    totalMultCK s ck
      = ((s.filter (fun kv => decide (0 < docMult kv.2 ck))).map (fun kv => kv.1)).length := by
  induction s with
  | nil => rfl
  | cons kv rest ih =>
    have hsum : totalMultCK (kv :: rest) ck = docMult kv.2 ck + totalMultCK rest ck := rfl
    rw [hsum, List.filter_cons]
    have hone := honce kv (List.mem_cons_self kv rest)
    have hrest := ih (fun x hx => honce x (List.mem_cons_of_mem kv hx))
    by_cases hm : 0 < docMult kv.2 ck
    · rw [if_pos (by rw [decide_eq_true_eq]; exact hm)]
      rw [List.map_cons, List.length_cons]
      omega
    · rw [if_neg (by rw [decide_eq_true_eq]; exact hm)]
      omega

theorem sget_of_mem_nodup (s : Store) (hnd : (skeys s).Nodup) (k : String)
    (v : StoreVal) (h : (k, v) ∈ s) : sget s k = some v := by
  induction s with
  | nil => exact absurd h (by simp)
  | cons kv rest ih =>
    obtain ⟨k₀, v₀⟩ := kv
    rw [show skeys ((k₀, v₀) :: rest) = k₀ :: skeys rest from rfl,
      List.nodup_cons] at hnd
    rcases List.mem_cons.mp h with h0 | h0
    · injection h0 with h1 h2
      rw [sget, if_pos h1.symm, h2]
    · have hk : k₀ ≠ k := by
        intro he
        exact hnd.1 (he ▸ List.mem_map.mpr ⟨(k, v), h0, rfl⟩)
      rw [sget, if_neg hk]
      exact ih hnd.2 h0

theorem nodup_addId (l : List String) (x : String) (h : l.Nodup) : (addId l x).Nodup := by
  unfold addId
  split
  · exact h
  · rename_i hx
    rw [List.nodup_append]
    exact ⟨h, List.nodup_singleton x, by simpa using hx⟩

theorem nodup_collectIds_aux (s : Store) (ks : List String) :
    ∀ acc : List String, acc.Nodup →
      (ks.foldl (fun acc k =>
        match sget s k with
        | some v => addId acc (storeValStr v)
        | none => acc) acc).Nodup := by
  induction ks with
  | nil => exact fun acc h => h
  | cons k ks ih =>
    intro acc h
    rw [List.foldl_cons]
    cases hx : sget s k with
    | none => exact ih acc h
    | some v => exact ih _ (nodup_addId acc (storeValStr v) h)

theorem nodup_collectIds (s : Store) (ks : List String) : (collectIds s ks).Nodup :=
  nodup_collectIds_aux s ks [] List.nodup_nil

theorem length_filterMap_all {α β : Type} (f : α → Option β) (l : List α)
    (h : ∀ a ∈ l, (f a).isSome = true) : (l.filterMap f).length = l.length := by
  induction l with
  | nil => rfl
  | cons a rest ih =>
    rw [List.filterMap_cons]
    cases hf : f a with
    | none =>
      have := h a (List.mem_cons_self a rest)
      rw [hf] at this
      exact absurd this (by simp)
    | some b =>
      have := ih (fun x hx => h x (List.mem_cons_of_mem a hx))
      show (List.filterMap f rest).length + 1 = rest.length + 1
      omega

theorem mem_getIdsForKeyValue (s : Store) (G : GoodState s) (field : String)
    (hfield : safeStr field = true) (v : Value)
    (hvs : safeStr (valueToString v) = true) (a : String) :
    a ∈ getIdsForKeyValue s field v ↔
      ∃ d, readOp s a = some d ∧
        ("." ++ field, valueToString v) ∈ entryPairsDoc "" d := by
  unfold getIdsForKeyValue
  rw [mem_collectIds]
  have hP' : ("indexes." ++ field ++ "=" ++ valueToString v ++ "|" : String).data
      = ("indexes." ++ field ++ "=" : String).data ++ (valueToString v).data ++ ['|'] := rfl
  constructor
  · rintro ⟨k, hk, w, hw, ha⟩
    rw [mem_scanKeys] at hk
    obtain ⟨hks, hb⟩ := hk
    have hpre' := inRangeLte_left _ k hb
    obtain ⟨rest', hrest'⟩ := List.isPrefixOf_iff_prefix.mp hpre'
    have hpre : strStarts ("indexes." ++ field ++ "=") k = true := by
      unfold strStarts
      apply List.isPrefixOf_iff_prefix.mpr
      refine ⟨(valueToString v).data ++ '|' :: rest', ?_⟩
      rw [← hrest', hP']
      simp
    obtain ⟨pv, r, d, hkey, hraw, hrd, hpv, hpv1, hs2, hsr, hlv, rest, hkP, hshape⟩ :=
      range_key_analysis s G field hfield k hks hpre
    have hre : rest = (valueToString v).data ++ '|' :: rest' := by
      have h1 : ("indexes." ++ field ++ "=" : String).data ++ rest
          = ("indexes." ++ field ++ "=" : String).data
            ++ ((valueToString v).data ++ '|' :: rest') := by
        rw [← hkP, ← hrest', hP']
        simp
      exact List.append_cancel_left h1
    rw [hshape] at hre
    obtain ⟨hpv2, -⟩ :=
      vsplit_bar pv.2 r (valueToString v) rest' hs2 (safeStr_no_bar _ hvs) hre
    rw [hraw] at hw
    injection hw with hw2
    subst hw2
    rw [show storeValStr (StoreVal.raw r) = r from rfl] at ha
    subst ha
    refine ⟨d, hrd, ?_⟩
    have hpveq : pv = ("." ++ field, valueToString v) := by
      obtain ⟨x, y⟩ := pv
      simp only [Prod.mk.injEq]
      exact ⟨hpv1, hpv2⟩
    rw [← hpveq]
    exact hpv
  · rintro ⟨d, hrd, hpair⟩
    obtain ⟨hraw, hmemk, h1, h2, ha⟩ :=
      range_key_backward s G a d hrd ("." ++ field, valueToString v) hpair
    refine ⟨ixKeyS ("." ++ field, valueToString v) a, ?_, .raw a, hraw, rfl⟩
    rw [mem_scanKeys]
    refine ⟨hmemk, ?_⟩
    have hdata : (ixKeyS ("." ++ field, valueToString v) a).data
        = ("indexes." ++ field ++ "=" ++ valueToString v ++ "|" : String).data
          ++ a.data := by
      rw [ixKey_data_of_field field _ a rfl, hP']
      simp
    have hkey2 : ixKeyS ("." ++ field, valueToString v) a
        = String.mk (("indexes." ++ field ++ "=" ++ valueToString v ++ "|" : String).data
          ++ a.data) := String.ext hdata
    rw [hkey2]
    exact inRangeLte_right _ a.data (fun c hc he => safeStr_no_max a ha (he ▸ hc))

/-- C2 (amended): for a single-field literal query `{field: v}` (no `$or`,
no operator object) over a reachable safely-encoded store, provided each
document indexes the pair at most once and the pair does not collide with
the internal total counter, the `count` fast path (a single counter read)
equals the length of `query`'s materialized result. -/
theorem c2_count_eq_query_single_field (s : Store) (h : Reachable s)
    (field : String) (hfield : safeStr field = true)
    (hds : strStarts "$" field = false)
    (v : Value) (hvop : isOpObject v = false)
    (hvs : safeStr (valueToString v) = true)
    (hcoll : ctrKeyS ("." ++ field, valueToString v) ≠ totalCtrKey)
    (honce : ∀ id d, readOp s id = some d →
      countCK d (ctrKeyS ("." ++ field, valueToString v)) ≤ 1) :
    ∃ r, queryOp s (some (Value.obj [(field, v)])) = .ok r ∧
      countOp s (some (Value.obj [(field, v)])) = .ok (r.length : Int) := by
  have G := goodState_of_reachable s h
  have hfor : ¬ (field = "$or") := by
    intro he
    rw [he] at hds
    exact absurd hds (by decide)
  have hgo : queryGo s [(field, v)] none = .ok (getIdsForKeyValue s field v) := by
    cases v with
    | obj fl =>
      rw [queryGo, if_neg hfor, if_neg (by simp [hds]), hvop]
      rfl
    | str t =>
      rw [queryGo, if_neg hfor, if_neg (by simp [hds])]
      all_goals first
      | rfl
      | (intro _ h2; exact Value.noConfusion h2)
    | num n =>
      rw [queryGo, if_neg hfor, if_neg (by simp [hds])]
      all_goals first
      | rfl
      | (intro _ h2; exact Value.noConfusion h2)
    | bool b =>
      rw [queryGo, if_neg hfor, if_neg (by simp [hds])]
      all_goals first
      | rfl
      | (intro _ h2; exact Value.noConfusion h2)
    | arr xs =>
      rw [queryGo, if_neg hfor, if_neg (by simp [hds])]
      rfl
  have hq : queryOp s (some (Value.obj [(field, v)])) =
      .ok ((getIdsForKeyValue s field v).filterMap (readOp s)) := by
    show queryDocsV s (Value.obj [(field, v)]) = _
    rw [show queryDocsV s (Value.obj [(field, v)])
        = (match queryGo s [(field, v)] none with
           | .error e => .error e
           | .ok ids => .ok (ids.filterMap (readOp s))) from rfl, hgo]
  have hc : countOp s (some (Value.obj [(field, v)])) =
      .ok (readCtr s (ctrKeyS ("." ++ field, valueToString v))) := by
    show countGo s [(field, v)] none = _
    cases v with
    | obj fl =>
      rw [countGo, if_neg hfor, if_neg (by simp [hds]), hvop]
      rfl
    | str t =>
      rw [countGo, if_neg hfor, if_neg (by simp [hds])]
      all_goals first
      | rfl
      | (intro _ h2; exact Value.noConfusion h2)
    | num n =>
      rw [countGo, if_neg hfor, if_neg (by simp [hds])]
      all_goals first
      | rfl
      | (intro _ h2; exact Value.noConfusion h2)
    | bool b =>
      rw [countGo, if_neg hfor, if_neg (by simp [hds])]
      all_goals first
      | rfl
      | (intro _ h2; exact Value.noConfusion h2)
    | arr xs =>
      rw [countGo, if_neg hfor, if_neg (by simp [hds])]
      rfl
  have hckctr : isCtrKey (ctrKeyS ("." ++ field, valueToString v)) = true :=
    isCtrKey_ctrKeyS _
  have hmem : ∀ a, a ∈ getIdsForKeyValue s field v ↔
      ∃ d, readOp s a = some d ∧
        ("." ++ field, valueToString v) ∈ entryPairsDoc "" d :=
    fun a => mem_getIdsForKeyValue s G field hfield v hvs a
  have hlen : ((getIdsForKeyValue s field v).filterMap (readOp s)).length
      = (getIdsForKeyValue s field v).length := by
    apply length_filterMap_all
    intro a haid
    obtain ⟨d, hrd, -⟩ := (hmem a).mp haid
    rw [hrd]
    rfl
  have hndP : ((s.filter (fun kv =>
      decide (0 < docMult kv.2 (ctrKeyS ("." ++ field, valueToString v))))).map
        (fun kv => kv.1)).Nodup :=
    List.Nodup.sublist (List.Sublist.map _ (List.filter_sublist s)) G.nd
  have hmemP : ∀ a, a ∈ ((s.filter (fun kv =>
      decide (0 < docMult kv.2 (ctrKeyS ("." ++ field, valueToString v))))).map
        (fun kv => kv.1)) ↔
      ∃ d, sget s a = some (.doc d) ∧
        0 < countCK d (ctrKeyS ("." ++ field, valueToString v)) := by
    intro a
    constructor
    · intro hm
      obtain ⟨kv, hkv, hfst⟩ := List.mem_map.mp hm
      obtain ⟨hkvs, hp⟩ := List.mem_filter.mp hkv
      rw [decide_eq_true_eq] at hp
      obtain ⟨k₀, v₀⟩ := kv
      cases v₀ with
      | raw r => exact absurd hp (by simp [docMult])
      | doc d =>
        subst hfst
        exact ⟨d, sget_of_mem_nodup s G.nd _ _ hkvs, hp⟩
    · rintro ⟨d, hv, hp⟩
      exact List.mem_map.mpr ⟨(a, .doc d), List.mem_filter.mpr
        ⟨sget_mem s a _ hv, by rw [decide_eq_true_eq]; exact hp⟩, rfl⟩
  have hiff : ∀ a, a ∈ getIdsForKeyValue s field v ↔
      a ∈ ((s.filter (fun kv =>
        decide (0 < docMult kv.2 (ctrKeyS ("." ++ field, valueToString v))))).map
          (fun kv => kv.1)) := by
    intro a
    rw [hmem a, hmemP a]
    constructor
    · rintro ⟨d, hrd, hpair⟩
      have hdd := readOp_some s a d hrd
      refine ⟨d, hdd, ?_⟩
      rw [countCK_pos_iff d (G.docs a d hdd).2.1 field (valueToString v) hfield]
      exact hpair
    · rintro ⟨d, hv, hp⟩
      refine ⟨d, readOp_doc s a d hv, ?_⟩
      rw [← countCK_pos_iff d (G.docs a d hv).2.1 field (valueToString v) hfield] at *
      exact hp
  have hlen2 : (getIdsForKeyValue s field v).length
      = ((s.filter (fun kv =>
        decide (0 < docMult kv.2 (ctrKeyS ("." ++ field, valueToString v))))).map
          (fun kv => kv.1)).length :=
    ((List.perm_ext_iff_of_nodup (nodup_collectIds s _) hndP).mpr hiff).length_eq
  have honce' : ∀ kv ∈ s, docMult kv.2 (ctrKeyS ("." ++ field, valueToString v)) ≤ 1 := by
    intro kv hkv
    obtain ⟨k₀, v₀⟩ := kv
    cases v₀ with
    | raw r => simp [docMult]
    | doc d =>
      have hv := sget_of_mem_nodup s G.nd k₀ _ hkv
      exact honce k₀ d (readOp_doc s k₀ d hv)
  have htm := totalMult_length s (ctrKeyS ("." ++ field, valueToString v)) honce'
  have hacc := G.acc (ctrKeyS ("." ++ field, valueToString v)) hckctr
  rw [if_neg hcoll] at hacc
  refine ⟨(getIdsForKeyValue s field v).filterMap (readOp s), hq, ?_⟩
  rw [hc]
  congr 1
  have hnum : ctrNat s (ctrKeyS ("." ++ field, valueToString v))
      = ((getIdsForKeyValue s field v).filterMap (readOp s)).length := by
    rw [hlen, hlen2, ← htm]
    omega
  rw [show readCtr s (ctrKeyS ("." ++ field, valueToString v))
      = (ctrNat s (ctrKeyS ("." ++ field, valueToString v)) : Int) from by
    have hpos := readCtr_nonneg s G.pos _ hckctr
    unfold ctrNat
    omega]
  rw [hnum]

theorem c2_count_eq_query_witness :
    ∃ r, queryOp (insertOp [] [("id", Value.str "a1"), ("k", Value.num 1)] "g").2
        (some (Value.obj [("k", Value.num 1)])) = .ok r ∧
      countOp (insertOp [] [("id", Value.str "a1"), ("k", Value.num 1)] "g").2
        (some (Value.obj [("k", Value.num 1)])) = .ok (r.length : Int) :=
  c2_count_eq_query_single_field _
    (Reachable.insert [] [("id", Value.str "a1"), ("k", Value.num 1)] "g"
      Reachable.empty (by decide)
      (fun v hv => by
        rw [lookupDoc_cons, if_pos rfl] at hv
        exact ⟨"a1", by injection hv with h; exact h.symm⟩)
      (fun t ht => by
        rw [show getIdField [("id", Value.str "a1"), ("k", Value.num 1)] = some "a1"
          from rfl] at ht
        injection ht with h
        rw [← h]
        decide)
      (by decide) rfl)
    "k" (by decide) (by decide) (Value.num 1) (by decide) (by decide) (by decide)
    (by
      intro id d hrd
      have hm := sget_mem _ id _ (readOp_some _ id d hrd)
      rw [show (insertOp [] [("id", Value.str "a1"), ("k", Value.num 1)] "g").2 =
          [("counts.__total__=documents", StoreVal.raw "1"),
           ("counts.k=1", StoreVal.raw "1"),
           ("indexes.k=1|a1", StoreVal.raw "a1"),
           ("counts.id=a1", StoreVal.raw "1"),
           ("indexes.id=a1|a1", StoreVal.raw "a1"),
           ("a1", StoreVal.doc [("id", Value.str "a1"), ("k", Value.num 1)])]
        from rfl] at hm
      simp only [List.mem_cons, List.not_mem_nil, or_false, Prod.mk.injEq,
        reduceCtorEq, and_false, false_or] at hm
      have hd : d = [("id", Value.str "a1"), ("k", Value.num 1)] := by
        injection hm.2
      rw [hd]
      decide)
